import Mathlib

set_option maxHeartbeats 1600000

/-!
Verification of the CppCommon intrusive containers.

Part 1 embeds the intrusive doubly linked list from
src/performance/containers_bintree.cpp (the inlined list.inl implementation,
lines 438-592): nodes are named by natural-number ids, `none` models a null
pointer, and the pointer heap is a function from ids to link records.

Part 2 models the intrusive binary search tree family (plain, AA, AVL,
Red-Black, Splay) from the specification, since the bintree*.h headers are not
part of the provided sources.
-/

/-- A node of the intrusive `List<T>` (list.inl): every caller-owned item
carries a `next` and a `prev` pointer. `none` models `nullptr`. -/
structure ListNode where
  next : Option Nat
  prev : Option Nat
deriving DecidableEq

/-- The state of an intrusive `List<T>`: the pointer heap (link records of all
nodes, addressed by id) together with the `_front` and `_back` head pointers. -/
structure IList where
  nodes : Nat → ListNode
  front : Option Nat
  back : Option Nat

/-- Pointer-heap update: assign the link record of node `i`. -/
def setNode (m : Nat → ListNode) (i : Nat) (v : ListNode) : Nat → ListNode :=
  fun j => if j = i then v else m j

@[simp] theorem setNode_same (m : Nat → ListNode) (i : Nat) (v : ListNode) :
    setNode m i v i = v := by simp [setNode]

theorem setNode_other (m : Nat → ListNode) (i j : Nat) (v : ListNode) (h : j ≠ i) :
    setNode m i v j = m j := by simp [setNode, h]

/-- `List<T>::PopFront` (list.inl lines 490-505), translated statement by
statement; the returned value is paired with the post state. -/
def IList.PopFront (l : IList) : Option Nat × IList :=
  match l.front with
  | none => (none, l)
  | some result =>
      let front1 := (l.nodes result).next
      let nodes1 := setNode l.nodes result ⟨none, none⟩
      match front1 with
      | none => (some result, ⟨nodes1, none, none⟩)
      | some f => (some result, ⟨setNode nodes1 f ⟨(nodes1 f).next, none⟩, some f, l.back⟩)

/-- `List<T>::PopBack` (list.inl lines 507-522), the mirror of `PopFront`. -/
def IList.PopBack (l : IList) : Option Nat × IList :=
  match l.back with
  | none => (none, l)
  | some result =>
      let back1 := (l.nodes result).prev
      let nodes1 := setNode l.nodes result ⟨none, none⟩
      match back1 with
      | none => (some result, ⟨nodes1, none, none⟩)
      | some b => (some result, ⟨setNode nodes1 b ⟨none, (nodes1 b).prev⟩, l.front, some b⟩)

/-- `List<T>::PopCurrent` (list.inl lines 524-539): unlink `base` from the
middle of the list. The C++ statements are replayed in order on the state. -/
def IList.PopCurrent (l : IList) (base : Nat) : Nat × IList :=
  let s1 : IList :=
    match (l.nodes base).next with
    | some n => { l with nodes := setNode l.nodes n { l.nodes n with prev := (l.nodes base).prev } }
    | none => { l with back := (l.nodes base).prev }
  let s2 : IList :=
    match (s1.nodes base).prev with
    | some p => { s1 with nodes := setNode s1.nodes p { s1.nodes p with next := (s1.nodes base).next } }
    | none => { s1 with front := (s1.nodes base).next }
  (base, { s2 with nodes := setNode s2.nodes base ⟨none, none⟩ })

/-- `List<T>::PopNext` (list.inl lines 541-556): unlink and return the
successor of `base`, or null when there is none. -/
def IList.PopNext (l : IList) (base : Nat) : Option Nat × IList :=
  match (l.nodes base).next with
  | none => (none, l)
  | some result =>
      let s1 : IList :=
        match (l.nodes result).next with
        | some n => { l with nodes := setNode l.nodes n { l.nodes n with prev := some base } }
        | none => { l with back := some base }
      let s2 : IList :=
        { s1 with nodes := setNode s1.nodes base { s1.nodes base with next := (s1.nodes result).next } }
      (some result, { s2 with nodes := setNode s2.nodes result ⟨none, none⟩ })

/-- `List<T>::PopPrev` (list.inl lines 558-573): unlink and return the
predecessor of `base`, or null when there is none. -/
def IList.PopPrev (l : IList) (base : Nat) : Option Nat × IList :=
  match (l.nodes base).prev with
  | none => (none, l)
  | some result =>
      let s1 : IList :=
        match (l.nodes result).prev with
        | some p => { l with nodes := setNode l.nodes p { l.nodes p with next := some base } }
        | none => { l with front := some base }
      let s2 : IList :=
        { s1 with nodes := setNode s1.nodes base { s1.nodes base with prev := (s1.nodes result).prev } }
      (some result, { s2 with nodes := setNode s2.nodes result ⟨none, none⟩ })

/-- The loop body of `List<T>::Reverse` (list.inl lines 575-592): swap the
`next`/`prev` links of each node along the `next` chain. `fuel` bounds the
number of iterations (the C++ loop runs until the null pointer; any fuel at
least the length of the list reproduces it exactly). -/
def reverseLoop : Nat → (Nat → ListNode) → Option Nat → Option Nat → (Nat → ListNode) × Option Nat
  | 0, nodes, prev, _ => (nodes, prev)
  | fuel + 1, nodes, prev, current =>
      match current with
      | none => (nodes, prev)
      | some c =>
          let next := (nodes c).next
          reverseLoop fuel (setNode nodes c ⟨prev, next⟩) (some c) next

/-- `List<T>::Reverse` (list.inl lines 575-592): `_back` is set to the old
`_front`, the links are swapped along the chain, and `_front` becomes the last
visited node. -/
def IList.Reverse (l : IList) (fuel : Nat) : IList :=
  let r := reverseLoop fuel l.nodes none l.front
  ⟨r.1, r.2, l.front⟩

/-- Adjacent links of the doubly linked chain: `chainB nodes ids` checks that
consecutive ids in `ids` are mutually linked through `next`/`prev`. -/
def chainB (nodes : Nat → ListNode) : List Nat → Bool
  | [] => true
  | [_] => true
  | a :: b :: rest =>
      ((nodes a).next == some b) && ((nodes b).prev == some a) && chainB nodes (b :: rest)

/-- The head of a represented list has a null `prev`. -/
def headPrevOk (l : IList) (ids : List Nat) : Bool :=
  ids.head?.all fun x => (l.nodes x).prev == none

/-- The last node of a represented list has a null `next`. -/
def lastNextOk (l : IList) (ids : List Nat) : Bool :=
  ids.getLast?.all fun x => (l.nodes x).next == none

/-- `represents l ids`: the list state `l` is a consistent doubly linked chain
holding exactly the distinct nodes `ids` in forward order between `_front` and
`_back`. -/
def represents (l : IList) (ids : List Nat) : Prop :=
  l.front = ids.head? ∧ l.back = ids.getLast? ∧ ids.Nodup ∧
    chainB l.nodes ids = true ∧ headPrevOk l ids = true ∧ lastNextOk l ids = true

instance (l : IList) (ids : List Nat) : Decidable (represents l ids) := by
  unfold represents; infer_instance

@[simp] theorem chainB_nil (nodes : Nat → ListNode) : chainB nodes [] = true := rfl

@[simp] theorem chainB_one (nodes : Nat → ListNode) (a : Nat) : chainB nodes [a] = true := rfl

@[simp] theorem chainB_cons_cons (nodes : Nat → ListNode) (a b : Nat) (rest : List Nat) :
    chainB nodes (a :: b :: rest) =
      (((nodes a).next == some b) && ((nodes b).prev == some a) && chainB nodes (b :: rest)) :=
  rfl

theorem chainB_append_iff (nodes : Nat → ListNode) (ys : List Nat) :
    ∀ xs : List Nat,
      (chainB nodes (xs ++ ys) = true ↔
        (chainB nodes xs = true ∧ chainB nodes ys = true ∧
          ∀ a c, xs.getLast? = some a → ys.head? = some c →
            ((nodes a).next = some c ∧ (nodes c).prev = some a)))
  | [] => by simp
  | [x] => by
    cases ys with
    | nil => simp
    | cons y ys' => simp [beq_iff_eq]; tauto
  | x :: x' :: xs' => by
    have ih := chainB_append_iff nodes ys (x' :: xs')
    simp only [List.cons_append] at ih ⊢
    simp only [chainB_cons_cons, Bool.and_eq_true, beq_iff_eq, ih, List.getLast?_cons_cons]
    tauto

theorem chainB_congr (nodes nodes' : Nat → ListNode) :
    ∀ ids : List Nat,
      (∀ x ∈ ids.dropLast, (nodes' x).next = (nodes x).next) →
      (∀ x ∈ ids.tail, (nodes' x).prev = (nodes x).prev) →
      chainB nodes' ids = chainB nodes ids
  | [] => fun _ _ => rfl
  | [_] => fun _ _ => rfl
  | a :: b :: rest => by
    intro hn hp
    have e1 : (nodes' a).next = (nodes a).next := hn a (by simp)
    have e2 : (nodes' b).prev = (nodes b).prev := hp b (by simp)
    have ih := chainB_congr nodes nodes' (b :: rest)
      (fun x hx => hn x (by simp at hx ⊢; tauto))
      (fun x hx => hp x (by simp at hx ⊢; tauto))
    show (((nodes' a).next == some b) && ((nodes' b).prev == some a) &&
        chainB nodes' (b :: rest)) =
      (((nodes a).next == some b) && ((nodes b).prev == some a) && chainB nodes (b :: rest))
    rw [e1, e2, ih]

theorem getLast?_not_mem_dropLast (l : List Nat) (a : Nat)
    (h : l.getLast? = some a) (hn : l.Nodup) : a ∉ l.dropLast := by
  have hne : l ≠ [] := by rintro rfl; simp at h
  have he : l.dropLast ++ [l.getLast hne] = l := List.dropLast_append_getLast hne
  have ha : l.getLast hne = a := by
    rw [List.getLast?_eq_getLast l hne] at h
    exact Option.some.inj h
  subst ha
  rw [← he] at hn
  have hd := List.disjoint_of_nodup_append hn
  intro hm
  exact hd hm (by simp)

theorem head?_not_mem_tail (l : List Nat) (a : Nat)
    (h : l.head? = some a) (hn : l.Nodup) : a ∉ l.tail := by
  cases l with
  | nil => simp at h
  | cons x t =>
    simp only [List.head?_cons, Option.some.injEq] at h
    subst h
    simp only [List.nodup_cons] at hn
    simpa using hn.1

/-- The `next`/`prev` fields of a node sitting between `pre` and `post` in a
represented list. -/
theorem represents_mid_fields (l : IList) (pre post : List Nat) (b : Nat)
    (h : represents l (pre ++ b :: post)) :
    (l.nodes b).prev = pre.getLast? ∧ (l.nodes b).next = post.head? := by
  obtain ⟨hf, hb, hnd, hch, hhp, hln⟩ := h
  obtain ⟨hchpre, hchbpost, hbdy⟩ := (chainB_append_iff l.nodes (b :: post) pre).mp hch
  constructor
  · cases pre with
    | nil =>
      have hh : (([] : List Nat) ++ b :: post).head? = some b := rfl
      unfold headPrevOk at hhp
      rw [hh] at hhp
      simpa using hhp
    | cons p0 pre' =>
      cases hg : (p0 :: pre').getLast? with
      | none => simp [List.getLast?] at hg
      | some a => exact (hbdy a b hg rfl).2
  · cases post with
    | nil =>
      have hl : (pre ++ [b]).getLast? = some b := by
        rw [List.getLast?_append]
        rfl
      unfold lastNextOk at hln
      rw [hl] at hln
      simpa using hln
    | cons c post' =>
      simp only [chainB_cons_cons, Bool.and_eq_true, beq_iff_eq] at hchbpost
      exact hchbpost.1.1

/-- Master surgery lemma: if `l` represents `pre ++ b :: post` and `l'` is any
state whose front/back point at the ends of `pre ++ post` and whose pointer
heap performs exactly the unlink surgery (the last node of `pre` now points
forward to the head of `post`, which points back to it; every other remaining
node is untouched), then `l'` represents `pre ++ post`. -/
theorem detach_represents (l l' : IList) (pre post : List Nat) (b : Nat)
    (h : represents l (pre ++ b :: post))
    (hfront : l'.front = (pre ++ post).head?)
    (hback : l'.back = (pre ++ post).getLast?)
    (hnodes : ∀ x ∈ pre ++ post,
        l'.nodes x =
          if pre.getLast? = some x then { l.nodes x with next := post.head? }
          else if post.head? = some x then { l.nodes x with prev := pre.getLast? }
          else l.nodes x) :
    represents l' (pre ++ post) := by
  obtain ⟨hf, hb, hnd, hch, hhp, hln⟩ := h
  have hndsub : (pre ++ post).Nodup :=
    (List.Sublist.append_left (List.sublist_cons_self b post) pre).nodup hnd
  have hdisj : ∀ x, x ∈ pre → x ∈ post → False := fun x h1 h2 =>
    List.disjoint_of_nodup_append hndsub h1 h2
  have hndpre : pre.Nodup := hndsub.of_append_left
  have hndpost : post.Nodup := hndsub.of_append_right
  obtain ⟨hchpre, hchbpost, hbdy⟩ := (chainB_append_iff l.nodes (b :: post) pre).mp hch
  have hchpost : chainB l.nodes post = true := by
    cases post with
    | nil => simp
    | cons c post' =>
      simp only [chainB_cons_cons, Bool.and_eq_true] at hchbpost
      exact hchbpost.2
  have hnext' : ∀ x ∈ pre ++ post,
      (l'.nodes x).next = if pre.getLast? = some x then post.head? else (l.nodes x).next := by
    intro x hx
    rw [hnodes x hx]
    by_cases h1 : pre.getLast? = some x
    · simp [h1]
    · by_cases h2 : post.head? = some x <;> simp [h1, h2]
  have hprev' : ∀ x ∈ pre ++ post,
      (l'.nodes x).prev = if post.head? = some x then pre.getLast? else (l.nodes x).prev := by
    intro x hx
    rw [hnodes x hx]
    by_cases h1 : pre.getLast? = some x
    · have h2 : post.head? ≠ some x := fun h2 =>
        hdisj x (List.mem_of_mem_getLast? h1) (List.mem_of_mem_head? h2)
      simp [h1, h2]
    · by_cases h2 : post.head? = some x <;> simp [h1, h2]
  refine ⟨hfront, hback, hndsub, ?_, ?_, ?_⟩
  · -- the remaining ids still form a chain
    refine (chainB_append_iff l'.nodes post pre).mpr ⟨?_, ?_, ?_⟩
    · -- chain of pre is untouched where it matters
      rw [chainB_congr l.nodes l'.nodes pre ?_ ?_]
      · exact hchpre
      · intro x hx
        have hxp : x ∈ pre := List.dropLast_subset pre hx
        rw [hnext' x (List.mem_append_left _ hxp)]
        have h1 : pre.getLast? ≠ some x := fun h1 =>
          getLast?_not_mem_dropLast pre x h1 hndpre hx
        simp [h1]
      · intro x hx
        have hxp : x ∈ pre := List.tail_subset pre hx
        rw [hprev' x (List.mem_append_left _ hxp)]
        have h2 : post.head? ≠ some x := fun h2 =>
          hdisj x hxp (List.mem_of_mem_head? h2)
        simp [h2]
    · -- chain of post is untouched where it matters
      rw [chainB_congr l.nodes l'.nodes post ?_ ?_]
      · exact hchpost
      · intro x hx
        have hxp : x ∈ post := List.dropLast_subset post hx
        rw [hnext' x (List.mem_append_right _ hxp)]
        have h1 : pre.getLast? ≠ some x := fun h1 =>
          hdisj x (List.mem_of_mem_getLast? h1) hxp
        simp [h1]
      · intro x hx
        have hxp : x ∈ post := List.tail_subset post hx
        rw [hprev' x (List.mem_append_right _ hxp)]
        have h2 : post.head? ≠ some x := fun h2 =>
          head?_not_mem_tail post x h2 hndpost hx
        simp [h2]
    · -- the new boundary link
      intro a c ha hc
      constructor
      · rw [hnext' a (List.mem_append_left _ (List.mem_of_mem_getLast? ha)), if_pos ha, hc]
      · have h1 : pre.getLast? ≠ some c := fun h1 =>
          hdisj c (List.mem_of_mem_getLast? h1) (List.mem_of_mem_head? hc)
        rw [hprev' c (List.mem_append_right _ (List.mem_of_mem_head? hc)), if_pos hc, ha]
  · -- the head of the remaining list has a null prev
    unfold headPrevOk
    cases hh : (pre ++ post).head? with
    | none => rfl
    | some x =>
      have hx : x ∈ pre ++ post := List.mem_of_mem_head? hh
      simp only [Option.all_some, beq_iff_eq]
      rw [hprev' x hx]
      cases pre with
      | nil =>
        simp only [List.nil_append] at hh
        simp [hh]
      | cons p0 pre' =>
        have hxh : x = p0 := by
          simp only [List.cons_append, List.head?_cons, Option.some.injEq] at hh
          exact hh.symm
        subst hxh
        have h2 : post.head? ≠ some x := fun h2 =>
          hdisj x (by simp) (List.mem_of_mem_head? h2)
        rw [if_neg h2]
        unfold headPrevOk at hhp
        have hwh : ((x :: pre') ++ b :: post).head? = some x := rfl
        rw [hwh] at hhp
        simpa using hhp
  · -- the last node of the remaining list has a null next
    unfold lastNextOk
    cases hh : (pre ++ post).getLast? with
    | none => rfl
    | some x =>
      have hx : x ∈ pre ++ post := List.mem_of_mem_getLast? hh
      simp only [Option.all_some, beq_iff_eq]
      rw [hnext' x hx]
      cases post with
      | nil =>
        have hpx : pre.getLast? = some x := by simpa using hh
        rw [if_pos hpx]
        rfl
      | cons c post' =>
        have hxl : (c :: post').getLast? = some x := by
          rw [List.getLast?_append] at hh
          cases hcc : (c :: post').getLast? with
          | none => simp [List.getLast?_eq_none_iff] at hcc
          | some y => rw [hcc] at hh; simpa using hh
        have h1 : pre.getLast? ≠ some x := fun h1 =>
          hdisj x (List.mem_of_mem_getLast? h1) (List.mem_of_mem_getLast? hxl)
        rw [if_neg h1]
        unfold lastNextOk at hln
        have hwhole : (pre ++ b :: c :: post').getLast? = some x := by
          rw [List.getLast?_append, List.getLast?_cons_cons, hxl]
          rfl
        rw [hwhole] at hln
        simpa using hln

theorem head?_append_left (xs ys : List Nat) (h : xs ≠ []) : (xs ++ ys).head? = xs.head? := by
  cases xs with
  | nil => exact absurd rfl h
  | cons a t => rfl

theorem getLast?_append_right (xs ys : List Nat) (h : ys ≠ []) :
    (xs ++ ys).getLast? = ys.getLast? := by
  rw [List.getLast?_append]
  cases hy : ys.getLast? with
  | none => rw [List.getLast?_eq_none_iff] at hy; exact absurd hy h
  | some y => rfl

/-- `PopCurrent` on a node of a represented list returns that node fully
detached, and the rest of the list is still a consistent chain. -/
theorem popCurrent_spec (l : IList) (pre post : List Nat) (b : Nat)
    (h : represents l (pre ++ b :: post)) :
    (l.PopCurrent b).1 = b ∧ (l.PopCurrent b).2.nodes b = ⟨none, none⟩ ∧
      represents (l.PopCurrent b).2 (pre ++ post) := by
  obtain ⟨hbprev, hbnext⟩ := represents_mid_fields l pre post b h
  have hnd := h.2.2.1
  have hf := h.1
  have hb := h.2.1
  have hbpre : b ∉ pre := fun hm => List.disjoint_of_nodup_append hnd hm (by simp)
  have hbpost : b ∉ post := (List.nodup_cons.mp hnd.of_append_right).1
  have hdisj : ∀ x, x ∈ pre → x ∈ post → False := fun x h1 h2 =>
    List.disjoint_of_nodup_append hnd h1 (List.mem_cons_of_mem _ h2)
  cases post with
  | cons c post' =>
    simp only [List.head?_cons] at hbnext
    have hcpost : c ∈ c :: post' := by simp
    have hbc : b ≠ c := fun e => hbpost (e ▸ hcpost)
    cases hpre : pre.getLast? with
    | some p =>
      have hppre : p ∈ pre := List.mem_of_mem_getLast? hpre
      have hpne : pre ≠ [] := by rintro rfl; simp at hpre
      have hbp : b ≠ p := fun e => hbpre (e ▸ hppre)
      have hcp : c ≠ p := fun e => hdisj c (e ▸ hppre) hcpost
      have hbprev' : (l.nodes b).prev = some p := by rw [hbprev, hpre]
      have E : l.PopCurrent b =
          (b, ⟨setNode (setNode (setNode l.nodes c { l.nodes c with prev := some p })
                p { l.nodes p with next := some c }) b ⟨none, none⟩, l.front, l.back⟩) := by
        unfold IList.PopCurrent
        simp only [hbnext, hbprev']
        have e1 : setNode l.nodes c { l.nodes c with prev := some p } b = l.nodes b := by
          simp [setNode, hbc]
        simp only [e1, hbprev']
        have e2 : setNode l.nodes c { l.nodes c with prev := some p } p = l.nodes p := by
          simp [setNode]; intro e; exact absurd e.symm hcp
        simp only [e2, hbnext]
      rw [E]
      refine ⟨rfl, by simp, ?_⟩
      apply detach_represents l _ pre (c :: post') b h
      · show l.front = (pre ++ c :: post').head?
        rw [hf, head?_append_left _ _ hpne, head?_append_left _ _ hpne]
      · show l.back = (pre ++ c :: post').getLast?
        rw [hb, getLast?_append_right _ _ (by simp), getLast?_append_right _ _ (by simp),
          List.getLast?_cons_cons]
      · intro x hx
        have hxb : x ≠ b := by
          rcases List.mem_append.mp hx with h1 | h1
          · exact fun e => hbpre (e ▸ h1)
          · exact fun e => hbpost (e ▸ h1)
        show setNode _ b ⟨none, none⟩ x = _
        rw [setNode_other _ _ _ _ hxb, hpre]
        by_cases hxp : x = p
        · subst hxp
          rw [setNode_same, if_pos rfl]
          rfl
        · rw [setNode_other _ _ _ _ hxp, if_neg (fun e => hxp (Option.some.inj e).symm)]
          by_cases hxc : x = c
          · subst hxc
            rw [setNode_same, List.head?_cons, if_pos rfl]
          · rw [setNode_other _ _ _ _ hxc, List.head?_cons,
              if_neg (fun e => hxc (Option.some.inj e).symm)]
    | none =>
      have hpre' : pre = [] := List.getLast?_eq_none_iff.mp hpre
      subst hpre'
      have hbprev' : (l.nodes b).prev = none := by rw [hbprev]; rfl
      have E : l.PopCurrent b =
          (b, ⟨setNode (setNode l.nodes c { l.nodes c with prev := none }) b ⟨none, none⟩,
                some c, l.back⟩) := by
        unfold IList.PopCurrent
        simp only [hbnext, hbprev']
        have e1 : setNode l.nodes c { l.nodes c with prev := none } b = l.nodes b := by
          simp [setNode, hbc]
        simp only [e1, hbprev', hbnext]
      rw [E]
      refine ⟨rfl, by simp, ?_⟩
      apply detach_represents l _ [] (c :: post') b h
      · rfl
      · show l.back = ([] ++ c :: post').getLast?
        rw [hb]
        rfl
      · intro x hx
        have hxb : x ≠ b := by
          rcases List.mem_append.mp hx with h1 | h1
          · simp at h1
          · exact fun e => hbpost (e ▸ h1)
        show setNode _ b ⟨none, none⟩ x = _
        rw [setNode_other _ _ _ _ hxb]
        by_cases hxc : x = c
        · subst hxc
          rw [setNode_same, List.getLast?_nil, if_neg (by simp), List.head?_cons, if_pos rfl]
        · rw [setNode_other _ _ _ _ hxc, List.getLast?_nil, if_neg (by simp), List.head?_cons,
            if_neg (fun e => hxc (Option.some.inj e).symm)]
  | nil =>
    have hbnext' : (l.nodes b).next = none := by rw [hbnext]; rfl
    cases hpre : pre.getLast? with
    | some p =>
      have hppre : p ∈ pre := List.mem_of_mem_getLast? hpre
      have hpne : pre ≠ [] := by rintro rfl; simp at hpre
      have hbp : b ≠ p := fun e => hbpre (e ▸ hppre)
      have hbprev' : (l.nodes b).prev = some p := by rw [hbprev, hpre]
      have E : l.PopCurrent b =
          (b, ⟨setNode (setNode l.nodes p { l.nodes p with next := none }) b ⟨none, none⟩,
                l.front, some p⟩) := by
        unfold IList.PopCurrent
        simp only [hbnext', hbprev', hbnext]
      rw [E]
      refine ⟨rfl, by simp, ?_⟩
      apply detach_represents l _ pre [] b h
      · show l.front = (pre ++ []).head?
        rw [hf, List.append_nil, head?_append_left _ _ hpne]
      · show some p = (pre ++ []).getLast?
        rw [List.append_nil, hpre]
      · intro x hx
        have hxpre : x ∈ pre := by simpa using hx
        have hxb : x ≠ b := fun e => hbpre (e ▸ hxpre)
        show setNode _ b ⟨none, none⟩ x = _
        rw [setNode_other _ _ _ _ hxb, hpre]
        by_cases hxp : x = p
        · subst hxp
          rw [setNode_same, if_pos rfl]
          rfl
        · rw [setNode_other _ _ _ _ hxp, if_neg (fun e => hxp (Option.some.inj e).symm),
            List.head?_nil, if_neg (by simp)]
    | none =>
      have hpre' : pre = [] := List.getLast?_eq_none_iff.mp hpre
      subst hpre'
      have hbprev' : (l.nodes b).prev = none := by rw [hbprev]; rfl
      have E : l.PopCurrent b =
          (b, ⟨setNode l.nodes b ⟨none, none⟩, none, none⟩) := by
        unfold IList.PopCurrent
        simp only [hbnext', hbprev', hbnext]
      rw [E]
      refine ⟨rfl, by simp, ?_⟩
      apply detach_represents l _ [] [] b h
      · rfl
      · rfl
      · intro x hx
        simp at hx

/-- The neighbours of a node in a represented list point at it. -/
theorem represents_adj (l : IList) (pre post : List Nat) (b : Nat)
    (h : represents l (pre ++ b :: post)) :
    (∀ a, pre.getLast? = some a → (l.nodes a).next = some b) ∧
    (∀ c, post.head? = some c → (l.nodes c).prev = some b) := by
  obtain ⟨-, -, -, hch, -, -⟩ := h
  obtain ⟨-, hchbpost, hbdy⟩ := (chainB_append_iff l.nodes (b :: post) pre).mp hch
  constructor
  · intro a ha
    exact (hbdy a b ha rfl).1
  · intro c hc
    cases post with
    | nil => simp at hc
    | cons c0 post' =>
      simp only [List.head?_cons, Option.some.injEq] at hc
      subst hc
      simp only [chainB_cons_cons, Bool.and_eq_true, beq_iff_eq] at hchbpost
      exact hchbpost.1.2

/-- `PopFront` on a nonempty represented list pops the head, detached. -/
theorem popFront_spec (l : IList) (post : List Nat) (b : Nat)
    (h : represents l (b :: post)) :
    l.PopFront.1 = some b ∧ l.PopFront.2.nodes b = ⟨none, none⟩ ∧
      represents l.PopFront.2 post := by
  have h' : represents l ([] ++ b :: post) := h
  obtain ⟨hbprev, hbnext⟩ := represents_mid_fields l [] post b h'
  have hnd := h.2.2.1
  have hf' : l.front = some b := by rw [h.1]; rfl
  have hbpost : b ∉ post := (List.nodup_cons.mp hnd).1
  cases post with
  | nil =>
    have hbnext' : (l.nodes b).next = none := by rw [hbnext]; rfl
    have E : l.PopFront = (some b, ⟨setNode l.nodes b ⟨none, none⟩, none, none⟩) := by
      unfold IList.PopFront
      simp only [hf', hbnext']
    rw [E]
    refine ⟨rfl, by simp, ?_⟩
    have := detach_represents l ⟨setNode l.nodes b ⟨none, none⟩, none, none⟩ [] [] b h'
      rfl rfl (by intro x hx; simp at hx)
    simpa using this
  | cons c post' =>
    simp only [List.head?_cons] at hbnext
    have hbc : b ≠ c := fun e => hbpost (e ▸ (by simp : c ∈ c :: post'))
    have e1 : setNode l.nodes b ⟨none, none⟩ c = l.nodes c := by
      simp [setNode]; intro e; exact absurd e.symm hbc
    have E : l.PopFront = (some b,
        ⟨setNode (setNode l.nodes b ⟨none, none⟩) c ⟨(l.nodes c).next, none⟩, some c, l.back⟩) := by
      unfold IList.PopFront
      simp only [hf', hbnext, e1]
    rw [E]
    refine ⟨rfl, by simp [setNode, hbc], ?_⟩
    have := detach_represents l
      ⟨setNode (setNode l.nodes b ⟨none, none⟩) c ⟨(l.nodes c).next, none⟩, some c, l.back⟩
      [] (c :: post') b h' rfl
      (by show l.back = ([] ++ c :: post').getLast?; rw [h.2.1]; rfl)
      ?_
    · simpa using this
    · intro x hx
      have hxpost : x ∈ c :: post' := by simpa using hx
      have hxb : x ≠ b := fun e => hbpost (e ▸ hxpost)
      show setNode _ c ⟨(l.nodes c).next, none⟩ x = _
      rw [List.getLast?_nil, if_neg (by simp), List.head?_cons]
      by_cases hxc : x = c
      · subst hxc
        rw [setNode_same, if_pos rfl]
      · rw [setNode_other _ _ _ _ hxc, setNode_other _ _ _ _ hxb,
          if_neg (fun e => hxc (Option.some.inj e).symm)]

/-- `PopBack` on a nonempty represented list pops the last node, detached. -/
theorem popBack_spec (l : IList) (pre : List Nat) (b : Nat)
    (h : represents l (pre ++ [b])) :
    l.PopBack.1 = some b ∧ l.PopBack.2.nodes b = ⟨none, none⟩ ∧
      represents l.PopBack.2 pre := by
  obtain ⟨hbprev, hbnext⟩ := represents_mid_fields l pre [] b h
  have hnd := h.2.2.1
  have hb' : l.back = some b := by
    rw [h.2.1, getLast?_append_right _ _ (by simp)]
    rfl
  have hbpre : b ∉ pre := fun hm => List.disjoint_of_nodup_append hnd hm (by simp)
  cases hpre : pre.getLast? with
  | none =>
    have hpre' : pre = [] := List.getLast?_eq_none_iff.mp hpre
    subst hpre'
    have hbprev' : (l.nodes b).prev = none := by rw [hbprev]; rfl
    have E : l.PopBack = (some b, ⟨setNode l.nodes b ⟨none, none⟩, none, none⟩) := by
      unfold IList.PopBack
      simp only [hb', hbprev']
    rw [E]
    refine ⟨rfl, by simp, ?_⟩
    have := detach_represents l ⟨setNode l.nodes b ⟨none, none⟩, none, none⟩ [] [] b h
      rfl rfl (by intro x hx; simp at hx)
    simpa using this
  | some p =>
    have hppre : p ∈ pre := List.mem_of_mem_getLast? hpre
    have hpne : pre ≠ [] := by rintro rfl; simp at hpre
    have hbp : b ≠ p := fun e => hbpre (e ▸ hppre)
    have hbprev' : (l.nodes b).prev = some p := by rw [hbprev, hpre]
    have e1 : setNode l.nodes b ⟨none, none⟩ p = l.nodes p := by
      simp [setNode]; intro e; exact absurd e.symm hbp
    have E : l.PopBack = (some b,
        ⟨setNode (setNode l.nodes b ⟨none, none⟩) p ⟨none, (l.nodes p).prev⟩, l.front, some p⟩) := by
      unfold IList.PopBack
      simp only [hb', hbprev', e1]
    rw [E]
    refine ⟨rfl, by simp [setNode, hbp], ?_⟩
    have := detach_represents l
      ⟨setNode (setNode l.nodes b ⟨none, none⟩) p ⟨none, (l.nodes p).prev⟩, l.front, some p⟩
      pre [] b h
      (by show l.front = (pre ++ []).head?
          rw [h.1, List.append_nil, head?_append_left _ _ hpne])
      (by show some p = (pre ++ []).getLast?; rw [List.append_nil, hpre])
      ?_
    · simpa using this
    · intro x hx
      have hxpre : x ∈ pre := by simpa using hx
      have hxb : x ≠ b := fun e => hbpre (e ▸ hxpre)
      show setNode _ p ⟨none, (l.nodes p).prev⟩ x = _
      rw [hpre, List.head?_nil]
      by_cases hxp : x = p
      · subst hxp
        rw [setNode_same, if_pos rfl]
      · rw [setNode_other _ _ _ _ hxp, setNode_other _ _ _ _ hxb,
          if_neg (fun e => hxp (Option.some.inj e).symm), if_neg (by simp)]

/-- `PopNext` of the node before `b` pops `b`, detached. -/
theorem popNext_spec (l : IList) (pre post : List Nat) (b a : Nat)
    (h : represents l (pre ++ b :: post)) (ha : pre.getLast? = some a) :
    (l.PopNext a).1 = some b ∧ (l.PopNext a).2.nodes b = ⟨none, none⟩ ∧
      represents (l.PopNext a).2 (pre ++ post) := by
  obtain ⟨hbprev, hbnext⟩ := represents_mid_fields l pre post b h
  have hanext : (l.nodes a).next = some b := (represents_adj l pre post b h).1 a ha
  have hnd := h.2.2.1
  have hf := h.1
  have hb := h.2.1
  have hbpre : b ∉ pre := fun hm => List.disjoint_of_nodup_append hnd hm (by simp)
  have hbpost : b ∉ post := (List.nodup_cons.mp hnd.of_append_right).1
  have hdisj : ∀ x, x ∈ pre → x ∈ post → False := fun x h1 h2 =>
    List.disjoint_of_nodup_append hnd h1 (List.mem_cons_of_mem _ h2)
  have hapre : a ∈ pre := List.mem_of_mem_getLast? ha
  have hpne : pre ≠ [] := by rintro rfl; simp at ha
  have hba : b ≠ a := fun e => hbpre (e ▸ hapre)
  cases post with
  | nil =>
    have hbnext' : (l.nodes b).next = none := by rw [hbnext]; rfl
    have e1 : setNode l.nodes a { l.nodes a with next := none } b = l.nodes b := by
      simp [setNode, hba]
    have E : l.PopNext a = (some b,
        ⟨setNode (setNode l.nodes a { l.nodes a with next := none }) b ⟨none, none⟩,
          l.front, some a⟩) := by
      unfold IList.PopNext
      simp only [hanext, hbnext', e1]
    rw [E]
    refine ⟨rfl, by simp, ?_⟩
    apply detach_represents l _ pre [] b h
    · show l.front = (pre ++ []).head?
      rw [hf, List.append_nil, head?_append_left _ _ hpne]
    · show some a = (pre ++ []).getLast?
      rw [List.append_nil, ha]
    · intro x hx
      have hxpre : x ∈ pre := by simpa using hx
      have hxb : x ≠ b := fun e => hbpre (e ▸ hxpre)
      show setNode _ b ⟨none, none⟩ x = _
      rw [setNode_other _ _ _ _ hxb, ha, List.head?_nil]
      by_cases hxa : x = a
      · subst hxa
        rw [setNode_same, if_pos rfl]
      · rw [setNode_other _ _ _ _ hxa, if_neg (fun e => hxa (Option.some.inj e).symm),
          if_neg (by simp)]
  | cons c post' =>
    simp only [List.head?_cons] at hbnext
    have hcpost : c ∈ c :: post' := by simp
    have hbc : b ≠ c := fun e => hbpost (e ▸ hcpost)
    have hac : a ≠ c := fun e => hdisj a hapre (e ▸ hcpost)
    have e1 : setNode l.nodes c { l.nodes c with prev := some a } a = l.nodes a := by
      simp [setNode]; intro e; exact absurd e hac
    have e2 : setNode l.nodes c { l.nodes c with prev := some a } b = l.nodes b := by
      simp [setNode, hbc]
    have e3 : setNode (setNode l.nodes c { l.nodes c with prev := some a })
        a { l.nodes a with next := some c } b = l.nodes b := by
      rw [setNode_other _ _ _ _ hba]
      exact e2
    have E : l.PopNext a = (some b,
        ⟨setNode (setNode (setNode l.nodes c { l.nodes c with prev := some a })
            a { l.nodes a with next := some c }) b ⟨none, none⟩, l.front, l.back⟩) := by
      unfold IList.PopNext
      simp only [hanext, hbnext, e1, e2, e3]
    rw [E]
    refine ⟨rfl, by simp, ?_⟩
    apply detach_represents l _ pre (c :: post') b h
    · show l.front = (pre ++ c :: post').head?
      rw [hf, head?_append_left _ _ hpne, head?_append_left _ _ hpne]
    · show l.back = (pre ++ c :: post').getLast?
      rw [hb, getLast?_append_right _ _ (by simp), getLast?_append_right _ _ (by simp),
        List.getLast?_cons_cons]
    · intro x hx
      have hxb : x ≠ b := by
        rcases List.mem_append.mp hx with h1 | h1
        · exact fun e => hbpre (e ▸ h1)
        · exact fun e => hbpost (e ▸ h1)
      show setNode _ b ⟨none, none⟩ x = _
      rw [setNode_other _ _ _ _ hxb, ha, List.head?_cons]
      by_cases hxa : x = a
      · subst hxa
        rw [setNode_same, if_pos rfl]
      · rw [setNode_other _ _ _ _ hxa, if_neg (fun e => hxa (Option.some.inj e).symm)]
        by_cases hxc : x = c
        · subst hxc
          rw [setNode_same, if_pos rfl]
        · rw [setNode_other _ _ _ _ hxc, if_neg (fun e => hxc (Option.some.inj e).symm)]

/-- `PopPrev` of the node after `b` pops `b`, detached. -/
theorem popPrev_spec (l : IList) (pre post : List Nat) (b c : Nat)
    (h : represents l (pre ++ b :: post)) (hc : post.head? = some c) :
    (l.PopPrev c).1 = some b ∧ (l.PopPrev c).2.nodes b = ⟨none, none⟩ ∧
      represents (l.PopPrev c).2 (pre ++ post) := by
  obtain ⟨hbprev, hbnext⟩ := represents_mid_fields l pre post b h
  have hcprev : (l.nodes c).prev = some b := (represents_adj l pre post b h).2 c hc
  have hnd := h.2.2.1
  have hf := h.1
  have hb := h.2.1
  have hbpre : b ∉ pre := fun hm => List.disjoint_of_nodup_append hnd hm (by simp)
  have hbpost : b ∉ post := (List.nodup_cons.mp hnd.of_append_right).1
  have hdisj : ∀ x, x ∈ pre → x ∈ post → False := fun x h1 h2 =>
    List.disjoint_of_nodup_append hnd h1 (List.mem_cons_of_mem _ h2)
  have hcpost : c ∈ post := List.mem_of_mem_head? hc
  have hbc : b ≠ c := fun e => hbpost (e ▸ hcpost)
  have hpostne : post ≠ [] := by rintro rfl; simp at hc
  cases hpre : pre.getLast? with
  | none =>
    have hpre' : pre = [] := List.getLast?_eq_none_iff.mp hpre
    subst hpre'
    have hbprev' : (l.nodes b).prev = none := by rw [hbprev]; rfl
    have e1 : (l.nodes b).prev = (l.nodes b).prev := rfl
    have E : l.PopPrev c = (some b,
        ⟨setNode (setNode l.nodes c { l.nodes c with prev := none }) b ⟨none, none⟩,
          some c, l.back⟩) := by
      unfold IList.PopPrev
      simp only [hcprev, hbprev']
    rw [E]
    refine ⟨rfl, by simp, ?_⟩
    apply detach_represents l _ [] post b h
    · show some c = ([] ++ post).head?
      rw [List.nil_append, hc]
    · show l.back = ([] ++ post).getLast?
      rw [hb, List.nil_append, List.nil_append]
      cases post with
      | nil => exact absurd rfl hpostne
      | cons c0 p' => rw [List.getLast?_cons_cons]
    · intro x hx
      have hxpost : x ∈ post := by simpa using hx
      have hxb : x ≠ b := fun e => hbpost (e ▸ hxpost)
      show setNode _ b ⟨none, none⟩ x = _
      rw [setNode_other _ _ _ _ hxb, List.getLast?_nil, hc]
      by_cases hxc : x = c
      · subst hxc
        rw [setNode_same, if_neg (by simp), if_pos rfl]
      · rw [setNode_other _ _ _ _ hxc, if_neg (by simp),
          if_neg (fun e => hxc (Option.some.inj e).symm)]
  | some p =>
    have hppre : p ∈ pre := List.mem_of_mem_getLast? hpre
    have hpne : pre ≠ [] := by rintro rfl; simp at hpre
    have hbp : b ≠ p := fun e => hbpre (e ▸ hppre)
    have hcp : c ≠ p := fun e => hdisj c (e ▸ hppre) hcpost
    have hbprev' : (l.nodes b).prev = some p := by rw [hbprev, hpre]
    have e1 : setNode l.nodes p { l.nodes p with next := some c } b = l.nodes b := by
      simp [setNode, hbp]
    have e2 : setNode l.nodes p { l.nodes p with next := some c } c = l.nodes c := by
      simp [setNode]; intro e; exact absurd e hcp
    have E : l.PopPrev c = (some b,
        ⟨setNode (setNode (setNode l.nodes p { l.nodes p with next := some c })
            c { l.nodes c with prev := some p }) b ⟨none, none⟩, l.front, l.back⟩) := by
      unfold IList.PopPrev
      simp only [hcprev, hbprev', e1, e2]
    rw [E]
    refine ⟨rfl, by simp, ?_⟩
    apply detach_represents l _ pre post b h
    · show l.front = (pre ++ post).head?
      rw [hf, head?_append_left _ _ hpne, head?_append_left _ _ hpne]
    · show l.back = (pre ++ post).getLast?
      rw [hb, getLast?_append_right _ _ (by simp), getLast?_append_right _ _ hpostne]
      cases post with
      | nil => exact absurd rfl hpostne
      | cons c0 post' => rw [List.getLast?_cons_cons]
    · intro x hx
      have hxb : x ≠ b := by
        rcases List.mem_append.mp hx with h1 | h1
        · exact fun e => hbpre (e ▸ h1)
        · exact fun e => hbpost (e ▸ h1)
      show setNode _ b ⟨none, none⟩ x = _
      rw [setNode_other _ _ _ _ hxb, hpre, hc]
      by_cases hxc : x = c
      · subst hxc
        rw [setNode_same, if_neg (fun e => hcp (Option.some.inj e).symm), if_pos rfl]
      · rw [setNode_other _ _ _ _ hxc]
        by_cases hxp : x = p
        · subst hxp
          rw [setNode_same, if_pos rfl]
        · rw [setNode_other _ _ _ _ hxp, if_neg (fun e => hxp (Option.some.inj e).symm),
            if_neg (fun e => hxc (Option.some.inj e).symm)]
/-- Following `next` pointers from `o` visits exactly the nodes `ids` and ends
at null. -/
def nextChain (nodes : Nat → ListNode) : Option Nat → List Nat → Prop
  | o, [] => o = none
  | o, x :: xs => o = some x ∧ nextChain nodes (nodes x).next xs

theorem nextChain_congr (nodes nodes1 : Nat → ListNode) :
    ∀ (xs : List Nat) (o : Option Nat), (∀ y ∈ xs, nodes1 y = nodes y) →
      (nextChain nodes1 o xs ↔ nextChain nodes o xs)
  | [], o => fun _ => Iff.rfl
  | x :: xs, o => by
    intro hagree
    show (o = some x ∧ nextChain nodes1 (nodes1 x).next xs) ↔
      (o = some x ∧ nextChain nodes (nodes x).next xs)
    rw [hagree x (by simp)]
    rw [nextChain_congr nodes nodes1 xs (nodes x).next (fun y hy => hagree y (by simp [hy]))]

/-- The chain of a represented list, read through `next` pointers. -/
theorem nextChain_of_chainB (nodes : Nat → ListNode) :
    ∀ ids : List Nat, chainB nodes ids = true →
      (ids.getLast?.all fun x => (nodes x).next == none) = true →
      nextChain nodes ids.head? ids
  | [] => fun _ _ => rfl
  | [x] => by
    intro _ hlast
    simp only [List.getLast?_singleton, Option.all_some, beq_iff_eq] at hlast
    exact ⟨rfl, hlast⟩
  | x :: y :: rest => by
    intro hch hlast
    simp only [chainB_cons_cons, Bool.and_eq_true, beq_iff_eq] at hch
    refine ⟨rfl, ?_⟩
    rw [hch.1.1]
    exact nextChain_of_chainB nodes (y :: rest) hch.2
      (by rw [List.getLast?_cons_cons] at hlast; exact hlast)

/-- After the reverse loop, every visited node holds its old predecessor
pointer in `next` and its old successor pointer in `prev`. -/
def revChainAssert (nodes' nodes : Nat → ListNode) : Option Nat → List Nat → Prop
  | _, [] => True
  | p, x :: xs => nodes' x = ⟨p, (nodes x).next⟩ ∧ revChainAssert nodes' nodes (some x) xs

theorem revChainAssert_congr (nodes' nodes nodes1 : Nat → ListNode) :
    ∀ (xs : List Nat) (p : Option Nat), (∀ y ∈ xs, (nodes1 y).next = (nodes y).next) →
      (revChainAssert nodes' nodes1 p xs ↔ revChainAssert nodes' nodes p xs)
  | [], p => fun _ => Iff.rfl
  | x :: xs, p => by
    intro hagree
    show (nodes' x = ⟨p, (nodes1 x).next⟩ ∧ _) ↔ (nodes' x = ⟨p, (nodes x).next⟩ ∧ _)
    rw [hagree x (by simp)]
    rw [revChainAssert_congr nodes' nodes nodes1 xs (some x)
      (fun y hy => hagree y (by simp [hy]))]

theorem revChainAssert_prev (nodes' nodes : Nat → ListNode) :
    ∀ (xs : List Nat) (p : Option Nat), revChainAssert nodes' nodes p xs →
      ∀ x ∈ xs, (nodes' x).prev = (nodes x).next
  | [], p => by intro _ x hx; simp at hx
  | y :: xs, p => by
    rintro ⟨h1, h2⟩ x hx
    rcases List.mem_cons.mp hx with rfl | hx'
    · rw [h1]
    · exact revChainAssert_prev nodes' nodes xs (some y) h2 x hx'

/-- Pointwise description of the reverse loop: it returns the last visited
node as the new front pointer and swaps the links of every node on the chain,
leaving all other nodes untouched. -/
theorem reverseLoop_pointwise :
    ∀ (todo : List Nat) (nodes : Nat → ListNode) (fuel : Nat) (p cur : Option Nat),
      todo.length ≤ fuel → todo.Nodup → nextChain nodes cur todo →
      ((reverseLoop fuel nodes p cur).2 = todo.reverse.head?.or p ∧
        (∀ x, x ∉ todo → (reverseLoop fuel nodes p cur).1 x = nodes x) ∧
        revChainAssert (reverseLoop fuel nodes p cur).1 nodes p todo)
  | [], nodes, fuel, p, cur => by
    intro _ _ hchain
    have hcur : cur = none := hchain
    subst hcur
    cases fuel with
    | zero => exact ⟨rfl, fun x _ => rfl, trivial⟩
    | succ f => exact ⟨rfl, fun x _ => rfl, trivial⟩
  | x :: xs, nodes, fuel, p, cur => by
    intro hfuel hnd hchain
    obtain ⟨hcur, hrest⟩ := hchain
    subst hcur
    cases fuel with
    | zero => simp at hfuel
    | succ f =>
      have hxxs : x ∉ xs := (List.nodup_cons.mp hnd).1
      have hstep : reverseLoop (f + 1) nodes p (some x) =
          reverseLoop f (setNode nodes x ⟨p, (nodes x).next⟩) (some x) (nodes x).next := rfl
      set nodes1 := setNode nodes x ⟨p, (nodes x).next⟩ with hnodes1
      have hagree : ∀ y ∈ xs, nodes1 y = nodes y := fun y hy =>
        setNode_other _ _ _ _ (fun e => hxxs (e ▸ hy))
      have hchain1 : nextChain nodes1 (nodes x).next xs :=
        (nextChain_congr nodes nodes1 xs (nodes x).next hagree).mpr hrest
      have hlen : xs.length ≤ f := by
        have : xs.length + 1 ≤ f + 1 := by simpa using hfuel
        omega
      obtain ⟨ih2, ihout, ihrev⟩ := reverseLoop_pointwise xs nodes1 f (some x) (nodes x).next
        hlen (List.nodup_cons.mp hnd).2 hchain1
      rw [hstep]
      refine ⟨?_, ?_, ?_, ?_⟩
      · rw [ih2, List.reverse_cons, List.head?_append]
        cases xs.reverse.head? <;> rfl
      · intro y hy
        have hyx : y ≠ x := fun e => hy (e ▸ List.mem_cons_self x xs)
        have hyxs : y ∉ xs := fun e => hy (List.mem_cons_of_mem _ e)
        rw [ihout y hyxs, hnodes1, setNode_other _ _ _ _ hyx]
      · rw [ihout x hxxs, hnodes1, setNode_same]
      · exact (revChainAssert_congr _ nodes nodes1 xs (some x)
          (fun y hy => by rw [hagree y hy])).mp ihrev

/-- The swapped links of the reverse loop form a chain over the reversed id
list, and the old head now points forward at `p`. -/
theorem chainB_of_revChain (nodes' nodes : Nat → ListNode) :
    ∀ (ids : List Nat) (p : Option Nat),
      revChainAssert nodes' nodes p ids → chainB nodes ids = true →
      (chainB nodes' ids.reverse = true ∧
        ∀ x, ids.head? = some x → (nodes' x).next = p)
  | [], p => by intro _ _; exact ⟨by simp, by simp⟩
  | x :: xs, p => by
    rintro ⟨h1, h2⟩ hch
    have hchxs : chainB nodes xs = true := by
      cases xs with
      | nil => simp
      | cons y rest =>
        simp only [chainB_cons_cons, Bool.and_eq_true] at hch
        exact hch.2
    obtain ⟨ihc, ihb⟩ := chainB_of_revChain nodes' nodes xs (some x) h2 hchxs
    constructor
    · rw [List.reverse_cons]
      refine (chainB_append_iff nodes' [x] xs.reverse).mpr ⟨ihc, by simp, ?_⟩
      intro a c ha hc
      have hc' : x = c := by simpa using hc
      subst hc'
      have hxs_head : xs.head? = some a := by
        rw [List.getLast?_reverse] at ha; exact ha
      constructor
      · exact ihb a hxs_head
      · rw [h1]
        show (nodes x).next = some a
        cases xs with
        | nil => simp at hxs_head
        | cons y rest =>
          simp only [List.head?_cons, Option.some.injEq] at hxs_head
          subst hxs_head
          simp only [chainB_cons_cons, Bool.and_eq_true, beq_iff_eq] at hch
          exact hch.1.1
    · intro z hz
      have hzx : x = z := by simpa using hz
      subst hzx
      rw [h1]

/-- `Reverse` turns a list representing `ids` into one representing
`ids.reverse`. -/
theorem reverse_represents (l : IList) (ids : List Nat) (fuel : Nat)
    (h : represents l ids) (hfuel : ids.length ≤ fuel) :
    represents (l.Reverse fuel) ids.reverse := by
  obtain ⟨hf, hb, hnd, hch, hhp, hln⟩ := h
  have hchain : nextChain l.nodes l.front ids := by
    rw [hf]
    exact nextChain_of_chainB l.nodes ids hch hln
  obtain ⟨h2, hout, hrev⟩ := reverseLoop_pointwise ids l.nodes fuel none l.front hfuel hnd hchain
  obtain ⟨hrc, hrb⟩ := chainB_of_revChain _ l.nodes ids none hrev hch
  show represents
    ⟨(reverseLoop fuel l.nodes none l.front).1, (reverseLoop fuel l.nodes none l.front).2,
      l.front⟩ ids.reverse
  refine ⟨?_, ?_, List.nodup_reverse.mpr hnd, hrc, ?_, ?_⟩
  · show (reverseLoop fuel l.nodes none l.front).2 = ids.reverse.head?
    rw [h2]
    cases ids.reverse.head? <;> rfl
  · show l.front = ids.reverse.getLast?
    rw [hf, List.getLast?_reverse]
  · unfold headPrevOk
    cases hh : ids.reverse.head? with
    | none => rfl
    | some z =>
      simp only [Option.all_some, beq_iff_eq]
      have hzlast : ids.getLast? = some z := by rw [← List.head?_reverse]; exact hh
      have hz : z ∈ ids := List.mem_of_mem_getLast? hzlast
      show ((reverseLoop fuel l.nodes none l.front).1 z).prev = none
      rw [revChainAssert_prev _ l.nodes ids none hrev z hz]
      unfold lastNextOk at hln
      rw [hzlast] at hln
      simpa using hln
  · unfold lastNextOk
    cases hh : ids.reverse.getLast? with
    | none => rfl
    | some z =>
      simp only [Option.all_some, beq_iff_eq]
      have hzh : ids.head? = some z := by rw [← List.getLast?_reverse]; exact hh
      exact hrb z hzh

/-- Claim C8: `PopFront` and `PopBack` on an empty intrusive list return a
null reference and leave the list unchanged, rather than failing. -/
theorem claim_C8_pop_empty (l : IList) (h : represents l []) :
    l.PopFront = (none, l) ∧ l.PopBack = (none, l) := by
  obtain ⟨hf, hb, -⟩ := h
  constructor
  · unfold IList.PopFront
    rw [show l.front = none from hf]
  · unfold IList.PopBack
    rw [show l.back = none from hb]

/-- A concrete empty list state used to witness claim C8. -/
def emptyIList : IList := ⟨fun _ => ⟨none, none⟩, none, none⟩

theorem claim_C8_pop_empty_witness :
    represents emptyIList [] ∧
      (emptyIList.PopFront = (none, emptyIList) ∧ emptyIList.PopBack = (none, emptyIList)) :=
  ⟨by decide, claim_C8_pop_empty emptyIList (by decide)⟩

/-- Claim C9: every pop operation (`PopFront`, `PopBack`, `PopCurrent`,
`PopNext`, `PopPrev`) that returns a node returns it fully detached — the
returned node's `next` and `prev` are both null — and the remaining list is
still a consistent doubly linked chain between `_front` and `_back`. -/
theorem claim_C9_pop_detaches (l : IList) (pre post : List Nat) (b : Nat)
    (h : represents l (pre ++ b :: post)) :
    ((l.PopCurrent b).1 = b ∧ (l.PopCurrent b).2.nodes b = ⟨none, none⟩ ∧
      represents (l.PopCurrent b).2 (pre ++ post)) ∧
    (pre = [] → l.PopFront.1 = some b ∧ l.PopFront.2.nodes b = ⟨none, none⟩ ∧
      represents l.PopFront.2 post) ∧
    (post = [] → l.PopBack.1 = some b ∧ l.PopBack.2.nodes b = ⟨none, none⟩ ∧
      represents l.PopBack.2 pre) ∧
    (∀ a, pre.getLast? = some a → (l.PopNext a).1 = some b ∧
      (l.PopNext a).2.nodes b = ⟨none, none⟩ ∧ represents (l.PopNext a).2 (pre ++ post)) ∧
    (∀ c, post.head? = some c → (l.PopPrev c).1 = some b ∧
      (l.PopPrev c).2.nodes b = ⟨none, none⟩ ∧ represents (l.PopPrev c).2 (pre ++ post)) := by
  refine ⟨popCurrent_spec l pre post b h, ?_, ?_,
    fun a ha => popNext_spec l pre post b a h ha,
    fun c hc => popPrev_spec l pre post b c h hc⟩
  · rintro rfl
    exact popFront_spec l post b h
  · rintro rfl
    exact popBack_spec l pre b h

/-- A concrete three-node list state 0 <-> 1 <-> 2 used to witness claim C9. -/
def threeIList : IList :=
  ⟨fun i =>
      if i = 0 then ⟨some 1, none⟩
      else if i = 1 then ⟨some 2, some 0⟩
      else if i = 2 then ⟨none, some 1⟩
      else ⟨none, none⟩,
    some 0, some 2⟩

theorem claim_C9_pop_detaches_witness :
    represents threeIList ([0] ++ 1 :: [2]) ∧
      ((threeIList.PopCurrent 1).1 = 1 ∧ (threeIList.PopCurrent 1).2.nodes 1 = ⟨none, none⟩ ∧
        represents (threeIList.PopCurrent 1).2 ([0] ++ [2])) :=
  ⟨by decide, (claim_C9_pop_detaches threeIList [0] [2] 1 (by decide)).1⟩

/-- Claim C10: `Reverse()` produces a list whose forward traversal is exactly
the reverse of the previous one, with `_front` and `_back` exchanged, and
applying `Reverse` twice restores the original sequence. -/
theorem claim_C10_reverse (l : IList) (ids : List Nat) (fuel fuel' : Nat)
    (h : represents l ids) (h1 : ids.length ≤ fuel) (h2 : ids.length ≤ fuel') :
    represents (l.Reverse fuel) ids.reverse ∧
    (l.Reverse fuel).front = l.back ∧ (l.Reverse fuel).back = l.front ∧
    represents ((l.Reverse fuel).Reverse fuel') ids := by
  have hr := reverse_represents l ids fuel h h1
  refine ⟨hr, ?_, ?_, ?_⟩
  · rw [hr.1, List.head?_reverse, h.2.1]
  · rfl
  · have h2' : ids.reverse.length ≤ fuel' := by simpa using h2
    have hrr := reverse_represents (l.Reverse fuel) ids.reverse fuel' hr h2'
    simpa using hrr

/-- A concrete two-node list state 0 <-> 1 used to witness claim C10. -/
def twoIList : IList :=
  ⟨fun i =>
      if i = 0 then ⟨some 1, none⟩
      else if i = 1 then ⟨none, some 0⟩
      else ⟨none, none⟩,
    some 0, some 1⟩

theorem claim_C10_reverse_witness :
    (represents twoIList [0, 1] ∧ [0, 1].length ≤ 2 ∧ [0, 1].length ≤ 2) ∧
      (represents (twoIList.Reverse 2) [0, 1].reverse ∧
        (twoIList.Reverse 2).front = twoIList.back ∧
        (twoIList.Reverse 2).back = twoIList.front ∧
        represents ((twoIList.Reverse 2).Reverse 2) [0, 1]) :=
  ⟨⟨by decide, by decide, by decide⟩,
    claim_C10_reverse twoIList [0, 1] 2 2 (by decide) (by decide) (by decide)⟩

/-!
### Part 2: the intrusive binary search tree family

The bintree*.h headers are not among the provided sources (only the benchmark
caller is), so the five variants are modelled from the specification, sections
3, 4.2-4.7. Keys are natural numbers; the functional representation makes the
parent pointer implicit (a subtree's position in its parent).
-/

/-- Modelled from the spec: the structural shape of the plain `BinTree`
(bintree.h is not among the provided sources; spec section 3). The AVL and
Splay variants share this shape since they keep no persistent per-node
metadata beyond the links (spec sections 4.5, 4.7). -/
inductive BinTree
  | nil
  | node (l : BinTree) (k : Nat) (r : BinTree)
deriving DecidableEq

/-- Modelled from the spec (section 4.2): plain BST insert walks from the
root, descends left on "less", right on "greater or equal" (ties placed as
the rightmost of equal keys), and attaches the new node as a leaf. No
rebalancing. -/
def BinTree.insert : BinTree → Nat → BinTree
  | .nil, k => .node .nil k .nil
  | .node l x r, k =>
      if k < x then .node (l.insert k) x r else .node l x (r.insert k)

/-- Modelled from the spec (section 4.2): `find(key)` descends by comparison
and reports whether a node with an equal key is present; it does not mutate
the structure. -/
def BinTree.find : BinTree → Nat → Bool
  | .nil, _ => false
  | .node l x r, k => if k < x then l.find k else if x < k then r.find k else true

/-- Modelled from the spec (section 4.2): remove the in-order successor (the
leftmost node of the subtree `node l x r`), returning its key and the
remaining subtree. -/
def BinTree.delMin : BinTree → Nat → BinTree → Nat × BinTree
  | .nil, x, r => (x, r)
  | .node ll lx lr, x, r =>
      let m := delMin ll lx lr
      (m.1, .node m.2 x r)

/-- Modelled from the spec (section 4.2): `erase` locates the key by the same
descent as `find` and removes one node by the three-case rule — leaf:
detach; one child: splice the child in; two children: swap in the in-order
successor (leftmost of the right subtree) and remove it from its old
position. Returns `none` ("not found") for an absent key. -/
def BinTree.erase : BinTree → Nat → Option BinTree
  | .nil, _ => none
  | .node l x r, k =>
      if k < x then (l.erase k).map fun l' => .node l' x r
      else if x < k then (r.erase k).map fun r' => .node l x r'
      else some (match l, r with
        | .nil, _ => r
        | _, .nil => l
        | _, .node rl rx rr =>
            let m := delMin rl rx rr
            .node l m.1 m.2)

/-- In-order traversal (spec section 4.2). -/
def BinTree.inorder : BinTree → List Nat
  | .nil => []
  | .node l x r => l.inorder ++ x :: r.inorder

/-- The logical size of a tree: the number of nodes (spec section 3 keeps it
as a counter; here it is derived from the structure). -/
def BinTree.size (t : BinTree) : Nat := t.inorder.length

@[simp] theorem BinTree.inorder_nil : BinTree.nil.inorder = [] := rfl

@[simp] theorem BinTree.inorder_node (l : BinTree) (x : Nat) (r : BinTree) :
    (BinTree.node l x r).inorder = l.inorder ++ x :: r.inorder := rfl

/-- An optional inclusive lower bound. -/
def loOk : Option Nat → Nat → Prop
  | none, _ => True
  | some a, k => a ≤ k

/-- An optional inclusive upper bound (inclusive so that the invariant is
symmetric under rotations even in the presence of duplicate keys). -/
def hiOk : Nat → Option Nat → Prop
  | _, none => True
  | k, some b => k ≤ b

@[simp] theorem loOk_none (k : Nat) : loOk none k := trivial

@[simp] theorem loOk_some (a k : Nat) : loOk (some a) k ↔ a ≤ k := Iff.rfl

@[simp] theorem hiOk_none (k : Nat) : hiOk k none := trivial

@[simp] theorem hiOk_some (k b : Nat) : hiOk k (some b) ↔ k ≤ b := Iff.rfl

instance : (lo : Option Nat) → (k : Nat) → Decidable (loOk lo k)
  | none, _ => .isTrue trivial
  | some a, k => inferInstanceAs (Decidable (a ≤ k))

instance : (k : Nat) → (hi : Option Nat) → Decidable (hiOk k hi)
  | _, none => .isTrue trivial
  | k, some b => inferInstanceAs (Decidable (k ≤ b))

/-- The search-tree invariant with optional inclusive bounds (spec section 3):
keys in a left subtree compare at most the node key and keys in a right
subtree at least it. (The plain insert puts duplicates to the right; the
inclusive form is the invariant that all rotating balancers preserve.) -/
def BinTree.Bounded : Option Nat → BinTree → Option Nat → Prop
  | _, .nil, _ => True
  | lo, .node l x r, hi =>
      loOk lo x ∧ hiOk x hi ∧ Bounded lo l (some x) ∧ Bounded (some x) r hi

@[simp] theorem BinTree.bounded_nil (lo hi : Option Nat) : BinTree.Bounded lo .nil hi :=
  trivial

@[simp] theorem BinTree.bounded_node (lo hi : Option Nat) (l : BinTree) (x : Nat) (r : BinTree) :
    BinTree.Bounded lo (.node l x r) hi ↔
      (loOk lo x ∧ hiOk x hi ∧ Bounded lo l (some x) ∧ Bounded (some x) r hi) :=
  Iff.rfl

instance BinTree.decBounded :
    (lo : Option Nat) → (t : BinTree) → (hi : Option Nat) → Decidable (Bounded lo t hi)
  | _, .nil, _ => .isTrue trivial
  | lo, .node l x r, hi =>
      haveI := decBounded lo l (some x)
      haveI := decBounded (some x) r hi
      inferInstanceAs (Decidable (_ ∧ _ ∧ _ ∧ _))

theorem loOk_trans (lo : Option Nat) (a k : Nat) (h1 : loOk lo a) (h2 : a ≤ k) : loOk lo k := by
  cases lo with
  | none => trivial
  | some v => exact Nat.le_trans h1 h2

theorem hiOk_trans (k b : Nat) (hi : Option Nat) (h1 : k ≤ b) (h2 : hiOk b hi) : hiOk k hi := by
  cases hi with
  | none => trivial
  | some v => exact Nat.le_trans h1 h2

theorem BinTree.bounded_mono :
    ∀ (t : BinTree) (lo hi lo' hi' : Option Nat), Bounded lo t hi →
      (∀ k, loOk lo k → loOk lo' k) → (∀ k, hiOk k hi → hiOk k hi') → Bounded lo' t hi'
  | .nil, _, _, _, _ => fun _ _ _ => trivial
  | .node l x r, lo, hi, lo', hi' => by
    rintro ⟨h1, h2, h3, h4⟩ hl hh
    exact ⟨hl x h1, hh x h2,
      bounded_mono l lo (some x) lo' (some x) h3 hl (fun _ h => h),
      bounded_mono r (some x) hi (some x) hi' h4 (fun _ h => h) hh⟩

theorem BinTree.mem_bounded :
    ∀ (t : BinTree) (lo hi : Option Nat), Bounded lo t hi →
      ∀ y ∈ t.inorder, loOk lo y ∧ hiOk y hi
  | .nil, _, _ => by intro _ y hy; simp at hy
  | .node l x r, lo, hi => by
    rintro ⟨h1, h2, h3, h4⟩ y hy
    rcases List.mem_append.mp hy with hyl | hyx
    · obtain ⟨hlo, hhi⟩ := mem_bounded l lo (some x) h3 y hyl
      exact ⟨hlo, hiOk_trans y x hi hhi h2⟩
    · rcases List.mem_cons.mp hyx with rfl | hyr
      · exact ⟨h1, h2⟩
      · obtain ⟨hlo, hhi⟩ := mem_bounded r (some x) hi h4 y hyr
        exact ⟨loOk_trans lo x y h1 hlo, hhi⟩

theorem BinTree.bounded_sorted :
    ∀ (t : BinTree) (lo hi : Option Nat), Bounded lo t hi → t.inorder.Sorted (· ≤ ·)
  | .nil, _, _ => fun _ => List.sorted_nil
  | .node l x r, lo, hi => by
    rintro ⟨h1, h2, h3, h4⟩
    have ihl := bounded_sorted l lo (some x) h3
    have ihr := bounded_sorted r (some x) hi h4
    show List.Pairwise (· ≤ ·) (l.inorder ++ x :: r.inorder)
    rw [List.pairwise_append]
    refine ⟨ihl, ?_, ?_⟩
    · rw [List.pairwise_cons]
      exact ⟨fun y hy => (mem_bounded r (some x) hi h4 y hy).1, ihr⟩
    · intro a ha b hb
      have ha' : a ≤ x := (mem_bounded l lo (some x) h3 a ha).2
      rcases List.mem_cons.mp hb with rfl | hbr
      · exact ha'
      · have hxb : x ≤ b := (mem_bounded r (some x) hi h4 b hbr).1
        omega

theorem BinTree.inorder_insert_perm :
    ∀ (t : BinTree) (k : Nat), List.Perm (t.insert k).inorder (k :: t.inorder)
  | .nil, k => by simp [BinTree.insert]
  | .node l x r, k => by
    unfold BinTree.insert
    by_cases h : k < x
    · rw [if_pos h]
      simp only [inorder_node]
      exact (inorder_insert_perm l k).append_right (x :: r.inorder)
    · rw [if_neg h]
      simp only [inorder_node]
      have h1 : List.Perm (l.inorder ++ x :: (r.insert k).inorder)
          (l.inorder ++ x :: (k :: r.inorder)) :=
        ((inorder_insert_perm r k).cons x).append_left l.inorder
      refine h1.trans ?_
      have h2 : l.inorder ++ x :: k :: r.inorder = (l.inorder ++ [x]) ++ k :: r.inorder := by
        simp
      have h3 : List.Perm ((l.inorder ++ [x]) ++ k :: r.inorder)
          (k :: ((l.inorder ++ [x]) ++ r.inorder)) := List.perm_middle
      rw [h2]
      refine h3.trans ?_
      have h4 : (l.inorder ++ [x]) ++ r.inorder = l.inorder ++ x :: r.inorder := by simp
      rw [h4]

theorem BinTree.bounded_insert :
    ∀ (t : BinTree) (lo hi : Option Nat) (k : Nat),
      Bounded lo t hi → loOk lo k → hiOk k hi → Bounded lo (t.insert k) hi
  | .nil, lo, hi, k => by
    intro _ hl hh
    exact ⟨hl, hh, trivial, trivial⟩
  | .node l x r, lo, hi, k => by
    rintro ⟨h1, h2, h3, h4⟩ hl hh
    unfold insert
    by_cases h : k < x
    · rw [if_pos h]
      exact ⟨h1, h2, bounded_insert l lo (some x) k h3 hl (Nat.le_of_lt h), h4⟩
    · rw [if_neg h]
      exact ⟨h1, h2, h3, bounded_insert r (some x) hi k h4 (by simpa using Nat.le_of_not_lt h) hh⟩

theorem BinTree.find_iff_mem :
    ∀ (t : BinTree) (lo hi : Option Nat) (k : Nat), Bounded lo t hi →
      (t.find k = true ↔ k ∈ t.inorder)
  | .nil, _, _, k => by intro _; simp [BinTree.find]
  | .node l x r, lo, hi, k => by
    rintro ⟨h1, h2, h3, h4⟩
    unfold find
    by_cases h : k < x
    · rw [if_pos h, find_iff_mem l lo (some x) k h3]
      simp only [inorder_node, List.mem_append, List.mem_cons]
      constructor
      · intro hm; exact Or.inl hm
      · rintro (hm | rfl | hm)
        · exact hm
        · omega
        · have hxk : x ≤ k := (mem_bounded r (some x) hi h4 k hm).1
          omega
    · rw [if_neg h]
      by_cases h' : x < k
      · rw [if_pos h', find_iff_mem r (some x) hi k h4]
        simp only [inorder_node, List.mem_append, List.mem_cons]
        constructor
        · intro hm; exact Or.inr (Or.inr hm)
        · rintro (hm | rfl | hm)
          · have hkx : k ≤ x := (mem_bounded l lo (some x) h3 k hm).2
            omega
          · omega
          · exact hm
      · rw [if_neg h']
        have : k = x := by omega
        subst this
        simp

theorem BinTree.delMin_spec :
    ∀ (l : BinTree) (x : Nat) (r : BinTree) (lo hi : Option Nat),
      Bounded lo (.node l x r) hi →
      ((delMin l x r).1 :: (delMin l x r).2.inorder = (BinTree.node l x r).inorder ∧
        loOk lo (delMin l x r).1 ∧ hiOk (delMin l x r).1 hi ∧ (delMin l x r).1 ≤ x ∧
        Bounded (some (delMin l x r).1) (delMin l x r).2 hi)
  | .nil, x, r, lo, hi => by
    rintro ⟨h1, h2, -, h4⟩
    exact ⟨rfl, h1, h2, Nat.le_refl x, h4⟩
  | .node ll lx lr, x, r, lo, hi => by
    rintro ⟨h1, h2, h3, h4⟩
    obtain ⟨ih1, ih2, ih3, ih4, ih5⟩ := delMin_spec ll lx lr lo (some x) h3
    have hmx : (delMin ll lx lr).1 ≤ x := ih3
    refine ⟨?_, ih2, hiOk_trans _ x hi hmx h2, hmx, ?_⟩
    · show (delMin ll lx lr).1 :: ((delMin ll lx lr).2.inorder ++ x :: r.inorder) =
        (ll.inorder ++ lx :: lr.inorder) ++ x :: r.inorder
      rw [show (ll.inorder ++ lx :: lr.inorder) = (BinTree.node ll lx lr).inorder from rfl, ← ih1]
      rfl
    · exact ⟨hmx, h2, ih5, h4⟩

theorem BinTree.erase_eq_none_iff :
    ∀ (t : BinTree) (lo hi : Option Nat) (k : Nat), Bounded lo t hi →
      (t.erase k = none ↔ k ∉ t.inorder)
  | .nil, _, _, k => by intro _; simp [BinTree.erase]
  | .node l x r, lo, hi, k => by
    rintro ⟨h1, h2, h3, h4⟩
    unfold erase
    by_cases h : k < x
    · rw [if_pos h, Option.map_eq_none', erase_eq_none_iff l lo (some x) k h3]
      simp only [inorder_node, List.mem_append, List.mem_cons, not_or]
      constructor
      · intro hkl
        refine ⟨hkl, fun e => by omega, fun hm => ?_⟩
        have hxk : x ≤ k := (mem_bounded r (some x) hi h4 k hm).1
        omega
      · exact fun hs => hs.1
    · rw [if_neg h]
      by_cases h' : x < k
      · rw [if_pos h', Option.map_eq_none', erase_eq_none_iff r (some x) hi k h4]
        simp only [inorder_node, List.mem_append, List.mem_cons, not_or]
        constructor
        · intro hkr
          refine ⟨fun hm => ?_, fun e => by omega, hkr⟩
          have hkx : k ≤ x := (mem_bounded l lo (some x) h3 k hm).2
          omega
        · exact fun hs => hs.2.2
      · rw [if_neg h']
        have hkx : k = x := by omega
        subst hkx
        simp

theorem BinTree.erase_spec :
    ∀ (t : BinTree) (lo hi : Option Nat) (k : Nat) (t' : BinTree), Bounded lo t hi →
      t.erase k = some t' →
      (k ∈ t.inorder ∧ List.Perm (k :: t'.inorder) t.inorder ∧ Bounded lo t' hi)
  | .nil, _, _, k, t' => by intro _ he; simp [BinTree.erase] at he
  | .node l x r, lo, hi, k, t' => by
    rintro ⟨h1, h2, h3, h4⟩ he
    unfold erase at he
    by_cases h : k < x
    · rw [if_pos h, Option.map_eq_some'] at he
      obtain ⟨l', hl', ht'⟩ := he
      subst ht'
      obtain ⟨ihm, ihe, ihb⟩ := erase_spec l lo (some x) k l' h3 hl'
      refine ⟨by simp [ihm], ?_, h1, h2, ihb, h4⟩
      show List.Perm ((k :: l'.inorder) ++ (x :: r.inorder)) (l.inorder ++ x :: r.inorder)
      exact ihe.append_right (x :: r.inorder)
    · rw [if_neg h] at he
      by_cases h' : x < k
      · rw [if_pos h', Option.map_eq_some'] at he
        obtain ⟨r', hr', ht'⟩ := he
        subst ht'
        obtain ⟨ihm, ihe, ihb⟩ := erase_spec r (some x) hi k r' h4 hr'
        refine ⟨by simp [ihm], ?_, h1, h2, h3, ihb⟩
        show List.Perm (k :: (l.inorder ++ x :: r'.inorder)) (l.inorder ++ x :: r.inorder)
        have s1 : List.Perm (k :: (l.inorder ++ x :: r'.inorder))
            (l.inorder ++ x :: (k :: r'.inorder)) := by
          have hm := @List.perm_middle Nat k (l.inorder ++ [x]) r'.inorder
          simp only [List.append_assoc, List.singleton_append] at hm
          exact hm.symm
        exact s1.trans ((ihe.cons x).append_left l.inorder)
      · rw [if_neg h'] at he
        have hkx : k = x := by omega
        subst hkx
        cases l with
        | nil =>
          cases r with
          | nil =>
            have ht' : BinTree.nil = t' := Option.some.inj he
            subst ht'
            exact ⟨by simp, by simp, trivial⟩
          | node rl rx rr =>
            have ht' : BinTree.node rl rx rr = t' := Option.some.inj he
            subst ht'
            refine ⟨by simp, by simp, ?_⟩
            exact bounded_mono (.node rl rx rr) (some k) hi lo hi h4
              (fun y hy => loOk_trans lo k y h1 hy) (fun _ hy => hy)
        | node la lb lc =>
          cases r with
          | nil =>
            have ht' : BinTree.node la lb lc = t' := Option.some.inj he
            subst ht'
            refine ⟨by simp, ?_, ?_⟩
            · show List.Perm (k :: (BinTree.node la lb lc).inorder)
                ((BinTree.node la lb lc).inorder ++ k :: BinTree.nil.inorder)
              have hm := @List.perm_middle Nat k (BinTree.node la lb lc).inorder []
              simpa using hm.symm
            · exact bounded_mono (.node la lb lc) lo (some k) lo hi h3
                (fun _ hy => hy) (fun y hy => hiOk_trans y k hi hy h2)
          | node rl rx rr =>
            have ht' : BinTree.node (.node la lb lc) (delMin rl rx rr).1 (delMin rl rx rr).2 = t' :=
              Option.some.inj he
            subst ht'
            obtain ⟨e1, e2, e3, e4, e5⟩ := delMin_spec rl rx rr (some k) hi h4
            have hkm : k ≤ (delMin rl rx rr).1 := e2
            refine ⟨by simp, ?_, ?_⟩
            · show List.Perm
                (k :: ((BinTree.node la lb lc).inorder ++
                  (delMin rl rx rr).1 :: (delMin rl rx rr).2.inorder))
                ((BinTree.node la lb lc).inorder ++ k :: (BinTree.node rl rx rr).inorder)
              rw [show ((BinTree.node rl rx rr).inorder : List Nat) =
                (delMin rl rx rr).1 :: (delMin rl rx rr).2.inorder from e1.symm]
              exact List.perm_middle.symm
            · refine ⟨loOk_trans lo k _ h1 hkm, e3, ?_, e5⟩
              exact bounded_mono (.node la lb lc) lo (some k) lo (some (delMin rl rx rr).1) h3
                (fun _ hy => hy) (fun y hy => Nat.le_trans hy hkm)

theorem BinTree.erase_isSome (t : BinTree) (lo hi : Option Nat) (k : Nat)
    (hb : Bounded lo t hi) (hk : k ∈ t.inorder) : ∃ t', t.erase k = some t' := by
  cases he : t.erase k with
  | none => exact absurd hk ((erase_eq_none_iff t lo hi k hb).mp he)
  | some t' => exact ⟨t', rfl⟩

/-- Rotations preserve the search-tree invariant: the two trees related by a
single rotation are bounded under exactly the same conditions. -/
theorem BinTree.bounded_rot (lo hi : Option Nat) (A B C : BinTree) (a b : Nat) :
    Bounded lo (.node (.node A a B) b C) hi ↔ Bounded lo (.node A a (.node B b C)) hi := by
  simp only [bounded_node]
  constructor
  · rintro ⟨h1, h2, ⟨g1, g2, g3, g4⟩, h3⟩
    exact ⟨g1, hiOk_trans a b hi g2 h2, g3, g2, h2, g4, h3⟩
  · rintro ⟨k1, k2, k3, k4, k5, k6, k7⟩
    exact ⟨loOk_trans lo a b k1 k4, k5, ⟨k1, k4, k3, k6⟩, k7⟩

/-- Node height, computed from the structure (spec section 4.5 allows the
balance factor to be computed from subtree heights at fix-up time). -/
def BinTree.height : BinTree → Nat
  | .nil => 0
  | .node l _ r => max l.height r.height + 1

/-- Modelled from the spec (section 4.5): the AVL fix-up at one ancestor.
When the height difference of the two subtrees exceeds one, apply a single
rotation for a same-direction imbalance or a double rotation for an
opposite-direction imbalance; otherwise rebuild the node unchanged. -/
def balanceAVL (l : BinTree) (x : Nat) (r : BinTree) : BinTree :=
  if r.height + 2 ≤ l.height then
    match l with
    | .node ll lx lr =>
        if lr.height ≤ ll.height then .node ll lx (.node lr x r)
        else
          match lr with
          | .node lrl lrx lrr => .node (.node ll lx lrl) lrx (.node lrr x r)
          | .nil => .node l x r
    | .nil => .node l x r
  else if l.height + 2 ≤ r.height then
    match r with
    | .node rl rx rr =>
        if rl.height ≤ rr.height then .node (.node l x rl) rx rr
        else
          match rl with
          | .node rll rlx rlr => .node (.node l x rll) rlx (.node rlr rx rr)
          | .nil => .node l x r
    | .nil => .node l x r
  else .node l x r

/-- Modelled from the spec (section 4.5): AVL insert is the plain BST descent
followed by retracing with the height-based fix-up at every ancestor. -/
def BinTree.insertAVL : BinTree → Nat → BinTree
  | .nil, k => .node .nil k .nil
  | .node l x r, k =>
      if k < x then balanceAVL (insertAVL l k) x r else balanceAVL l x (insertAVL r k)

/-- Modelled from the spec (sections 4.2, 4.5): remove the leftmost node of
`node l x r`, rebalancing on the way back up. -/
def BinTree.delMinAVL : BinTree → Nat → BinTree → Nat × BinTree
  | .nil, x, r => (x, r)
  | .node ll lx lr, x, r =>
      let m := delMinAVL ll lx lr
      (m.1, balanceAVL m.2 x r)

/-- Modelled from the spec (sections 4.2, 4.5): AVL erase is the plain BST
three-case removal with the height fix-up applied on the way back to the
root. -/
def BinTree.eraseAVL : BinTree → Nat → Option BinTree
  | .nil, _ => none
  | .node l x r, k =>
      if k < x then (eraseAVL l k).map fun l' => balanceAVL l' x r
      else if x < k then (eraseAVL r k).map fun r' => balanceAVL l x r'
      else some (match l, r with
        | .nil, _ => r
        | _, .nil => l
        | _, .node rl rx rr =>
            let m := delMinAVL rl rx rr
            balanceAVL l m.1 m.2)

theorem inorder_balanceAVL (l : BinTree) (x : Nat) (r : BinTree) :
    (balanceAVL l x r).inorder = l.inorder ++ x :: r.inorder := by
  unfold balanceAVL
  repeat' split
  all_goals simp [List.append_assoc]

theorem bounded_balanceAVL (l : BinTree) (x : Nat) (r : BinTree) (lo hi : Option Nat)
    (h1 : loOk lo x) (h2 : hiOk x hi) (h3 : BinTree.Bounded lo l (some x))
    (h4 : BinTree.Bounded (some x) r hi) :
    BinTree.Bounded lo (balanceAVL l x r) hi := by
  unfold balanceAVL
  repeat' split
  all_goals
    rename BinTree.Bounded lo _ (some x) => g3
  all_goals
    rename BinTree.Bounded (some x) _ hi => g4
  all_goals first
    | exact ⟨h1, h2, g3, g4⟩
    | exact (BinTree.bounded_rot _ _ _ _ _ _ _).mp ⟨h1, h2, g3, g4⟩
    | exact (BinTree.bounded_rot _ _ _ _ _ _ _).mpr ⟨h1, h2, g3, g4⟩
    | exact (BinTree.bounded_rot _ _ _ _ _ _ _).mp
        ⟨h1, h2, (BinTree.bounded_rot _ _ _ _ _ _ _).mpr g3, g4⟩
    | exact (BinTree.bounded_rot _ _ _ _ _ _ _).mpr
        ⟨h1, h2, g3, (BinTree.bounded_rot _ _ _ _ _ _ _).mp g4⟩

theorem BinTree.inorder_insertAVL_perm :
    ∀ (t : BinTree) (k : Nat), List.Perm (t.insertAVL k).inorder (k :: t.inorder)
  | .nil, k => by simp [BinTree.insertAVL]
  | .node l x r, k => by
    unfold BinTree.insertAVL
    by_cases h : k < x
    · rw [if_pos h, inorder_balanceAVL]
      simp only [inorder_node]
      exact (inorder_insertAVL_perm l k).append_right (x :: r.inorder)
    · rw [if_neg h, inorder_balanceAVL]
      simp only [inorder_node]
      have h1 : List.Perm (l.inorder ++ x :: (r.insertAVL k).inorder)
          (l.inorder ++ x :: (k :: r.inorder)) :=
        ((inorder_insertAVL_perm r k).cons x).append_left l.inorder
      refine h1.trans ?_
      have h2 : l.inorder ++ x :: k :: r.inorder = (l.inorder ++ [x]) ++ k :: r.inorder := by
        simp
      have h3 : List.Perm ((l.inorder ++ [x]) ++ k :: r.inorder)
          (k :: ((l.inorder ++ [x]) ++ r.inorder)) := List.perm_middle
      rw [h2]
      refine h3.trans ?_
      have h4 : (l.inorder ++ [x]) ++ r.inorder = l.inorder ++ x :: r.inorder := by simp
      rw [h4]

theorem BinTree.bounded_insertAVL :
    ∀ (t : BinTree) (lo hi : Option Nat) (k : Nat),
      Bounded lo t hi → loOk lo k → hiOk k hi → Bounded lo (t.insertAVL k) hi
  | .nil, lo, hi, k => by
    intro _ hl hh
    exact ⟨hl, hh, trivial, trivial⟩
  | .node l x r, lo, hi, k => by
    rintro ⟨h1, h2, h3, h4⟩ hl hh
    unfold insertAVL
    by_cases h : k < x
    · rw [if_pos h]
      exact bounded_balanceAVL _ _ _ _ _ h1 h2
        (bounded_insertAVL l lo (some x) k h3 hl (Nat.le_of_lt h)) h4
    · rw [if_neg h]
      exact bounded_balanceAVL _ _ _ _ _ h1 h2 h3
        (bounded_insertAVL r (some x) hi k h4 (by simpa using Nat.le_of_not_lt h) hh)

theorem BinTree.delMinAVL_spec :
    ∀ (l : BinTree) (x : Nat) (r : BinTree) (lo hi : Option Nat),
      Bounded lo (.node l x r) hi →
      ((delMinAVL l x r).1 :: (delMinAVL l x r).2.inorder = (BinTree.node l x r).inorder ∧
        loOk lo (delMinAVL l x r).1 ∧ hiOk (delMinAVL l x r).1 hi ∧ (delMinAVL l x r).1 ≤ x ∧
        Bounded (some (delMinAVL l x r).1) (delMinAVL l x r).2 hi)
  | .nil, x, r, lo, hi => by
    rintro ⟨h1, h2, -, h4⟩
    exact ⟨rfl, h1, h2, Nat.le_refl x, h4⟩
  | .node ll lx lr, x, r, lo, hi => by
    rintro ⟨h1, h2, h3, h4⟩
    obtain ⟨ih1, ih2, ih3, ih4, ih5⟩ := delMinAVL_spec ll lx lr lo (some x) h3
    have hmx : (delMinAVL ll lx lr).1 ≤ x := ih3
    refine ⟨?_, ih2, hiOk_trans _ x hi hmx h2, hmx, ?_⟩
    · show (delMinAVL ll lx lr).1 :: (balanceAVL (delMinAVL ll lx lr).2 x r).inorder =
        (ll.inorder ++ lx :: lr.inorder) ++ x :: r.inorder
      rw [inorder_balanceAVL,
        show (ll.inorder ++ lx :: lr.inorder) = (BinTree.node ll lx lr).inorder from rfl, ← ih1]
      rfl
    · exact bounded_balanceAVL _ _ _ _ _ hmx h2 ih5 h4

theorem BinTree.eraseAVL_eq_none_iff :
    ∀ (t : BinTree) (lo hi : Option Nat) (k : Nat), Bounded lo t hi →
      (t.eraseAVL k = none ↔ k ∉ t.inorder)
  | .nil, _, _, k => by intro _; simp [BinTree.eraseAVL]
  | .node l x r, lo, hi, k => by
    rintro ⟨h1, h2, h3, h4⟩
    unfold eraseAVL
    by_cases h : k < x
    · rw [if_pos h, Option.map_eq_none', eraseAVL_eq_none_iff l lo (some x) k h3]
      simp only [inorder_node, List.mem_append, List.mem_cons, not_or]
      constructor
      · intro hkl
        refine ⟨hkl, fun e => by omega, fun hm => ?_⟩
        have hxk : x ≤ k := (mem_bounded r (some x) hi h4 k hm).1
        omega
      · exact fun hs => hs.1
    · rw [if_neg h]
      by_cases h' : x < k
      · rw [if_pos h', Option.map_eq_none', eraseAVL_eq_none_iff r (some x) hi k h4]
        simp only [inorder_node, List.mem_append, List.mem_cons, not_or]
        constructor
        · intro hkr
          refine ⟨fun hm => ?_, fun e => by omega, hkr⟩
          have hkx : k ≤ x := (mem_bounded l lo (some x) h3 k hm).2
          omega
        · exact fun hs => hs.2.2
      · rw [if_neg h']
        have hkx : k = x := by omega
        subst hkx
        simp

theorem BinTree.eraseAVL_spec :
    ∀ (t : BinTree) (lo hi : Option Nat) (k : Nat) (t' : BinTree), Bounded lo t hi →
      t.eraseAVL k = some t' →
      (k ∈ t.inorder ∧ List.Perm (k :: t'.inorder) t.inorder ∧ Bounded lo t' hi)
  | .nil, _, _, k, t' => by intro _ he; simp [BinTree.eraseAVL] at he
  | .node l x r, lo, hi, k, t' => by
    rintro ⟨h1, h2, h3, h4⟩ he
    unfold eraseAVL at he
    by_cases h : k < x
    · rw [if_pos h, Option.map_eq_some'] at he
      obtain ⟨l', hl', ht'⟩ := he
      subst ht'
      obtain ⟨ihm, ihe, ihb⟩ := eraseAVL_spec l lo (some x) k l' h3 hl'
      refine ⟨by simp [ihm], ?_, bounded_balanceAVL _ _ _ _ _ h1 h2 ihb h4⟩
      rw [inorder_balanceAVL]
      show List.Perm ((k :: l'.inorder) ++ (x :: r.inorder)) (l.inorder ++ x :: r.inorder)
      exact ihe.append_right (x :: r.inorder)
    · rw [if_neg h] at he
      by_cases h' : x < k
      · rw [if_pos h', Option.map_eq_some'] at he
        obtain ⟨r', hr', ht'⟩ := he
        subst ht'
        obtain ⟨ihm, ihe, ihb⟩ := eraseAVL_spec r (some x) hi k r' h4 hr'
        refine ⟨by simp [ihm], ?_, bounded_balanceAVL _ _ _ _ _ h1 h2 h3 ihb⟩
        rw [inorder_balanceAVL]
        show List.Perm (k :: (l.inorder ++ x :: r'.inorder)) (l.inorder ++ x :: r.inorder)
        have s1 : List.Perm (k :: (l.inorder ++ x :: r'.inorder))
            (l.inorder ++ x :: (k :: r'.inorder)) := by
          have hm := @List.perm_middle Nat k (l.inorder ++ [x]) r'.inorder
          simp only [List.append_assoc, List.singleton_append] at hm
          exact hm.symm
        exact s1.trans ((ihe.cons x).append_left l.inorder)
      · rw [if_neg h'] at he
        have hkx : k = x := by omega
        subst hkx
        cases l with
        | nil =>
          cases r with
          | nil =>
            have ht' : BinTree.nil = t' := Option.some.inj he
            subst ht'
            exact ⟨by simp, by simp, trivial⟩
          | node rl rx rr =>
            have ht' : BinTree.node rl rx rr = t' := Option.some.inj he
            subst ht'
            refine ⟨by simp, by simp, ?_⟩
            exact bounded_mono (.node rl rx rr) (some k) hi lo hi h4
              (fun y hy => loOk_trans lo k y h1 hy) (fun _ hy => hy)
        | node la lb lc =>
          cases r with
          | nil =>
            have ht' : BinTree.node la lb lc = t' := Option.some.inj he
            subst ht'
            refine ⟨by simp, ?_, ?_⟩
            · show List.Perm (k :: (BinTree.node la lb lc).inorder)
                ((BinTree.node la lb lc).inorder ++ k :: BinTree.nil.inorder)
              have hm := @List.perm_middle Nat k (BinTree.node la lb lc).inorder []
              simpa using hm.symm
            · exact bounded_mono (.node la lb lc) lo (some k) lo hi h3
                (fun _ hy => hy) (fun y hy => hiOk_trans y k hi hy h2)
          | node rl rx rr =>
            have ht' : balanceAVL (.node la lb lc) (delMinAVL rl rx rr).1 (delMinAVL rl rx rr).2
                = t' := Option.some.inj he
            subst ht'
            obtain ⟨e1, e2, e3, e4, e5⟩ := delMinAVL_spec rl rx rr (some k) hi h4
            have hkm : k ≤ (delMinAVL rl rx rr).1 := e2
            refine ⟨by simp, ?_, ?_⟩
            · rw [inorder_balanceAVL]
              show List.Perm
                (k :: ((BinTree.node la lb lc).inorder ++
                  (delMinAVL rl rx rr).1 :: (delMinAVL rl rx rr).2.inorder))
                ((BinTree.node la lb lc).inorder ++ k :: (BinTree.node rl rx rr).inorder)
              rw [show ((BinTree.node rl rx rr).inorder : List Nat) =
                (delMinAVL rl rx rr).1 :: (delMinAVL rl rx rr).2.inorder from e1.symm]
              exact List.perm_middle.symm
            · refine bounded_balanceAVL _ _ _ _ _ (loOk_trans lo k _ h1 hkm) e3 ?_ e5
              exact bounded_mono (.node la lb lc) lo (some k) lo (some (delMinAVL rl rx rr).1) h3
                (fun _ hy => hy) (fun y hy => Nat.le_trans hy hkm)

theorem BinTree.eraseAVL_isSome (t : BinTree) (lo hi : Option Nat) (k : Nat)
    (hb : Bounded lo t hi) (hk : k ∈ t.inorder) : ∃ t', t.eraseAVL k = some t' := by
  cases he : t.eraseAVL k with
  | none => exact absurd hk ((eraseAVL_eq_none_iff t lo hi k hb).mp he)
  | some t' => exact ⟨t', rfl⟩

/-- The zig / zig-zig completion on the left side: `res` is the recursive
splay of the left-left grandchild subtree. -/
def zigzigL (res bl : BinTree) (b : Nat) (br : BinTree) (c : Nat) (cr : BinTree) : BinTree :=
  match res with
  | .nil => .node bl b (.node br c cr)
  | .node al x ar => .node al x (.node ar b (.node br c cr))

/-- The zig / zig-zag completion on the left side: `res` is the recursive
splay of the left-right grandchild subtree. -/
def zigzagL (res bl : BinTree) (b : Nat) (br : BinTree) (c : Nat) (cr : BinTree) : BinTree :=
  match res with
  | .nil => .node bl b (.node br c cr)
  | .node al x ar => .node (.node bl b al) x (.node ar c cr)

/-- The zig / zig-zag completion on the right side. -/
def zigzagR (res cl : BinTree) (c : Nat) (bl : BinTree) (b : Nat) (br : BinTree) : BinTree :=
  match res with
  | .nil => .node (.node cl c bl) b br
  | .node al x ar => .node (.node cl c al) x (.node ar b br)

/-- The zig / zig-zig completion on the right side. -/
def zigzigR (res cl : BinTree) (c : Nat) (bl : BinTree) (b : Nat) (br : BinTree) : BinTree :=
  match res with
  | .nil => .node (.node cl c bl) b br
  | .node al x ar => .node (.node (.node cl c bl) b al) x ar

/-- Modelled from the spec (section 4.7): bottom-up splay by key. The three
access patterns appear as: zig (single rotation when the target is a child
of the current root), zig-zig (straight line — two rotations in the same
direction), zig-zag (bent line — rotate at the node then at the new
position). When the key is absent the last accessed node is splayed. -/
def BinTree.splay : BinTree → Nat → BinTree
  | .nil, _ => .nil
  | .node cl c cr, a =>
      if a < c then
        match cl with
        | .nil => .node .nil c cr
        | .node bl b br =>
            if a < b then zigzigL (splay bl a) bl b br c cr
            else if b < a then zigzagL (splay br a) bl b br c cr
            else .node bl b (.node br c cr)
      else if c < a then
        match cr with
        | .nil => .node cl c .nil
        | .node bl b br =>
            if a < b then zigzagR (splay bl a) cl c bl b br
            else if b < a then zigzigR (splay br a) cl c bl b br
            else .node (.node cl c bl) b br
      else .node cl c cr

/-- Modelled from the spec (section 4.7): splay the minimum (the in-order
first node) of a subtree to its root; used when joining the two subtrees of
an erased root. -/
def BinTree.splayMin : BinTree → BinTree
  | .nil => .nil
  | .node .nil c cr => .node .nil c cr
  | .node (.node .nil b br) c cr => .node .nil b (.node br c cr)
  | .node (.node (.node p q s) b br) c cr =>
      match splayMin (.node p q s) with
      | .node _ a' ar => .node .nil a' (.node ar b (.node br c cr))
      | .nil => .node .nil b (.node br c cr)

/-- Modelled from the spec (section 4.7): join the two subtrees of the erased
root by splaying the in-order neighbour of the removed key inside the right
subtree to that subtree's root and attaching the left subtree. -/
def BinTree.joinSplay : BinTree → BinTree → BinTree
  | l, .nil => l
  | l, .node rl rx rr =>
      match splayMin (.node rl rx rr) with
      | .node _ m mr => .node l m mr
      | .nil => l

/-- Modelled from the spec (section 4.7): `find` splays the accessed key to
the root and reports whether the root then holds it. Returns the new tree
together with the found flag. -/
def BinTree.findSplay (t : BinTree) (k : Nat) : BinTree × Bool :=
  match t.splay k with
  | .nil => (.nil, false)
  | .node l x r => (.node l x r, x == k)

/-- Modelled from the spec (section 4.7): insert attaches the node by the
plain BST descent and then splays the inserted node to the root. -/
def BinTree.insertSplay (t : BinTree) (k : Nat) : BinTree := (t.insert k).splay k

/-- Modelled from the spec (section 4.7): erase splays the target to the
root; if the root then holds the key it is removed and the two subtrees are
joined, otherwise "not found". The not-found result keeps the splayed tree
(as the pointer-based code would). -/
def BinTree.eraseSplay (t : BinTree) (k : Nat) : Option BinTree :=
  match t.splay k with
  | .nil => none
  | .node l x r => if x = k then some (l.joinSplay r) else none

theorem BinTree.inorder_splay : ∀ (t : BinTree) (a : Nat), (t.splay a).inorder = t.inorder
  | .nil, _ => rfl
  | .node cl c cr, a => by
    unfold splay
    by_cases h1 : a < c
    · rw [if_pos h1]
      cases cl with
      | nil => rfl
      | node bl b br =>
        show (if a < b then zigzigL (bl.splay a) bl b br c cr
          else if b < a then zigzagL (br.splay a) bl b br c cr
          else BinTree.node bl b (.node br c cr)).inorder =
            ((BinTree.node bl b br).node c cr).inorder
        by_cases h2 : a < b
        · rw [if_pos h2]
          have ih := inorder_splay bl a
          cases hsp : bl.splay a with
          | nil =>
            rw [hsp] at ih
            simp only [inorder_nil] at ih
            simp [zigzigL, ← ih, List.append_assoc]
          | node al a' ar =>
            rw [hsp] at ih
            simp only [inorder_node] at ih
            simp only [zigzigL, inorder_node]
            rw [← ih]
            simp [List.append_assoc]
        · rw [if_neg h2]
          by_cases h3 : b < a
          · rw [if_pos h3]
            have ih := inorder_splay br a
            cases hsp : br.splay a with
            | nil =>
              rw [hsp] at ih
              simp only [inorder_nil] at ih
              simp [zigzagL, ← ih, List.append_assoc]
            | node al a' ar =>
              rw [hsp] at ih
              simp only [inorder_node] at ih
              simp only [zigzagL, inorder_node]
              rw [← ih]
              simp [List.append_assoc]
          · rw [if_neg h3]
            simp [List.append_assoc]
    · rw [if_neg h1]
      by_cases h4 : c < a
      · rw [if_pos h4]
        cases cr with
        | nil => rfl
        | node bl b br =>
          show (if a < b then zigzagR (bl.splay a) cl c bl b br
            else if b < a then zigzigR (br.splay a) cl c bl b br
            else BinTree.node (.node cl c bl) b br).inorder =
              (cl.node c (BinTree.node bl b br)).inorder
          by_cases h2 : a < b
          · rw [if_pos h2]
            have ih := inorder_splay bl a
            cases hsp : bl.splay a with
            | nil =>
              rw [hsp] at ih
              simp only [inorder_nil] at ih
              simp [zigzagR, ← ih, List.append_assoc]
            | node al a' ar =>
              rw [hsp] at ih
              simp only [inorder_node] at ih
              simp only [zigzagR, inorder_node]
              rw [← ih]
              simp [List.append_assoc]
          · rw [if_neg h2]
            by_cases h3 : b < a
            · rw [if_pos h3]
              have ih := inorder_splay br a
              cases hsp : br.splay a with
              | nil =>
                rw [hsp] at ih
                simp only [inorder_nil] at ih
                simp [zigzigR, ← ih, List.append_assoc]
              | node al a' ar =>
                rw [hsp] at ih
                simp only [inorder_node] at ih
                simp only [zigzigR, inorder_node]
                rw [← ih]
                simp [List.append_assoc]
            · rw [if_neg h3]
              simp [List.append_assoc]
      · rw [if_neg h4]

theorem BinTree.bounded_splay :
    ∀ (t : BinTree) (a : Nat) (lo hi : Option Nat), Bounded lo t hi → Bounded lo (t.splay a) hi
  | .nil, _, _, _ => fun h => h
  | .node cl c cr, a, lo, hi => by
    intro h
    unfold splay
    by_cases h1 : a < c
    · rw [if_pos h1]
      cases cl with
      | nil => exact h
      | node bl b br =>
        obtain ⟨q1, q2, ⟨p1, p2, p3, p4⟩, q3⟩ := h
        show Bounded lo (if a < b then zigzigL (bl.splay a) bl b br c cr
          else if b < a then zigzagL (br.splay a) bl b br c cr
          else BinTree.node bl b (.node br c cr)) hi
        by_cases h2 : a < b
        · rw [if_pos h2]
          have ih := bounded_splay bl a lo (some b) p3
          cases hsp : bl.splay a with
          | nil =>
            simp only [zigzigL]
            exact (bounded_rot _ _ _ _ _ _ _).mp ⟨q1, q2, ⟨p1, p2, p3, p4⟩, q3⟩
          | node al a' ar =>
            rw [hsp] at ih
            simp only [zigzigL]
            exact (bounded_rot _ _ _ _ _ _ _).mp
              ((bounded_rot _ _ _ _ _ _ _).mp ⟨q1, q2, ⟨p1, p2, ih, p4⟩, q3⟩)
        · rw [if_neg h2]
          by_cases h3 : b < a
          · rw [if_pos h3]
            have ih := bounded_splay br a (some b) (some c) p4
            cases hsp : br.splay a with
            | nil =>
              simp only [zigzagL]
              exact (bounded_rot _ _ _ _ _ _ _).mp ⟨q1, q2, ⟨p1, p2, p3, p4⟩, q3⟩
            | node al a' ar =>
              rw [hsp] at ih
              simp only [zigzagL]
              exact (bounded_rot _ _ _ _ _ _ _).mp
                ⟨q1, q2, (bounded_rot _ _ _ _ _ _ _).mpr ⟨p1, p2, p3, ih⟩, q3⟩
          · rw [if_neg h3]
            exact (bounded_rot _ _ _ _ _ _ _).mp ⟨q1, q2, ⟨p1, p2, p3, p4⟩, q3⟩
    · rw [if_neg h1]
      by_cases h4 : c < a
      · rw [if_pos h4]
        cases cr with
        | nil => exact h
        | node bl b br =>
          obtain ⟨q1, q2, q3, ⟨p1, p2, p3, p4⟩⟩ := h
          show Bounded lo (if a < b then zigzagR (bl.splay a) cl c bl b br
            else if b < a then zigzigR (br.splay a) cl c bl b br
            else BinTree.node (.node cl c bl) b br) hi
          by_cases h2 : a < b
          · rw [if_pos h2]
            have ih := bounded_splay bl a (some c) (some b) p3
            cases hsp : bl.splay a with
            | nil =>
              simp only [zigzagR]
              exact (bounded_rot _ _ _ _ _ _ _).mpr ⟨q1, q2, q3, ⟨p1, p2, p3, p4⟩⟩
            | node al a' ar =>
              rw [hsp] at ih
              simp only [zigzagR]
              exact (bounded_rot _ _ _ _ _ _ _).mpr
                ⟨q1, q2, q3, (bounded_rot _ _ _ _ _ _ _).mp ⟨p1, p2, ih, p4⟩⟩
          · rw [if_neg h2]
            by_cases h3 : b < a
            · rw [if_pos h3]
              have ih := bounded_splay br a (some b) hi p4
              cases hsp : br.splay a with
              | nil =>
                simp only [zigzigR]
                exact (bounded_rot _ _ _ _ _ _ _).mpr ⟨q1, q2, q3, ⟨p1, p2, p3, p4⟩⟩
              | node al a' ar =>
                rw [hsp] at ih
                simp only [zigzigR]
                exact (bounded_rot _ _ _ _ _ _ _).mpr
                  ((bounded_rot _ _ _ _ _ _ _).mpr ⟨q1, q2, q3, ⟨p1, p2, p3, ih⟩⟩)
            · rw [if_neg h3]
              exact (bounded_rot _ _ _ _ _ _ _).mpr ⟨q1, q2, q3, ⟨p1, p2, p3, p4⟩⟩
      · rw [if_neg h4]
        exact h

theorem BinTree.splay_root :
    ∀ (t : BinTree) (a : Nat) (lo hi : Option Nat), Bounded lo t hi → a ∈ t.inorder →
      ∃ l r, t.splay a = .node l a r
  | .nil, a, _, _ => by intro _ hm; simp at hm
  | .node cl c cr, a, lo, hi => by
    intro h hm
    unfold splay
    by_cases h1 : a < c
    · rw [if_pos h1]
      obtain ⟨q1, q2, hcl, q3⟩ := h
      have hmcl : a ∈ cl.inorder := by
        rcases List.mem_append.mp hm with hx | hx
        · exact hx
        · rcases List.mem_cons.mp hx with rfl | hx
          · omega
          · have : c ≤ a := (mem_bounded cr (some c) hi q3 a hx).1
            omega
      cases cl with
      | nil => simp at hmcl
      | node bl b br =>
        obtain ⟨p1, p2, p3, p4⟩ := hcl
        show ∃ l r, (if a < b then zigzigL (bl.splay a) bl b br c cr
          else if b < a then zigzagL (br.splay a) bl b br c cr
          else BinTree.node bl b (.node br c cr)) = BinTree.node l a r
        by_cases h2 : a < b
        · rw [if_pos h2]
          have hmbl : a ∈ bl.inorder := by
            rcases List.mem_append.mp hmcl with hx | hx
            · exact hx
            · rcases List.mem_cons.mp hx with rfl | hx
              · omega
              · have : b ≤ a := (mem_bounded br (some b) (some c) p4 a hx).1
                omega
          obtain ⟨L, R, heq⟩ := splay_root bl a lo (some b) p3 hmbl
          rw [heq]
          exact ⟨L, .node R b (.node br c cr), rfl⟩
        · rw [if_neg h2]
          by_cases h3 : b < a
          · rw [if_pos h3]
            have hmbr : a ∈ br.inorder := by
              rcases List.mem_append.mp hmcl with hx | hx
              · have : a ≤ b := (mem_bounded bl lo (some b) p3 a hx).2
                omega
              · rcases List.mem_cons.mp hx with rfl | hx
                · omega
                · exact hx
            obtain ⟨L, R, heq⟩ := splay_root br a (some b) (some c) p4 hmbr
            rw [heq]
            exact ⟨.node bl b L, .node R c cr, rfl⟩
          · rw [if_neg h3]
            have hba : b = a := by omega
            exact ⟨bl, .node br c cr, by rw [hba]⟩
    · rw [if_neg h1]
      by_cases h4 : c < a
      · rw [if_pos h4]
        obtain ⟨q1, q2, q3, hcr⟩ := h
        have hmcr : a ∈ cr.inorder := by
          rcases List.mem_append.mp hm with hx | hx
          · have : a ≤ c := (mem_bounded cl lo (some c) q3 a hx).2
            omega
          · rcases List.mem_cons.mp hx with rfl | hx
            · omega
            · exact hx
        cases cr with
        | nil => simp at hmcr
        | node bl b br =>
          obtain ⟨p1, p2, p3, p4⟩ := hcr
          show ∃ l r, (if a < b then zigzagR (bl.splay a) cl c bl b br
            else if b < a then zigzigR (br.splay a) cl c bl b br
            else BinTree.node (.node cl c bl) b br) = BinTree.node l a r
          by_cases h2 : a < b
          · rw [if_pos h2]
            have hmbl : a ∈ bl.inorder := by
              rcases List.mem_append.mp hmcr with hx | hx
              · exact hx
              · rcases List.mem_cons.mp hx with rfl | hx
                · omega
                · have : b ≤ a := (mem_bounded br (some b) hi p4 a hx).1
                  omega
            obtain ⟨L, R, heq⟩ := splay_root bl a (some c) (some b) p3 hmbl
            rw [heq]
            exact ⟨.node cl c L, .node R b br, rfl⟩
          · rw [if_neg h2]
            by_cases h3 : b < a
            · rw [if_pos h3]
              have hmbr : a ∈ br.inorder := by
                rcases List.mem_append.mp hmcr with hx | hx
                · have : a ≤ b := (mem_bounded bl (some c) (some b) p3 a hx).2
                  omega
                · rcases List.mem_cons.mp hx with rfl | hx
                  · omega
                  · exact hx
              obtain ⟨L, R, heq⟩ := splay_root br a (some b) hi p4 hmbr
              rw [heq]
              exact ⟨.node (.node cl c bl) b L, R, rfl⟩
            · rw [if_neg h3]
              have hba : b = a := by omega
              exact ⟨.node cl c bl, br, by rw [hba]⟩
      · rw [if_neg h4]
        have hca : c = a := by omega
        exact ⟨cl, cr, by rw [hca]⟩

theorem BinTree.splayMin_spec :
    ∀ (l : BinTree) (x : Nat) (r : BinTree) (lo hi : Option Nat),
      Bounded lo (.node l x r) hi →
      ((BinTree.node l x r).splayMin.inorder = (BinTree.node l x r).inorder ∧
        Bounded lo (BinTree.node l x r).splayMin hi ∧
        ∃ m mr, (BinTree.node l x r).splayMin = .node .nil m mr)
  | .nil, x, r, lo, hi => by
    intro h
    exact ⟨rfl, h, x, r, rfl⟩
  | .node .nil b br, x, r, lo, hi => by
    rintro ⟨q1, q2, ⟨p1, p2, p3, p4⟩, q3⟩
    refine ⟨?_, ?_, b, .node br x r, rfl⟩
    · show (BinTree.node .nil b (.node br x r)).inorder =
        (BinTree.node (.node .nil b br) x r).inorder
      simp [List.append_assoc]
    · exact (bounded_rot _ _ _ _ _ _ _).mp ⟨q1, q2, ⟨p1, p2, p3, p4⟩, q3⟩
  | .node (.node p q s) b br, x, r, lo, hi => by
    rintro ⟨q1, q2, ⟨p1, p2, p3, p4⟩, q3⟩
    obtain ⟨ih1, ih2, m, mr, hSeq⟩ := splayMin_spec p q s lo (some b) p3
    have E : (BinTree.node (.node (.node p q s) b br) x r).splayMin =
        .node .nil m (.node mr b (.node br x r)) := by
      simp only [splayMin, hSeq]
    rw [E]
    rw [hSeq] at ih2
    refine ⟨?_, ?_, m, .node mr b (.node br x r), rfl⟩
    · have him : m :: mr.inorder = p.inorder ++ q :: s.inorder := by
        have h0 := ih1
        rw [hSeq] at h0
        simpa using h0
      simp only [inorder_node, inorder_nil, List.nil_append]
      rw [show m :: (mr.inorder ++ b :: (br.inorder ++ x :: r.inorder)) =
        (m :: mr.inorder) ++ (b :: (br.inorder ++ x :: r.inorder)) from rfl, him]
      simp [List.append_assoc]
    · exact (bounded_rot _ _ _ _ _ _ _).mp
        ((bounded_rot _ _ _ _ _ _ _).mp ⟨q1, q2, ⟨p1, p2, ih2, p4⟩, q3⟩)

theorem BinTree.joinSplay_spec (l r : BinTree) (lo hi : Option Nat) (mid : Nat)
    (hl : Bounded lo l (some mid)) (hr : Bounded (some mid) r hi)
    (hlo : loOk lo mid) (hhi : hiOk mid hi) :
    (l.joinSplay r).inorder = l.inorder ++ r.inorder ∧ Bounded lo (l.joinSplay r) hi := by
  cases r with
  | nil =>
    refine ⟨by simp [joinSplay], ?_⟩
    show Bounded lo l hi
    exact bounded_mono l lo (some mid) lo hi hl (fun _ hy => hy)
      (fun y hy => hiOk_trans y mid hi hy hhi)
  | node rl rx rr =>
    obtain ⟨j1, j2, m, mr, heq⟩ := splayMin_spec rl rx rr (some mid) hi hr
    have E : l.joinSplay (.node rl rx rr) = .node l m mr := by
      simp only [joinSplay, heq]
    rw [E]
    rw [heq] at j1 j2
    obtain ⟨g1, g2, -, g4⟩ := j2
    constructor
    · have him : m :: mr.inorder = rl.inorder ++ rx :: rr.inorder := by simpa using j1
      simp only [inorder_node]
      rw [← him]
    · refine ⟨loOk_trans lo mid m hlo g1, g2, ?_, g4⟩
      exact bounded_mono l lo (some mid) lo (some m) hl (fun _ hy => hy)
        (fun y hy => Nat.le_trans hy g1)

theorem BinTree.inorder_insertSplay_perm (t : BinTree) (k : Nat) :
    List.Perm (t.insertSplay k).inorder (k :: t.inorder) := by
  unfold insertSplay
  rw [inorder_splay]
  exact inorder_insert_perm t k

theorem BinTree.bounded_insertSplay (t : BinTree) (lo hi : Option Nat) (k : Nat)
    (hb : Bounded lo t hi) (hl : loOk lo k) (hh : hiOk k hi) :
    Bounded lo (t.insertSplay k) hi :=
  bounded_splay _ k lo hi (bounded_insert t lo hi k hb hl hh)

theorem BinTree.eraseSplay_eq_none_iff (t : BinTree) (lo hi : Option Nat) (k : Nat)
    (hb : Bounded lo t hi) : (t.eraseSplay k = none ↔ k ∉ t.inorder) := by
  unfold eraseSplay
  cases hsp : t.splay k with
  | nil =>
    have : t.inorder = [] := by rw [← inorder_splay t k, hsp]; rfl
    simp [this]
  | node l x r =>
    show ((if x = k then some (l.joinSplay r) else none) = none ↔ k ∉ t.inorder)
    by_cases hx : x = k
    · rw [if_pos hx]
      have hmem : k ∈ t.inorder := by
        rw [← inorder_splay t k, hsp]
        simp [hx]
      simp [hmem]
    · rw [if_neg hx]
      simp only [true_iff]
      intro hmem
      obtain ⟨L, R, heq⟩ := splay_root t k lo hi hb hmem
      rw [heq] at hsp
      exact hx (BinTree.node.inj hsp).2.1.symm

theorem BinTree.eraseSplay_spec (t : BinTree) (lo hi : Option Nat) (k : Nat) (t' : BinTree)
    (hb : Bounded lo t hi) (he : t.eraseSplay k = some t') :
    k ∈ t.inorder ∧ List.Perm (k :: t'.inorder) t.inorder ∧ Bounded lo t' hi := by
  unfold eraseSplay at he
  cases hsp : t.splay k with
  | nil =>
    rw [hsp] at he
    exact absurd he (by simp)
  | node l x r =>
    rw [hsp] at he
    have he' : (if x = k then some (l.joinSplay r) else none) = some t' := he
    by_cases hx : x = k
    · rw [if_pos hx] at he'
      subst hx
      have ht' : l.joinSplay r = t' := Option.some.inj he'
      have hbs : Bounded lo (.node l x r) hi := by
        rw [← hsp]
        exact bounded_splay t x lo hi hb
      obtain ⟨b1, b2, b3, b4⟩ := hbs
      obtain ⟨j1, j2⟩ := joinSplay_spec l r lo hi x b3 b4 b1 b2
      subst ht'
      refine ⟨?_, ?_, j2⟩
      · rw [← inorder_splay t x, hsp]
        simp
      · rw [j1, ← inorder_splay t x, hsp]
        show List.Perm (x :: (l.inorder ++ r.inorder)) (l.inorder ++ x :: r.inorder)
        exact List.perm_middle.symm
    · rw [if_neg hx] at he'
      exact absurd he' (by simp)

theorem BinTree.eraseSplay_isSome (t : BinTree) (lo hi : Option Nat) (k : Nat)
    (hb : Bounded lo t hi) (hk : k ∈ t.inorder) : ∃ t', t.eraseSplay k = some t' := by
  cases he : t.eraseSplay k with
  | none => exact absurd hk ((eraseSplay_eq_none_iff t lo hi k hb).mp he)
  | some t' => exact ⟨t', rfl⟩

theorem BinTree.findSplay_root (t : BinTree) (k : Nat)
    (hb : Bounded none t none) (hm : k ∈ t.inorder) :
    ∃ l r, (t.findSplay k).1 = .node l k r ∧ (t.findSplay k).2 = true := by
  obtain ⟨L, R, heq⟩ := splay_root t k none none hb hm
  unfold findSplay
  rw [heq]
  exact ⟨L, R, rfl, by simp⟩

theorem BinTree.findSplay_not_found (t : BinTree) (k : Nat) (lo hi : Option Nat)
    (hb : Bounded lo t hi) (hm : k ∉ t.inorder) : (t.findSplay k).2 = false := by
  unfold findSplay
  cases hsp : t.splay k with
  | nil => rfl
  | node l x r =>
    have hx : x ≠ k := by
      intro e
      apply hm
      rw [← inorder_splay t k, hsp, e]
      simp
    simp [hx]

/-- Modelled from the spec (sections 3, 4.4): the AA tree node carries an
integer level (1 for a fresh leaf). -/
inductive AATree
  | nil
  | node (lvl : Nat) (l : AATree) (k : Nat) (r : AATree)
deriving DecidableEq

/-- The AA level of a subtree; null nodes have level 0 (spec section 3). -/
def AATree.level : AATree → Nat
  | .nil => 0
  | .node lv _ _ _ => lv

/-- In-order traversal of an AA tree. -/
def AATree.inorder : AATree → List Nat
  | .nil => []
  | .node _ l x r => l.inorder ++ x :: r.inorder

@[simp] theorem AATree.inorder_nil_aa : AATree.nil.inorder = [] := rfl

@[simp] theorem AATree.inorder_node_aa (lv : Nat) (l : AATree) (x : Nat) (r : AATree) :
    (AATree.node lv l x r).inorder = l.inorder ++ x :: r.inorder := rfl

/-- The search-tree invariant for AA trees (levels do not matter for it). -/
def AATree.Bounded : Option Nat → AATree → Option Nat → Prop
  | _, .nil, _ => True
  | lo, .node _ l x r, hi =>
      loOk lo x ∧ hiOk x hi ∧ Bounded lo l (some x) ∧ Bounded (some x) r hi

@[simp] theorem AATree.bounded_nil_aa (lo hi : Option Nat) : AATree.Bounded lo .nil hi :=
  trivial

@[simp] theorem AATree.bounded_node_aa (lo hi : Option Nat) (lv : Nat) (l : AATree) (x : Nat)
    (r : AATree) :
    AATree.Bounded lo (.node lv l x r) hi ↔
      (loOk lo x ∧ hiOk x hi ∧ Bounded lo l (some x) ∧ Bounded (some x) r hi) :=
  Iff.rfl

instance AATree.decBounded :
    (lo : Option Nat) → (t : AATree) → (hi : Option Nat) → Decidable (Bounded lo t hi)
  | _, .nil, _ => .isTrue trivial
  | lo, .node _ l x r, hi =>
      haveI := decBounded lo l (some x)
      haveI := decBounded (some x) r hi
      inferInstanceAs (Decidable (_ ∧ _ ∧ _ ∧ _))

theorem AATree.bounded_mono_aa :
    ∀ (t : AATree) (lo hi lo' hi' : Option Nat), Bounded lo t hi →
      (∀ k, loOk lo k → loOk lo' k) → (∀ k, hiOk k hi → hiOk k hi') → Bounded lo' t hi'
  | .nil, _, _, _, _ => fun _ _ _ => trivial
  | .node _ l x r, lo, hi, lo', hi' => by
    rintro ⟨h1, h2, h3, h4⟩ hl hh
    exact ⟨hl x h1, hh x h2,
      bounded_mono_aa l lo (some x) lo' (some x) h3 hl (fun _ h => h),
      bounded_mono_aa r (some x) hi (some x) hi' h4 (fun _ h => h) hh⟩

theorem AATree.bounded_rot_aa (lo hi : Option Nat) (A B C : AATree) (a b u v : Nat) (u' v' : Nat) :
    (Bounded lo (.node u (.node v A a B) b C) hi ↔
      Bounded lo (.node u' A a (.node v' B b C)) hi) := by
  simp only [bounded_node_aa]
  constructor
  · rintro ⟨h1, h2, ⟨g1, g2, g3, g4⟩, h3⟩
    exact ⟨g1, hiOk_trans a b hi g2 h2, g3, g2, h2, g4, h3⟩
  · rintro ⟨k1, k2, k3, k4, k5, k6, k7⟩
    exact ⟨loOk_trans lo a b k1 k4, k5, ⟨k1, k4, k3, k6⟩, k7⟩

theorem AATree.mem_bounded_aa :
    ∀ (t : AATree) (lo hi : Option Nat), Bounded lo t hi →
      ∀ y ∈ t.inorder, loOk lo y ∧ hiOk y hi
  | .nil, _, _ => by intro _ y hy; simp at hy
  | .node _ l x r, lo, hi => by
    rintro ⟨h1, h2, h3, h4⟩ y hy
    rcases List.mem_append.mp hy with hyl | hyx
    · obtain ⟨hlo, hhi⟩ := mem_bounded_aa l lo (some x) h3 y hyl
      exact ⟨hlo, hiOk_trans y x hi hhi h2⟩
    · rcases List.mem_cons.mp hyx with rfl | hyr
      · exact ⟨h1, h2⟩
      · obtain ⟨hlo, hhi⟩ := mem_bounded_aa r (some x) hi h4 y hyr
        exact ⟨loOk_trans lo x y h1 hlo, hhi⟩

theorem AATree.bounded_sorted_aa :
    ∀ (t : AATree) (lo hi : Option Nat), Bounded lo t hi → t.inorder.Sorted (· ≤ ·)
  | .nil, _, _ => fun _ => List.sorted_nil
  | .node _ l x r, lo, hi => by
    rintro ⟨h1, h2, h3, h4⟩
    have ihl := bounded_sorted_aa l lo (some x) h3
    have ihr := bounded_sorted_aa r (some x) hi h4
    show List.Pairwise (· ≤ ·) (l.inorder ++ x :: r.inorder)
    rw [List.pairwise_append]
    refine ⟨ihl, ?_, ?_⟩
    · rw [List.pairwise_cons]
      exact ⟨fun y hy => (mem_bounded_aa r (some x) hi h4 y hy).1, ihr⟩
    · intro a ha b hb
      have ha' : a ≤ x := (mem_bounded_aa l lo (some x) h3 a ha).2
      rcases List.mem_cons.mp hb with rfl | hbr
      · exact ha'
      · have hxb : x ≤ b := (mem_bounded_aa r (some x) hi h4 b hbr).1
        omega

/-- Modelled from the spec (section 4.4): `skew` — when the left child has the
same level as the node, rotate right to remove the left-horizontal link. -/
def AATree.skew : AATree → AATree
  | .node lv (.node llv a lk b) k r =>
      if llv = lv then .node llv a lk (.node lv b k r)
      else .node lv (.node llv a lk b) k r
  | t => t

/-- Modelled from the spec (section 4.4): `split` — when the right-right
grandchild has the same level as the node, rotate left and promote the middle
node's level. -/
def AATree.split : AATree → AATree
  | .node lv a k (.node rlv b rk (.node rrlv c rrk d)) =>
      if rrlv = lv then .node (rlv + 1) (.node lv a k b) rk (.node rrlv c rrk d)
      else .node lv a k (.node rlv b rk (.node rrlv c rrk d))
  | t => t

/-- Modelled from the spec (section 4.4): insert descends as in the plain BST
(new leaves at level 1), then repairs with `skew` and `split` on the way up. -/
def AATree.insert : AATree → Nat → AATree
  | .nil, k => .node 1 .nil k .nil
  | .node lv l x r, k =>
      split (skew (if k < x then .node lv (insert l k) x r else .node lv l x (insert r k)))

/-- `find` for the AA tree: same descent as the plain BST (spec section 4.2). -/
def AATree.find : AATree → Nat → Bool
  | .nil, _ => false
  | .node _ l x r, k => if k < x then l.find k else if x < k then r.find k else true

/-- Cap the level of a node at `should` (part of the AA erase fix-up). -/
def AATree.capR (should : Nat) : AATree → AATree
  | .node rlv rl rk rr => if should < rlv then .node should rl rk rr else .node rlv rl rk rr
  | .nil => .nil

/-- Apply `skew` to the right child. -/
def AATree.skewR : AATree → AATree
  | .node a l k r => .node a l k (skew r)
  | .nil => .nil

/-- Apply `skew` to the right-right grandchild. -/
def AATree.skewRR : AATree → AATree
  | .node a l k (.node a3 l3 k3 r3) => .node a l k (.node a3 l3 k3 (skew r3))
  | t => t

/-- Apply `split` to the right child. -/
def AATree.splitR : AATree → AATree
  | .node a l k r => .node a l k (split r)
  | .nil => .nil

/-- Modelled from the spec (section 4.4): after a removal below, decrease the
node's level if it exceeds its children's levels by more than one (capping the
right child's level as well) and re-apply `skew`/`split` along the right
spine. -/
def AATree.adjust (t : AATree) : AATree :=
  match t with
  | .nil => .nil
  | .node lv l k r =>
      let should := min (level l) (level r) + 1
      if lv ≤ should then .node lv l k r
      else splitR (split (skewRR (skewR (skew (.node should l k (capR should r))))))

/-- Modelled from the spec (sections 4.2, 4.4): remove the leftmost node of
the subtree `node lv l x r`, readjusting levels on the way back. -/
def AATree.delMinAA : Nat → AATree → Nat → AATree → Nat × AATree
  | _, .nil, x, r => (x, r)
  | lv, .node llv ll lx lr, x, r =>
      let m := delMinAA llv ll lx lr
      (m.1, adjust (.node lv m.2 x r))

/-- Modelled from the spec (sections 4.2, 4.4): AA erase — the plain BST
three-case removal with the level readjustment applied along the path. -/
def AATree.erase : AATree → Nat → Option AATree
  | .nil, _ => none
  | .node lv l x r, k =>
      if k < x then (erase l k).map fun l' => adjust (.node lv l' x r)
      else if x < k then (erase r k).map fun r' => adjust (.node lv l x r')
      else some (match l, r with
        | .nil, _ => r
        | _, .nil => l
        | _, .node rlv rl rk rr =>
            let m := delMinAA rlv rl rk rr
            adjust (.node lv l m.1 m.2))

theorem AATree.inorder_skew : ∀ t : AATree, (skew t).inorder = t.inorder := by
  intro t
  unfold skew
  repeat' split
  all_goals simp [List.append_assoc]

theorem AATree.inorder_split : ∀ t : AATree, (split t).inorder = t.inorder := by
  intro t
  unfold split
  repeat' split
  all_goals simp [List.append_assoc]

theorem AATree.bounded_skew (t : AATree) (lo hi : Option Nat) (h : Bounded lo t hi) :
    Bounded lo (skew t) hi := by
  unfold skew
  repeat' split
  all_goals try exact h
  all_goals obtain ⟨h1, h2, ⟨g1, g2, g3, g4⟩, h3⟩ := h
  all_goals exact ⟨g1, hiOk_trans _ _ hi g2 h2, g3, g2, h2, g4, h3⟩

theorem AATree.bounded_split (t : AATree) (lo hi : Option Nat) (h : Bounded lo t hi) :
    Bounded lo (split t) hi := by
  unfold split
  repeat' split
  all_goals try exact h
  all_goals obtain ⟨h1, h2, h3, ⟨g1, g2, g3, g4⟩⟩ := h
  all_goals exact ⟨loOk_trans lo _ _ h1 g1, g2, ⟨h1, g1, h3, g3⟩, g4⟩

theorem AATree.inorder_capR (s : Nat) (t : AATree) : (capR s t).inorder = t.inorder := by
  unfold capR
  repeat' split
  all_goals simp

theorem AATree.bounded_capR (s : Nat) (t : AATree) (lo hi : Option Nat) (h : Bounded lo t hi) :
    Bounded lo (capR s t) hi := by
  unfold capR
  repeat' split
  all_goals simp_all

theorem AATree.inorder_skewR (t : AATree) : (skewR t).inorder = t.inorder := by
  cases t with
  | nil => rfl
  | node a l k r => simp [skewR, inorder_skew]

theorem AATree.bounded_skewR (t : AATree) (lo hi : Option Nat) (h : Bounded lo t hi) :
    Bounded lo (skewR t) hi := by
  cases t with
  | nil => trivial
  | node a l k r =>
    obtain ⟨h1, h2, h3, h4⟩ := h
    exact ⟨h1, h2, h3, bounded_skew r (some k) hi h4⟩

theorem AATree.inorder_skewRR (t : AATree) : (skewRR t).inorder = t.inorder := by
  unfold skewRR
  repeat' split
  all_goals simp [inorder_skew]

theorem AATree.bounded_skewRR (t : AATree) (lo hi : Option Nat) (h : Bounded lo t hi) :
    Bounded lo (skewRR t) hi := by
  unfold skewRR
  repeat' split
  all_goals try exact h
  all_goals obtain ⟨h1, h2, h3, ⟨g1, g2, g3, g4⟩⟩ := h
  all_goals exact ⟨h1, h2, h3, g1, g2, g3, bounded_skew _ _ _ g4⟩

theorem AATree.inorder_splitR (t : AATree) : (splitR t).inorder = t.inorder := by
  cases t with
  | nil => rfl
  | node a l k r => simp [splitR, inorder_split]

theorem AATree.bounded_splitR (t : AATree) (lo hi : Option Nat) (h : Bounded lo t hi) :
    Bounded lo (splitR t) hi := by
  cases t with
  | nil => trivial
  | node a l k r =>
    obtain ⟨h1, h2, h3, h4⟩ := h
    exact ⟨h1, h2, h3, bounded_split r (some k) hi h4⟩

theorem AATree.inorder_adjust (t : AATree) : (adjust t).inorder = t.inorder := by
  cases t with
  | nil => rfl
  | node lv l k r =>
    show (if lv ≤ min (level l) (level r) + 1 then AATree.node lv l k r
      else splitR (split (skewRR (skewR (skew
        (.node (min (level l) (level r) + 1) l k
          (capR (min (level l) (level r) + 1) r))))))).inorder =
      (AATree.node lv l k r).inorder
    split
    · rfl
    · rw [inorder_splitR, inorder_split, inorder_skewRR, inorder_skewR, inorder_skew]
      simp [inorder_capR]

theorem AATree.bounded_adjust (t : AATree) (lo hi : Option Nat) (h : Bounded lo t hi) :
    Bounded lo (adjust t) hi := by
  cases t with
  | nil => trivial
  | node lv l k r =>
    show Bounded lo (if lv ≤ min (level l) (level r) + 1 then AATree.node lv l k r
      else splitR (split (skewRR (skewR (skew
        (.node (min (level l) (level r) + 1) l k
          (capR (min (level l) (level r) + 1) r))))))) hi
    split
    · exact h
    · obtain ⟨h1, h2, h3, h4⟩ := h
      exact bounded_splitR _ _ _ (bounded_split _ _ _ (bounded_skewRR _ _ _ (bounded_skewR _ _ _
        (bounded_skew _ _ _ ⟨h1, h2, h3, bounded_capR _ r _ _ h4⟩))))

theorem AATree.inorder_insert_perm_aa :
    ∀ (t : AATree) (k : Nat), List.Perm (t.insert k).inorder (k :: t.inorder)
  | .nil, k => by simp [AATree.insert]
  | .node lv l x r, k => by
    unfold AATree.insert
    rw [inorder_split, inorder_skew]
    by_cases h : k < x
    · rw [if_pos h]
      simp only [inorder_node_aa]
      exact (inorder_insert_perm_aa l k).append_right (x :: r.inorder)
    · rw [if_neg h]
      simp only [inorder_node_aa]
      have h1 : List.Perm (l.inorder ++ x :: (r.insert k).inorder)
          (l.inorder ++ x :: (k :: r.inorder)) :=
        ((inorder_insert_perm_aa r k).cons x).append_left l.inorder
      refine h1.trans ?_
      rw [show l.inorder ++ x :: k :: r.inorder = (l.inorder ++ [x]) ++ k :: r.inorder by simp]
      refine List.perm_middle.trans ?_
      rw [show (l.inorder ++ [x]) ++ r.inorder = l.inorder ++ x :: r.inorder by simp]

theorem AATree.bounded_insert_aa :
    ∀ (t : AATree) (lo hi : Option Nat) (k : Nat),
      Bounded lo t hi → loOk lo k → hiOk k hi → Bounded lo (t.insert k) hi
  | .nil, lo, hi, k => by
    intro _ hl hh
    exact ⟨hl, hh, trivial, trivial⟩
  | .node lv l x r, lo, hi, k => by
    rintro ⟨h1, h2, h3, h4⟩ hl hh
    unfold insert
    apply bounded_split
    apply bounded_skew
    by_cases h : k < x
    · rw [if_pos h]
      exact ⟨h1, h2, bounded_insert_aa l lo (some x) k h3 hl (Nat.le_of_lt h), h4⟩
    · rw [if_neg h]
      exact ⟨h1, h2, h3, bounded_insert_aa r (some x) hi k h4 (by simpa using Nat.le_of_not_lt h) hh⟩

theorem AATree.find_iff_mem_aa :
    ∀ (t : AATree) (lo hi : Option Nat) (k : Nat), Bounded lo t hi →
      (t.find k = true ↔ k ∈ t.inorder)
  | .nil, _, _, k => by intro _; simp [AATree.find]
  | .node lv l x r, lo, hi, k => by
    rintro ⟨h1, h2, h3, h4⟩
    unfold find
    by_cases h : k < x
    · rw [if_pos h, find_iff_mem_aa l lo (some x) k h3]
      simp only [inorder_node_aa, List.mem_append, List.mem_cons]
      constructor
      · intro hm; exact Or.inl hm
      · rintro (hm | rfl | hm)
        · exact hm
        · omega
        · have hxk : x ≤ k := (mem_bounded_aa r (some x) hi h4 k hm).1
          omega
    · rw [if_neg h]
      by_cases h' : x < k
      · rw [if_pos h', find_iff_mem_aa r (some x) hi k h4]
        simp only [inorder_node_aa, List.mem_append, List.mem_cons]
        constructor
        · intro hm; exact Or.inr (Or.inr hm)
        · rintro (hm | rfl | hm)
          · have hkx : k ≤ x := (mem_bounded_aa l lo (some x) h3 k hm).2
            omega
          · omega
          · exact hm
      · rw [if_neg h']
        have hkx : k = x := by omega
        subst hkx
        simp

theorem AATree.delMinAA_spec :
    ∀ (l : AATree) (lv : Nat) (x : Nat) (r : AATree) (lo hi : Option Nat),
      Bounded lo (.node lv l x r) hi →
      ((delMinAA lv l x r).1 :: (delMinAA lv l x r).2.inorder = (AATree.node lv l x r).inorder ∧
        loOk lo (delMinAA lv l x r).1 ∧ hiOk (delMinAA lv l x r).1 hi ∧
        (delMinAA lv l x r).1 ≤ x ∧
        Bounded (some (delMinAA lv l x r).1) (delMinAA lv l x r).2 hi)
  | .nil, lv, x, r, lo, hi => by
    rintro ⟨h1, h2, -, h4⟩
    exact ⟨rfl, h1, h2, Nat.le_refl x, h4⟩
  | .node llv ll lx lr, lv, x, r, lo, hi => by
    rintro ⟨h1, h2, h3, h4⟩
    obtain ⟨ih1, ih2, ih3, ih4, ih5⟩ := delMinAA_spec ll llv lx lr lo (some x) h3
    have hmx : (delMinAA llv ll lx lr).1 ≤ x := ih3
    refine ⟨?_, ih2, hiOk_trans _ x hi hmx h2, hmx, ?_⟩
    · show (delMinAA llv ll lx lr).1 :: (adjust (.node lv (delMinAA llv ll lx lr).2 x r)).inorder
        = (ll.inorder ++ lx :: lr.inorder) ++ x :: r.inorder
      rw [inorder_adjust,
        show (ll.inorder ++ lx :: lr.inorder) = (AATree.node llv ll lx lr).inorder from rfl,
        ← ih1]
      rfl
    · show Bounded (some (delMinAA llv ll lx lr).1)
        (adjust (.node lv (delMinAA llv ll lx lr).2 x r)) hi
      exact bounded_adjust _ _ _ ⟨hmx, h2, ih5, h4⟩

theorem AATree.erase_eq_none_iff_aa :
    ∀ (t : AATree) (lo hi : Option Nat) (k : Nat), Bounded lo t hi →
      (t.erase k = none ↔ k ∉ t.inorder)
  | .nil, _, _, k => by intro _; simp [AATree.erase]
  | .node lv l x r, lo, hi, k => by
    rintro ⟨h1, h2, h3, h4⟩
    unfold erase
    by_cases h : k < x
    · rw [if_pos h, Option.map_eq_none', erase_eq_none_iff_aa l lo (some x) k h3]
      simp only [inorder_node_aa, List.mem_append, List.mem_cons, not_or]
      constructor
      · intro hkl
        refine ⟨hkl, fun e => by omega, fun hm => ?_⟩
        have hxk : x ≤ k := (mem_bounded_aa r (some x) hi h4 k hm).1
        omega
      · exact fun hs => hs.1
    · rw [if_neg h]
      by_cases h' : x < k
      · rw [if_pos h', Option.map_eq_none', erase_eq_none_iff_aa r (some x) hi k h4]
        simp only [inorder_node_aa, List.mem_append, List.mem_cons, not_or]
        constructor
        · intro hkr
          refine ⟨fun hm => ?_, fun e => by omega, hkr⟩
          have hkx : k ≤ x := (mem_bounded_aa l lo (some x) h3 k hm).2
          omega
        · exact fun hs => hs.2.2
      · rw [if_neg h']
        have hkx : k = x := by omega
        subst hkx
        simp

theorem AATree.erase_spec_aa :
    ∀ (t : AATree) (lo hi : Option Nat) (k : Nat) (t' : AATree), Bounded lo t hi →
      t.erase k = some t' →
      (k ∈ t.inorder ∧ List.Perm (k :: t'.inorder) t.inorder ∧ Bounded lo t' hi)
  | .nil, _, _, k, t' => by intro _ he; simp [AATree.erase] at he
  | .node lv l x r, lo, hi, k, t' => by
    rintro ⟨h1, h2, h3, h4⟩ he
    unfold erase at he
    by_cases h : k < x
    · rw [if_pos h, Option.map_eq_some'] at he
      obtain ⟨l', hl', ht'⟩ := he
      subst ht'
      obtain ⟨ihm, ihe, ihb⟩ := erase_spec_aa l lo (some x) k l' h3 hl'
      refine ⟨by simp [ihm], ?_, bounded_adjust _ _ _ ⟨h1, h2, ihb, h4⟩⟩
      rw [inorder_adjust]
      show List.Perm ((k :: l'.inorder) ++ (x :: r.inorder)) (l.inorder ++ x :: r.inorder)
      exact ihe.append_right (x :: r.inorder)
    · rw [if_neg h] at he
      by_cases h' : x < k
      · rw [if_pos h', Option.map_eq_some'] at he
        obtain ⟨r', hr', ht'⟩ := he
        subst ht'
        obtain ⟨ihm, ihe, ihb⟩ := erase_spec_aa r (some x) hi k r' h4 hr'
        refine ⟨by simp [ihm], ?_, bounded_adjust _ _ _ ⟨h1, h2, h3, ihb⟩⟩
        rw [inorder_adjust]
        show List.Perm (k :: (l.inorder ++ x :: r'.inorder)) (l.inorder ++ x :: r.inorder)
        have s1 : List.Perm (k :: (l.inorder ++ x :: r'.inorder))
            (l.inorder ++ x :: (k :: r'.inorder)) := by
          have hm := @List.perm_middle Nat k (l.inorder ++ [x]) r'.inorder
          simp only [List.append_assoc, List.singleton_append] at hm
          exact hm.symm
        exact s1.trans ((ihe.cons x).append_left l.inorder)
      · rw [if_neg h'] at he
        have hkx : k = x := by omega
        subst hkx
        cases l with
        | nil =>
          cases r with
          | nil =>
            have ht' : AATree.nil = t' := Option.some.inj he
            subst ht'
            exact ⟨by simp, by simp, trivial⟩
          | node rlv rl rx rr =>
            have ht' : AATree.node rlv rl rx rr = t' := Option.some.inj he
            subst ht'
            refine ⟨by simp, by simp, ?_⟩
            exact bounded_mono_aa (.node rlv rl rx rr) (some k) hi lo hi h4
              (fun y hy => loOk_trans lo k y h1 hy) (fun _ hy => hy)
        | node llv la lb lc =>
          cases r with
          | nil =>
            have ht' : AATree.node llv la lb lc = t' := Option.some.inj he
            subst ht'
            refine ⟨by simp, ?_, ?_⟩
            · show List.Perm (k :: (AATree.node llv la lb lc).inorder)
                ((AATree.node llv la lb lc).inorder ++ k :: AATree.nil.inorder)
              have hm := @List.perm_middle Nat k (AATree.node llv la lb lc).inorder []
              simpa using hm.symm
            · exact bounded_mono_aa (.node llv la lb lc) lo (some k) lo hi h3
                (fun _ hy => hy) (fun y hy => hiOk_trans y k hi hy h2)
          | node rlv rl rx rr =>
            have ht' : adjust (.node lv (.node llv la lb lc) (delMinAA rlv rl rx rr).1
                (delMinAA rlv rl rx rr).2) = t' := Option.some.inj he
            subst ht'
            obtain ⟨e1, e2, e3, e4, e5⟩ := delMinAA_spec rl rlv rx rr (some k) hi h4
            have hkm : k ≤ (delMinAA rlv rl rx rr).1 := e2
            refine ⟨by simp, ?_, ?_⟩
            · rw [inorder_adjust]
              show List.Perm
                (k :: ((AATree.node llv la lb lc).inorder ++
                  (delMinAA rlv rl rx rr).1 :: (delMinAA rlv rl rx rr).2.inorder))
                ((AATree.node llv la lb lc).inorder ++ k :: (AATree.node rlv rl rx rr).inorder)
              rw [show ((AATree.node rlv rl rx rr).inorder : List Nat) =
                (delMinAA rlv rl rx rr).1 :: (delMinAA rlv rl rx rr).2.inorder from e1.symm]
              exact List.perm_middle.symm
            · refine bounded_adjust _ _ _ ⟨loOk_trans lo k _ h1 hkm, e3, ?_, e5⟩
              exact bounded_mono_aa (.node llv la lb lc) lo (some k) lo
                (some (delMinAA rlv rl rx rr).1) h3
                (fun _ hy => hy) (fun y hy => Nat.le_trans hy hkm)

theorem AATree.erase_isSome_aa (t : AATree) (lo hi : Option Nat) (k : Nat)
    (hb : Bounded lo t hi) (hk : k ∈ t.inorder) : ∃ t', t.erase k = some t' := by
  cases he : t.erase k with
  | none => exact absurd hk ((erase_eq_none_iff_aa t lo hi k hb).mp he)
  | some t' => exact ⟨t', rfl⟩

/-! ### Red-Black trees (bintree_rb.h is not in src/; modelled from the spec) -/

/-- Modelled from the spec (section 4.6): the two node colors of the
Red-Black balancer. -/
inductive Col
  | red
  | black
deriving DecidableEq

/-- Modelled from the spec (sections 3, 4.6): the Red-Black tree shape — a
plain binary tree whose nodes additionally carry a color. -/
inductive RBTree
  | nil
  | node (c : Col) (l : RBTree) (k : Nat) (r : RBTree)
deriving DecidableEq

/-- Modelled from the spec (section 4.6): the color of a root; null leaves
are conceptually BLACK. -/
def RBTree.color : RBTree → Col
  | .nil => .black
  | .node c _ _ _ => c

/-- Modelled from the spec (section 4.6): recoloring a root (used when the
fix-up forces the root BLACK, and inside the erase fix-up). -/
def RBTree.paint (c : Col) : RBTree → RBTree
  | .nil => .nil
  | .node _ l k r => .node c l k r

/-- Modelled from the spec (section 4.6): whether a tree is a BLACK interior
node (the color dispatch the erase fix-up performs on a child). -/
def RBTree.isBN : RBTree → Bool
  | .node .black _ _ _ => true
  | _ => false

/-- Modelled from the spec (section 4.6): the insert fix-up step at a BLACK
grandparent whose left side just grew.  A RED child with a RED child (the
uncle being BLACK) is resolved by rotating to straighten a zig-zag, rotating
at the grandparent, and recoloring; otherwise the node is rebuilt BLACK. -/
def RBTree.baliL : RBTree → Nat → RBTree → RBTree
  | .node .red (.node .red t1 a t2) b t3, c, t4 =>
      .node .red (.node .black t1 a t2) b (.node .black t3 c t4)
  | .node .red t1 a (.node .red t2 b t3), c, t4 =>
      .node .red (.node .black t1 a t2) b (.node .black t3 c t4)
  | l, k, r => .node .black l k r

/-- Modelled from the spec (section 4.6): the mirror image of `baliL` for a
right side that just grew. -/
def RBTree.baliR : RBTree → Nat → RBTree → RBTree
  | t1, a, .node .red t2 b (.node .red t3 c t4) =>
      .node .red (.node .black t1 a t2) b (.node .black t3 c t4)
  | t1, a, .node .red (.node .red t2 b t3) c t4 =>
      .node .red (.node .black t1 a t2) b (.node .black t3 c t4)
  | l, k, r => .node .black l k r

/-- Modelled from the spec (sections 4.2, 4.6): insert descends by the plain
BST rule (ties to the right), attaches the new key as a RED leaf, and
resolves any RED-RED violation on the way back up: below a RED parent the
node is rebuilt unchanged (the violation is handed upward), below a BLACK
parent `baliL`/`baliR` performs the rotation/recoloring cases. -/
def RBTree.insRB : RBTree → Nat → RBTree
  | .nil, k => .node .red .nil k .nil
  | .node .black l x r, k =>
      if k < x then baliL (insRB l k) x r else baliR l x (insRB r k)
  | .node .red l x r, k =>
      if k < x then .node .red (insRB l k) x r else .node .red l x (insRB r k)

/-- Modelled from the spec (section 4.6): insert, forcing the root BLACK at
the end of the fix-up. -/
def RBTree.insert (t : RBTree) (k : Nat) : RBTree := (t.insRB k).paint .black

/-- Modelled from the spec (sections 4.2, 4.6): find by the plain BST
descent; colors do not participate. -/
def RBTree.find : RBTree → Nat → Bool
  | .nil, _ => false
  | .node _ l x r, k => if k < x then l.find k else if x < k then r.find k else true

/-- Modelled from the spec (section 4.6): the erase fix-up for a LEFT child
one BLACK node short ("double black"), resolved through the sibling-color
cases: RED former left root absorbs the deficiency by turning BLACK; a BLACK
sibling is recolored RED and the combined surplus rebalanced with `baliR`
(propagating the deficiency when nothing absorbs it); a RED sibling is first
rotated toward the deficiency. -/
def RBTree.baldL : RBTree → Nat → RBTree → RBTree
  | .node .red t1 a t2, b, t3 => .node .red (.node .black t1 a t2) b t3
  | t1, a, .node .black t2 b t3 => baliR t1 a (.node .red t2 b t3)
  | t1, a, .node .red (.node .black t2 b t3) c t4 =>
      .node .red (.node .black t1 a t2) b (baliR t3 c (paint .red t4))
  | t1, a, t2 => .node .red t1 a t2

/-- Modelled from the spec (section 4.6): the mirror image of `baldL` for a
RIGHT child one BLACK node short. -/
def RBTree.baldR : RBTree → Nat → RBTree → RBTree
  | t1, a, .node .red t2 b t3 => .node .red t1 a (.node .black t2 b t3)
  | .node .black t1 a t2, b, t3 => baliL (.node .red t1 a t2) b t3
  | .node .red t1 a (.node .black t2 b t3), c, t4 =>
      .node .red (baliL (paint .red t1) a t2) b (.node .black t3 c t4)
  | t1, a, t2 => .node .red t1 a t2

/-- Modelled from the spec (sections 4.2, 4.6): remove the in-order
successor (the leftmost node of the subtree with fields `l`, `x`, `r`),
applying the double-black fix-up `baldL` whenever the removal passed through
a BLACK left child. -/
def RBTree.delMinRB : RBTree → Nat → RBTree → Nat × RBTree
  | .nil, x, r => (x, r)
  | .node lc ll lx lr, x, r =>
      let m := delMinRB ll lx lr
      (m.1, if lc = .black then baldL m.2 x r else .node .red m.2 x r)

/-- Modelled from the spec (sections 4.2, 4.6): erase locates the key by the
plain BST descent and removes one node by the three-case rule (leaf /
one-child splice / two-children successor swap), running the double-black
fix-up `baldL`/`baldR` after removal below a BLACK child.  Returns `none`
("not found") for an absent key. -/
def RBTree.delRB : RBTree → Nat → Option RBTree
  | .nil, _ => none
  | .node _ l x r, k =>
      if k < x then
        (delRB l k).map fun l' => if isBN l then baldL l' x r else .node .red l' x r
      else if x < k then
        (delRB r k).map fun r' => if isBN r then baldR l x r' else .node .red l x r'
      else some (match l, r with
        | .nil, _ => r
        | _, .nil => l
        | _, .node rc rl rx rr =>
            let m := delMinRB rl rx rr
            if rc = .black then baldR l m.1 m.2 else .node .red l m.1 m.2)

/-- Modelled from the spec (section 4.6): erase, forcing the root BLACK. -/
def RBTree.erase (t : RBTree) (k : Nat) : Option RBTree :=
  (t.delRB k).map (paint .black)

/-- In-order traversal of a Red-Black tree (spec section 4.2); colors are
ignored. -/
def RBTree.inorder : RBTree → List Nat
  | .nil => []
  | .node _ l x r => l.inorder ++ x :: r.inorder

/-- The logical size of a Red-Black tree (spec section 3). -/
def RBTree.size (t : RBTree) : Nat := t.inorder.length

@[simp] theorem RBTree.inorder_nil_rb : RBTree.nil.inorder = [] := rfl

@[simp] theorem RBTree.inorder_node_rb (c : Col) (l : RBTree) (x : Nat) (r : RBTree) :
    (RBTree.node c l x r).inorder = l.inorder ++ x :: r.inorder := rfl

/-- The search-tree invariant for the Red-Black shape (spec section 3);
colors do not participate. -/
def RBTree.Bounded : Option Nat → RBTree → Option Nat → Prop
  | _, .nil, _ => True
  | lo, .node _ l x r, hi =>
      loOk lo x ∧ hiOk x hi ∧ Bounded lo l (some x) ∧ Bounded (some x) r hi

@[simp] theorem RBTree.bounded_nil_rb (lo hi : Option Nat) : RBTree.Bounded lo .nil hi :=
  trivial

@[simp] theorem RBTree.bounded_node_rb (lo hi : Option Nat) (c : Col) (l : RBTree) (x : Nat)
    (r : RBTree) :
    RBTree.Bounded lo (.node c l x r) hi ↔
      (loOk lo x ∧ hiOk x hi ∧ Bounded lo l (some x) ∧ Bounded (some x) r hi) :=
  Iff.rfl

instance RBTree.decBounded :
    (lo : Option Nat) → (t : RBTree) → (hi : Option Nat) → Decidable (Bounded lo t hi)
  | _, .nil, _ => .isTrue trivial
  | lo, .node _ l x r, hi =>
      haveI := decBounded lo l (some x)
      haveI := decBounded (some x) r hi
      inferInstanceAs (Decidable (_ ∧ _ ∧ _ ∧ _))

theorem RBTree.bounded_mono_rb :
    ∀ (t : RBTree) (lo hi lo' hi' : Option Nat), Bounded lo t hi →
      (∀ k, loOk lo k → loOk lo' k) → (∀ k, hiOk k hi → hiOk k hi') → Bounded lo' t hi'
  | .nil, _, _, _, _ => fun _ _ _ => trivial
  | .node _ l x r, lo, hi, lo', hi' => by
    rintro ⟨h1, h2, h3, h4⟩ hl hh
    exact ⟨hl x h1, hh x h2,
      bounded_mono_rb l lo (some x) lo' (some x) h3 hl (fun _ h => h),
      bounded_mono_rb r (some x) hi (some x) hi' h4 (fun _ h => h) hh⟩

theorem RBTree.bounded_rot_rb (lo hi : Option Nat) (A B C : RBTree) (a b : Nat) (u v u' v' : Col) :
    (Bounded lo (.node u (.node v A a B) b C) hi ↔
      Bounded lo (.node u' A a (.node v' B b C)) hi) := by
  simp only [bounded_node_rb]
  constructor
  · rintro ⟨h1, h2, ⟨g1, g2, g3, g4⟩, h3⟩
    exact ⟨g1, hiOk_trans a b hi g2 h2, g3, g2, h2, g4, h3⟩
  · rintro ⟨k1, k2, k3, k4, k5, k6, k7⟩
    exact ⟨loOk_trans lo a b k1 k4, k5, ⟨k1, k4, k3, k6⟩, k7⟩

theorem RBTree.mem_bounded_rb :
    ∀ (t : RBTree) (lo hi : Option Nat), Bounded lo t hi →
      ∀ y ∈ t.inorder, loOk lo y ∧ hiOk y hi
  | .nil, _, _ => by intro _ y hy; simp at hy
  | .node _ l x r, lo, hi => by
    rintro ⟨h1, h2, h3, h4⟩ y hy
    rcases List.mem_append.mp hy with hyl | hyx
    · obtain ⟨hlo, hhi⟩ := mem_bounded_rb l lo (some x) h3 y hyl
      exact ⟨hlo, hiOk_trans y x hi hhi h2⟩
    · rcases List.mem_cons.mp hyx with rfl | hyr
      · exact ⟨h1, h2⟩
      · obtain ⟨hlo, hhi⟩ := mem_bounded_rb r (some x) hi h4 y hyr
        exact ⟨loOk_trans lo x y h1 hlo, hhi⟩

theorem RBTree.bounded_sorted_rb :
    ∀ (t : RBTree) (lo hi : Option Nat), Bounded lo t hi → t.inorder.Sorted (· ≤ ·)
  | .nil, _, _ => fun _ => List.sorted_nil
  | .node _ l x r, lo, hi => by
    rintro ⟨h1, h2, h3, h4⟩
    have ihl := bounded_sorted_rb l lo (some x) h3
    have ihr := bounded_sorted_rb r (some x) hi h4
    show List.Pairwise (· ≤ ·) (l.inorder ++ x :: r.inorder)
    rw [List.pairwise_append]
    refine ⟨ihl, ?_, ?_⟩
    · rw [List.pairwise_cons]
      exact ⟨fun y hy => (mem_bounded_rb r (some x) hi h4 y hy).1, ihr⟩
    · intro a ha b hb
      have ha' : a ≤ x := (mem_bounded_rb l lo (some x) h3 a ha).2
      rcases List.mem_cons.mp hb with rfl | hbr
      · exact ha'
      · have hxb : x ≤ b := (mem_bounded_rb r (some x) hi h4 b hbr).1
        omega

@[simp] theorem RBTree.inorder_paint (c : Col) (t : RBTree) : (paint c t).inorder = t.inorder := by
  cases t <;> rfl

theorem RBTree.bounded_paint (c : Col) (t : RBTree) (lo hi : Option Nat)
    (h : Bounded lo t hi) : Bounded lo (paint c t) hi := by
  cases t with
  | nil => trivial
  | node c0 l x r => exact h

theorem RBTree.inorder_baliL (l : RBTree) (k : Nat) (r : RBTree) :
    (baliL l k r).inorder = l.inorder ++ k :: r.inorder := by
  unfold baliL
  repeat' split
  all_goals simp [List.append_assoc]

theorem RBTree.inorder_baliR (l : RBTree) (k : Nat) (r : RBTree) :
    (baliR l k r).inorder = l.inorder ++ k :: r.inorder := by
  unfold baliR
  repeat' split
  all_goals simp [List.append_assoc]

theorem RBTree.bounded_baliL (l : RBTree) (k : Nat) (r : RBTree) (lo hi : Option Nat)
    (h1 : loOk lo k) (h2 : hiOk k hi) (h3 : Bounded lo l (some k)) (h4 : Bounded (some k) r hi) :
    Bounded lo (baliL l k r) hi := by
  unfold baliL
  repeat' split
  · obtain ⟨g1, g2, ⟨f1, f2, f3, f4⟩, g4⟩ := h3
    exact ⟨g1, hiOk_trans _ _ _ g2 h2, ⟨f1, f2, f3, f4⟩, g2, h2, g4, h4⟩
  · obtain ⟨g1, g2, g3, ⟨f1, f2, f3, f4⟩⟩ := h3
    exact ⟨loOk_trans _ _ _ g1 f1, hiOk_trans _ _ _ f2 h2, ⟨g1, f1, g3, f3⟩, f2, h2, f4, h4⟩
  · exact ⟨h1, h2, h3, h4⟩

theorem RBTree.bounded_baliR (l : RBTree) (k : Nat) (r : RBTree) (lo hi : Option Nat)
    (h1 : loOk lo k) (h2 : hiOk k hi) (h3 : Bounded lo l (some k)) (h4 : Bounded (some k) r hi) :
    Bounded lo (baliR l k r) hi := by
  unfold baliR
  repeat' split
  · obtain ⟨g1, g2, g3, ⟨f1, f2, f3, f4⟩⟩ := h4
    exact ⟨loOk_trans _ _ _ h1 g1, g2, ⟨h1, g1, h3, g3⟩, f1, f2, f3, f4⟩
  · obtain ⟨g1, g2, ⟨f1, f2, f3, f4⟩, g4⟩ := h4
    exact ⟨loOk_trans _ _ _ h1 f1, hiOk_trans _ _ _ f2 g2, ⟨h1, f1, h3, f3⟩, f2, g2, f4, g4⟩
  · exact ⟨h1, h2, h3, h4⟩

theorem RBTree.inorder_baldL (l : RBTree) (k : Nat) (r : RBTree) :
    (baldL l k r).inorder = l.inorder ++ k :: r.inorder := by
  unfold baldL
  repeat' split
  all_goals simp [inorder_baliR, List.append_assoc]

theorem RBTree.inorder_baldR (l : RBTree) (k : Nat) (r : RBTree) :
    (baldR l k r).inorder = l.inorder ++ k :: r.inorder := by
  unfold baldR
  repeat' split
  all_goals simp [inorder_baliL, List.append_assoc]

theorem RBTree.bounded_baldL (l : RBTree) (k : Nat) (r : RBTree) (lo hi : Option Nat)
    (h1 : loOk lo k) (h2 : hiOk k hi) (h3 : Bounded lo l (some k)) (h4 : Bounded (some k) r hi) :
    Bounded lo (baldL l k r) hi := by
  unfold baldL
  repeat' split
  · exact ⟨h1, h2, h3, h4⟩
  · exact bounded_baliR l k _ lo hi h1 h2 h3 h4
  · obtain ⟨g1, g2, ⟨f1, f2, f3, f4⟩, g4⟩ := h4
    exact ⟨loOk_trans lo k _ h1 f1, hiOk_trans _ _ hi f2 g2, ⟨h1, f1, h3, f3⟩,
      bounded_baliR _ _ _ (some _) hi f2 g2 f4 (bounded_paint .red _ (some _) hi g4)⟩
  · exact ⟨h1, h2, h3, h4⟩

theorem RBTree.bounded_baldR (l : RBTree) (k : Nat) (r : RBTree) (lo hi : Option Nat)
    (h1 : loOk lo k) (h2 : hiOk k hi) (h3 : Bounded lo l (some k)) (h4 : Bounded (some k) r hi) :
    Bounded lo (baldR l k r) hi := by
  unfold baldR
  repeat' split
  · exact ⟨h1, h2, h3, h4⟩
  · exact bounded_baliL _ k r lo hi h1 h2 h3 h4
  · obtain ⟨g1, g2, g3, ⟨f1, f2, f3, f4⟩⟩ := h3
    exact ⟨loOk_trans lo _ _ g1 f1, hiOk_trans _ k hi f2 h2,
      bounded_baliL (paint .red _) _ _ lo (some _) g1 f1
        (bounded_paint .red _ lo (some _) g3) f3, f2, h2, f4, h4⟩
  · exact ⟨h1, h2, h3, h4⟩

theorem perm_mid_insert (A B BI : List Nat) (x k : Nat) (h : List.Perm BI (k :: B)) :
    List.Perm (A ++ x :: BI) (k :: (A ++ x :: B)) := by
  have h1 : List.Perm (A ++ x :: BI) (A ++ x :: (k :: B)) := (h.cons x).append_left A
  have h2 := @List.perm_middle Nat k (A ++ [x]) B
  simp only [List.append_assoc, List.singleton_append] at h2
  exact h1.trans h2

theorem RBTree.inorder_ifBaldL (b : Bool) (l : RBTree) (x : Nat) (r : RBTree) :
    (if b then baldL l x r else RBTree.node .red l x r).inorder =
      l.inorder ++ x :: r.inorder := by
  cases b
  · simp
  · simp [inorder_baldL]

theorem RBTree.inorder_ifBaldR (b : Bool) (l : RBTree) (x : Nat) (r : RBTree) :
    (if b then baldR l x r else RBTree.node .red l x r).inorder =
      l.inorder ++ x :: r.inorder := by
  cases b
  · simp
  · simp [inorder_baldR]

theorem RBTree.bounded_ifBaldL (b : Bool) (l : RBTree) (x : Nat) (r : RBTree)
    (lo hi : Option Nat) (h1 : loOk lo x) (h2 : hiOk x hi) (h3 : Bounded lo l (some x))
    (h4 : Bounded (some x) r hi) :
    Bounded lo (if b then baldL l x r else RBTree.node .red l x r) hi := by
  cases b
  · exact ⟨h1, h2, h3, h4⟩
  · exact bounded_baldL l x r lo hi h1 h2 h3 h4

theorem RBTree.bounded_ifBaldR (b : Bool) (l : RBTree) (x : Nat) (r : RBTree)
    (lo hi : Option Nat) (h1 : loOk lo x) (h2 : hiOk x hi) (h3 : Bounded lo l (some x))
    (h4 : Bounded (some x) r hi) :
    Bounded lo (if b then baldR l x r else RBTree.node .red l x r) hi := by
  cases b
  · exact ⟨h1, h2, h3, h4⟩
  · exact bounded_baldR l x r lo hi h1 h2 h3 h4

theorem RBTree.inorder_ifcBaldL (c : Col) (l : RBTree) (x : Nat) (r : RBTree) :
    (if c = .black then baldL l x r else RBTree.node .red l x r).inorder =
      l.inorder ++ x :: r.inorder := by
  cases c
  · simp
  · simp [inorder_baldL]

theorem RBTree.inorder_ifcBaldR (c : Col) (l : RBTree) (x : Nat) (r : RBTree) :
    (if c = .black then baldR l x r else RBTree.node .red l x r).inorder =
      l.inorder ++ x :: r.inorder := by
  cases c
  · simp
  · simp [inorder_baldR]

theorem RBTree.bounded_ifcBaldL (c : Col) (l : RBTree) (x : Nat) (r : RBTree)
    (lo hi : Option Nat) (h1 : loOk lo x) (h2 : hiOk x hi) (h3 : Bounded lo l (some x))
    (h4 : Bounded (some x) r hi) :
    Bounded lo (if c = .black then baldL l x r else RBTree.node .red l x r) hi := by
  cases c
  · exact ⟨h1, h2, h3, h4⟩
  · exact bounded_baldL l x r lo hi h1 h2 h3 h4

theorem RBTree.bounded_ifcBaldR (c : Col) (l : RBTree) (x : Nat) (r : RBTree)
    (lo hi : Option Nat) (h1 : loOk lo x) (h2 : hiOk x hi) (h3 : Bounded lo l (some x))
    (h4 : Bounded (some x) r hi) :
    Bounded lo (if c = .black then baldR l x r else RBTree.node .red l x r) hi := by
  cases c
  · exact ⟨h1, h2, h3, h4⟩
  · exact bounded_baldR l x r lo hi h1 h2 h3 h4

theorem RBTree.inorder_insRB_perm :
    ∀ (t : RBTree) (k : Nat), List.Perm (t.insRB k).inorder (k :: t.inorder)
  | .nil, k => by simp [RBTree.insRB]
  | .node .black l x r, k => by
    unfold insRB
    by_cases h : k < x
    · rw [if_pos h, inorder_baliL]
      simp only [inorder_node_rb]
      exact (inorder_insRB_perm l k).append_right (x :: r.inorder)
    · rw [if_neg h, inorder_baliR]
      simp only [inorder_node_rb]
      exact perm_mid_insert l.inorder r.inorder (r.insRB k).inorder x k
        (inorder_insRB_perm r k)
  | .node .red l x r, k => by
    unfold insRB
    by_cases h : k < x
    · rw [if_pos h]
      simp only [inorder_node_rb]
      exact (inorder_insRB_perm l k).append_right (x :: r.inorder)
    · rw [if_neg h]
      simp only [inorder_node_rb]
      exact perm_mid_insert l.inorder r.inorder (r.insRB k).inorder x k
        (inorder_insRB_perm r k)

theorem RBTree.bounded_insRB :
    ∀ (t : RBTree) (lo hi : Option Nat) (k : Nat),
      Bounded lo t hi → loOk lo k → hiOk k hi → Bounded lo (t.insRB k) hi
  | .nil, lo, hi, k => by
    intro _ hl hh
    exact ⟨hl, hh, trivial, trivial⟩
  | .node .black l x r, lo, hi, k => by
    rintro ⟨h1, h2, h3, h4⟩ hl hh
    unfold insRB
    by_cases h : k < x
    · rw [if_pos h]
      exact bounded_baliL _ x r lo hi h1 h2
        (bounded_insRB l lo (some x) k h3 hl (Nat.le_of_lt h)) h4
    · rw [if_neg h]
      exact bounded_baliR l x _ lo hi h1 h2 h3
        (bounded_insRB r (some x) hi k h4 (by simpa using Nat.le_of_not_lt h) hh)
  | .node .red l x r, lo, hi, k => by
    rintro ⟨h1, h2, h3, h4⟩ hl hh
    unfold insRB
    by_cases h : k < x
    · rw [if_pos h]
      exact ⟨h1, h2, bounded_insRB l lo (some x) k h3 hl (Nat.le_of_lt h), h4⟩
    · rw [if_neg h]
      exact ⟨h1, h2, h3,
        bounded_insRB r (some x) hi k h4 (by simpa using Nat.le_of_not_lt h) hh⟩

theorem RBTree.inorder_insert_perm_rb (t : RBTree) (k : Nat) :
    List.Perm (t.insert k).inorder (k :: t.inorder) := by
  unfold insert
  rw [inorder_paint]
  exact inorder_insRB_perm t k

theorem RBTree.bounded_insert_rb (t : RBTree) (lo hi : Option Nat) (k : Nat)
    (hb : Bounded lo t hi) (hl : loOk lo k) (hh : hiOk k hi) :
    Bounded lo (t.insert k) hi :=
  bounded_paint .black _ lo hi (bounded_insRB t lo hi k hb hl hh)

theorem RBTree.find_iff_mem_rb :
    ∀ (t : RBTree) (lo hi : Option Nat) (k : Nat), Bounded lo t hi →
      (t.find k = true ↔ k ∈ t.inorder)
  | .nil, _, _, k => by intro _; simp [RBTree.find]
  | .node c l x r, lo, hi, k => by
    rintro ⟨h1, h2, h3, h4⟩
    unfold find
    by_cases h : k < x
    · rw [if_pos h, find_iff_mem_rb l lo (some x) k h3]
      simp only [inorder_node_rb, List.mem_append, List.mem_cons]
      constructor
      · intro hm; exact Or.inl hm
      · rintro (hm | rfl | hm)
        · exact hm
        · omega
        · have hxk : x ≤ k := (mem_bounded_rb r (some x) hi h4 k hm).1
          omega
    · rw [if_neg h]
      by_cases h' : x < k
      · rw [if_pos h', find_iff_mem_rb r (some x) hi k h4]
        simp only [inorder_node_rb, List.mem_append, List.mem_cons]
        constructor
        · intro hm; exact Or.inr (Or.inr hm)
        · rintro (hm | rfl | hm)
          · have hkx : k ≤ x := (mem_bounded_rb l lo (some x) h3 k hm).2
            omega
          · omega
          · exact hm
      · rw [if_neg h']
        have hkx : k = x := by omega
        subst hkx
        simp

theorem RBTree.delMinRB_spec :
    ∀ (l : RBTree) (x : Nat) (r : RBTree) (lo hi : Option Nat),
      loOk lo x → hiOk x hi → Bounded lo l (some x) → Bounded (some x) r hi →
      ((delMinRB l x r).1 :: (delMinRB l x r).2.inorder = l.inorder ++ x :: r.inorder ∧
        loOk lo (delMinRB l x r).1 ∧ hiOk (delMinRB l x r).1 hi ∧
        (delMinRB l x r).1 ≤ x ∧
        Bounded (some (delMinRB l x r).1) (delMinRB l x r).2 hi)
  | .nil, x, r, lo, hi => by
    intro h1 h2 _ h4
    exact ⟨rfl, h1, h2, Nat.le_refl x, h4⟩
  | .node lc ll lx lr, x, r, lo, hi => by
    intro h1 h2 h3 h4
    obtain ⟨g1, g2, g3, g4⟩ := h3
    obtain ⟨ih1, ih2, ih3, ih4, ih5⟩ := delMinRB_spec ll lx lr lo (some x) g1 g2 g3 g4
    refine ⟨?_, ih2, hiOk_trans _ x hi ih3 h2, ih3, ?_⟩
    · show (delMinRB ll lx lr).1 ::
        (if lc = .black then baldL (delMinRB ll lx lr).2 x r
          else .node .red (delMinRB ll lx lr).2 x r).inorder
        = (ll.inorder ++ lx :: lr.inorder) ++ x :: r.inorder
      rw [inorder_ifcBaldL, ← ih1]
      rfl
    · show Bounded (some (delMinRB ll lx lr).1)
        (if lc = .black then baldL (delMinRB ll lx lr).2 x r
          else .node .red (delMinRB ll lx lr).2 x r) hi
      exact bounded_ifcBaldL lc _ x r (some (delMinRB ll lx lr).1) hi ih3 h2 ih5 h4

theorem RBTree.delRB_eq_none_iff :
    ∀ (t : RBTree) (lo hi : Option Nat) (k : Nat), Bounded lo t hi →
      (t.delRB k = none ↔ k ∉ t.inorder)
  | .nil, _, _, k => by intro _; simp [RBTree.delRB]
  | .node c l x r, lo, hi, k => by
    rintro ⟨h1, h2, h3, h4⟩
    unfold delRB
    by_cases h : k < x
    · rw [if_pos h, Option.map_eq_none', delRB_eq_none_iff l lo (some x) k h3]
      simp only [inorder_node_rb, List.mem_append, List.mem_cons, not_or]
      constructor
      · intro hkl
        refine ⟨hkl, fun e => by omega, fun hm => ?_⟩
        have hxk : x ≤ k := (mem_bounded_rb r (some x) hi h4 k hm).1
        omega
      · exact fun hs => hs.1
    · rw [if_neg h]
      by_cases h' : x < k
      · rw [if_pos h', Option.map_eq_none', delRB_eq_none_iff r (some x) hi k h4]
        simp only [inorder_node_rb, List.mem_append, List.mem_cons, not_or]
        constructor
        · intro hkr
          refine ⟨fun hm => ?_, fun e => by omega, hkr⟩
          have hkx : k ≤ x := (mem_bounded_rb l lo (some x) h3 k hm).2
          omega
        · exact fun hs => hs.2.2
      · rw [if_neg h']
        have hkx : k = x := by omega
        subst hkx
        simp

theorem RBTree.delRB_spec :
    ∀ (t : RBTree) (lo hi : Option Nat) (k : Nat) (t' : RBTree), Bounded lo t hi →
      t.delRB k = some t' →
      (k ∈ t.inorder ∧ List.Perm (k :: t'.inorder) t.inorder ∧ Bounded lo t' hi)
  | .nil, _, _, k, t' => by intro _ he; simp [RBTree.delRB] at he
  | .node c l x r, lo, hi, k, t' => by
    rintro ⟨h1, h2, h3, h4⟩ he
    unfold delRB at he
    by_cases h : k < x
    · rw [if_pos h, Option.map_eq_some'] at he
      obtain ⟨l', hl', ht'⟩ := he
      subst ht'
      obtain ⟨ihm, ihe, ihb⟩ := delRB_spec l lo (some x) k l' h3 hl'
      refine ⟨by simp [ihm], ?_, bounded_ifBaldL (isBN l) l' x r lo hi h1 h2 ihb h4⟩
      rw [inorder_ifBaldL]
      show List.Perm ((k :: l'.inorder) ++ (x :: r.inorder)) (l.inorder ++ x :: r.inorder)
      exact ihe.append_right (x :: r.inorder)
    · rw [if_neg h] at he
      by_cases h' : x < k
      · rw [if_pos h', Option.map_eq_some'] at he
        obtain ⟨r', hr', ht'⟩ := he
        subst ht'
        obtain ⟨ihm, ihe, ihb⟩ := delRB_spec r (some x) hi k r' h4 hr'
        refine ⟨by simp [ihm], ?_, bounded_ifBaldR (isBN r) l x r' lo hi h1 h2 h3 ihb⟩
        rw [inorder_ifBaldR]
        show List.Perm (k :: (l.inorder ++ x :: r'.inorder)) (l.inorder ++ x :: r.inorder)
        have s1 : List.Perm (k :: (l.inorder ++ x :: r'.inorder))
            (l.inorder ++ x :: (k :: r'.inorder)) := by
          have hm := @List.perm_middle Nat k (l.inorder ++ [x]) r'.inorder
          simp only [List.append_assoc, List.singleton_append] at hm
          exact hm.symm
        exact s1.trans ((ihe.cons x).append_left l.inorder)
      · rw [if_neg h'] at he
        have hkx : k = x := by omega
        subst hkx
        cases l with
        | nil =>
          cases r with
          | nil =>
            have ht' : RBTree.nil = t' := Option.some.inj he
            subst ht'
            exact ⟨by simp, by simp, trivial⟩
          | node rc rl rx rr =>
            have ht' : RBTree.node rc rl rx rr = t' := Option.some.inj he
            subst ht'
            refine ⟨by simp, by simp, ?_⟩
            exact bounded_mono_rb (.node rc rl rx rr) (some k) hi lo hi h4
              (fun y hy => loOk_trans lo k y h1 hy) (fun _ hy => hy)
        | node c0 la lb lr0 =>
          cases r with
          | nil =>
            have ht' : RBTree.node c0 la lb lr0 = t' := Option.some.inj he
            subst ht'
            refine ⟨by simp, ?_, ?_⟩
            · show List.Perm (k :: (RBTree.node c0 la lb lr0).inorder)
                ((RBTree.node c0 la lb lr0).inorder ++ k :: RBTree.nil.inorder)
              have hm := @List.perm_middle Nat k (RBTree.node c0 la lb lr0).inorder []
              simpa using hm.symm
            · exact bounded_mono_rb (.node c0 la lb lr0) lo (some k) lo hi h3
                (fun _ hy => hy) (fun y hy => hiOk_trans y k hi hy h2)
          | node rc rl rx rr =>
            have ht' : (if rc = .black
                then baldR (.node c0 la lb lr0) (delMinRB rl rx rr).1 (delMinRB rl rx rr).2
                else .node .red (.node c0 la lb lr0) (delMinRB rl rx rr).1
                  (delMinRB rl rx rr).2) = t' := Option.some.inj he
            subst ht'
            obtain ⟨q1, q2, q3, q4⟩ := h4
            obtain ⟨e1, e2, e3, e4, e5⟩ := delMinRB_spec rl rx rr (some k) hi q1 q2 q3 q4
            have hkm : k ≤ (delMinRB rl rx rr).1 := e2
            refine ⟨by simp, ?_, ?_⟩
            · rw [inorder_ifcBaldR]
              show List.Perm
                (k :: ((RBTree.node c0 la lb lr0).inorder ++
                  (delMinRB rl rx rr).1 :: (delMinRB rl rx rr).2.inorder))
                ((RBTree.node c0 la lb lr0).inorder ++ k :: (RBTree.node rc rl rx rr).inorder)
              rw [show ((RBTree.node rc rl rx rr).inorder : List Nat) =
                (delMinRB rl rx rr).1 :: (delMinRB rl rx rr).2.inorder from e1.symm]
              exact List.perm_middle.symm
            · refine bounded_ifcBaldR rc _ _ _ lo hi (loOk_trans lo k _ h1 hkm) e3 ?_ e5
              exact bounded_mono_rb (.node c0 la lb lr0) lo (some k) lo
                (some (delMinRB rl rx rr).1) h3
                (fun _ hy => hy) (fun y hy => Nat.le_trans hy hkm)

theorem RBTree.erase_eq_none_iff_rb (t : RBTree) (lo hi : Option Nat) (k : Nat)
    (hb : Bounded lo t hi) : (t.erase k = none ↔ k ∉ t.inorder) := by
  unfold erase
  rw [Option.map_eq_none']
  exact delRB_eq_none_iff t lo hi k hb

theorem RBTree.erase_spec_rb (t : RBTree) (lo hi : Option Nat) (k : Nat) (t' : RBTree)
    (hb : Bounded lo t hi) (he : t.erase k = some t') :
    (k ∈ t.inorder ∧ List.Perm (k :: t'.inorder) t.inorder ∧ Bounded lo t' hi) := by
  unfold erase at he
  rw [Option.map_eq_some'] at he
  obtain ⟨u, hu, ht'⟩ := he
  subst ht'
  obtain ⟨hm, hp, hbb⟩ := delRB_spec t lo hi k u hb hu
  exact ⟨hm, by simpa using hp, bounded_paint .black u lo hi hbb⟩

theorem RBTree.erase_isSome_rb (t : RBTree) (lo hi : Option Nat) (k : Nat)
    (hb : Bounded lo t hi) (hk : k ∈ t.inorder) : ∃ t', t.erase k = some t' := by
  cases he : t.erase k with
  | none => exact absurd hk ((erase_eq_none_iff_rb t lo hi k hb).mp he)
  | some t' => exact ⟨t', rfl⟩

/-- Modelled from the spec (section 4.6): "a RED node has no RED child",
stated structurally at every node. -/
def RBTree.invc : RBTree → Prop
  | .nil => True
  | .node c l _ r =>
      invc l ∧ invc r ∧ (c = .red → l.color = .black ∧ r.color = .black)

/-- The color invariant with the root exempted (the transient state the
fix-up repairs on the way up). -/
def RBTree.invc2 : RBTree → Prop
  | .nil => True
  | .node _ l _ r => invc l ∧ invc r

/-- Modelled from the spec (section 4.6): the black height — the count of
BLACK nodes on the leftmost root-to-null path. -/
def RBTree.bh : RBTree → Nat
  | .nil => 0
  | .node c l _ _ => bh l + (if c = .black then 1 else 0)

/-- Modelled from the spec (section 4.6): the black-height invariant, stated
structurally — at every node both children carry the same black height. -/
def RBTree.invh : RBTree → Prop
  | .nil => True
  | .node _ l _ r => invh l ∧ invh r ∧ bh l = bh r

/-- The multiset of BLACK-node counts over all root-to-null paths (spec
section 4.6 states the invariant in terms of these paths). -/
def RBTree.pathBlacks : RBTree → List Nat
  | .nil => [0]
  | .node c l _ r =>
      (pathBlacks l ++ pathBlacks r).map (fun n => n + (if c = .black then 1 else 0))

@[simp] theorem RBTree.color_nil : RBTree.nil.color = .black := rfl

@[simp] theorem RBTree.color_node (c : Col) (l : RBTree) (x : Nat) (r : RBTree) :
    (RBTree.node c l x r).color = c := rfl

@[simp] theorem RBTree.invc_nil : RBTree.nil.invc := trivial

@[simp] theorem RBTree.invc_node (c : Col) (l : RBTree) (x : Nat) (r : RBTree) :
    (RBTree.node c l x r).invc ↔
      (l.invc ∧ r.invc ∧ (c = .red → l.color = .black ∧ r.color = .black)) :=
  Iff.rfl

@[simp] theorem RBTree.invc2_nil : RBTree.nil.invc2 := trivial

@[simp] theorem RBTree.invc2_node (c : Col) (l : RBTree) (x : Nat) (r : RBTree) :
    (RBTree.node c l x r).invc2 ↔ (l.invc ∧ r.invc) :=
  Iff.rfl

@[simp] theorem RBTree.bh_nil : RBTree.nil.bh = 0 := rfl

@[simp] theorem RBTree.bh_node (c : Col) (l : RBTree) (x : Nat) (r : RBTree) :
    (RBTree.node c l x r).bh = l.bh + (if c = .black then 1 else 0) := rfl

@[simp] theorem RBTree.invh_nil : RBTree.nil.invh := trivial

@[simp] theorem RBTree.invh_node (c : Col) (l : RBTree) (x : Nat) (r : RBTree) :
    (RBTree.node c l x r).invh ↔ (l.invh ∧ r.invh ∧ l.bh = r.bh) :=
  Iff.rfl

theorem RBTree.invc2_of_invc (t : RBTree) (h : t.invc) : t.invc2 := by
  cases t with
  | nil => trivial
  | node c l x r => exact ⟨h.1, h.2.1⟩

theorem RBTree.invc_paint_black (t : RBTree) (h : t.invc2) : (paint .black t).invc := by
  cases t with
  | nil => trivial
  | node c l x r => exact ⟨h.1, h.2, by simp⟩

theorem RBTree.invc2_paint (c : Col) (t : RBTree) (h : t.invc2) : (paint c t).invc2 := by
  cases t with
  | nil => trivial
  | node c0 l x r => exact h

theorem RBTree.invh_paint (c : Col) (t : RBTree) (h : t.invh) : (paint c t).invh := by
  cases t with
  | nil => trivial
  | node c0 l x r => exact h

theorem RBTree.color_paint_black (t : RBTree) : (paint .black t).color = .black := by
  cases t <;> rfl

theorem RBTree.pathBlacks_eq_bh :
    ∀ (t : RBTree), t.invh → ∀ n ∈ t.pathBlacks, n = t.bh
  | .nil => by
    intro _ n hn
    simp only [pathBlacks, List.mem_singleton] at hn
    simpa using hn
  | .node c l x r => by
    rintro ⟨hl, hr, hbh⟩ n hn
    simp only [pathBlacks, List.mem_map, List.mem_append] at hn
    obtain ⟨m, hm, rfl⟩ := hn
    rcases hm with hm | hm
    · have h1 := pathBlacks_eq_bh l hl m hm
      simp [h1]
    · have h2 := pathBlacks_eq_bh r hr m hm
      simp [h2, hbh]

theorem RBTree.invc_baliL (l : RBTree) (a : Nat) (r : RBTree)
    (h1 : l.invc2) (h2 : r.invc) : (baliL l a r).invc := by
  unfold baliL
  repeat' split
  · simp_all
  · simp_all
  · rename_i hn1 hn2
    refine ⟨?_, h2, fun h => nomatch h⟩
    cases l with
    | nil => trivial
    | node c ll x lr =>
      cases c with
      | black => exact ⟨h1.1, h1.2, fun h => nomatch h⟩
      | red =>
        refine ⟨h1.1, h1.2, fun _ => ⟨?_, ?_⟩⟩
        · cases ll with
          | nil => rfl
          | node cc u1 u2 u3 =>
            cases cc with
            | black => rfl
            | red => exact absurd rfl (hn1 u1 u2 u3 x lr)
        · cases lr with
          | nil => rfl
          | node cc u1 u2 u3 =>
            cases cc with
            | black => rfl
            | red => exact absurd rfl (hn2 ll x u1 u2 u3)

theorem RBTree.invc_baliR (l : RBTree) (a : Nat) (r : RBTree)
    (h1 : l.invc) (h2 : r.invc2) : (baliR l a r).invc := by
  unfold baliR
  repeat' split
  · simp_all
  · simp_all
  · rename_i hn1 hn2
    refine ⟨h1, ?_, fun h => nomatch h⟩
    cases r with
    | nil => trivial
    | node c rl x rr =>
      cases c with
      | black => exact ⟨h2.1, h2.2, fun h => nomatch h⟩
      | red =>
        refine ⟨h2.1, h2.2, fun _ => ⟨?_, ?_⟩⟩
        · cases rl with
          | nil => rfl
          | node cc u1 u2 u3 =>
            cases cc with
            | black => rfl
            | red => exact absurd rfl (hn2 u1 u2 u3 x rr)
        · cases rr with
          | nil => rfl
          | node cc u1 u2 u3 =>
            cases cc with
            | black => rfl
            | red => exact absurd rfl (hn1 rl x u1 u2 u3)

theorem RBTree.invh_bh_baliL (l : RBTree) (a : Nat) (r : RBTree)
    (hl : l.invh) (hr : r.invh) (hbh : l.bh = r.bh) :
    (baliL l a r).invh ∧ (baliL l a r).bh = l.bh + 1 := by
  unfold baliL
  repeat' split
  all_goals (simp_all; try omega)

theorem RBTree.invh_bh_baliR (l : RBTree) (a : Nat) (r : RBTree)
    (hl : l.invh) (hr : r.invh) (hbh : l.bh = r.bh) :
    (baliR l a r).invh ∧ (baliR l a r).bh = l.bh + 1 := by
  unfold baliR
  repeat' split
  all_goals (simp_all; try omega)

theorem RBTree.invc_insRB :
    ∀ (t : RBTree) (k : Nat), t.invc →
      ((t.insRB k).invc2 ∧ (t.color = .black → (t.insRB k).invc))
  | .nil, k => by
    intro _
    exact ⟨⟨trivial, trivial⟩, fun _ => ⟨trivial, trivial, fun _ => ⟨rfl, rfl⟩⟩⟩
  | .node .black l x r, k => by
    rintro ⟨hl, hr, -⟩
    unfold insRB
    by_cases h : k < x
    · rw [if_pos h]
      have hc := invc_baliL (l.insRB k) x r (invc_insRB l k hl).1 hr
      exact ⟨invc2_of_invc _ hc, fun _ => hc⟩
    · rw [if_neg h]
      have hc := invc_baliR l x (r.insRB k) hl (invc_insRB r k hr).1
      exact ⟨invc2_of_invc _ hc, fun _ => hc⟩
  | .node .red l x r, k => by
    rintro ⟨hl, hr, hcc⟩
    obtain ⟨hlb, hrb⟩ := hcc rfl
    unfold insRB
    by_cases h : k < x
    · rw [if_pos h]
      exact ⟨⟨(invc_insRB l k hl).2 hlb, hr⟩, fun hc => nomatch hc⟩
    · rw [if_neg h]
      exact ⟨⟨hl, (invc_insRB r k hr).2 hrb⟩, fun hc => nomatch hc⟩

theorem RBTree.invh_bh_insRB :
    ∀ (t : RBTree) (k : Nat), t.invh → ((t.insRB k).invh ∧ (t.insRB k).bh = t.bh)
  | .nil, k => by
    intro _
    exact ⟨⟨trivial, trivial, rfl⟩, by simp [RBTree.insRB]⟩
  | .node .black l x r, k => by
    rintro ⟨hl, hr, hbh⟩
    unfold insRB
    by_cases h : k < x
    · rw [if_pos h]
      obtain ⟨ih1, ih2⟩ := invh_bh_insRB l k hl
      obtain ⟨j1, j2⟩ := invh_bh_baliL (l.insRB k) x r ih1 hr (by omega)
      refine ⟨j1, ?_⟩
      simp only [bh_node]
      simp [j2, ih2]
    · rw [if_neg h]
      obtain ⟨ih1, ih2⟩ := invh_bh_insRB r k hr
      obtain ⟨j1, j2⟩ := invh_bh_baliR l x (r.insRB k) hl ih1 (by omega)
      refine ⟨j1, ?_⟩
      simp only [bh_node]
      simp [j2]
  | .node .red l x r, k => by
    rintro ⟨hl, hr, hbh⟩
    unfold insRB
    by_cases h : k < x
    · rw [if_pos h]
      obtain ⟨ih1, ih2⟩ := invh_bh_insRB l k hl
      exact ⟨⟨ih1, hr, by omega⟩, by simp [ih2]⟩
    · rw [if_neg h]
      obtain ⟨ih1, ih2⟩ := invh_bh_insRB r k hr
      exact ⟨⟨hl, ih1, by omega⟩, by simp⟩

/-- Modelled from the spec (section 4.6): the full Red-Black invariant — the
color invariant, the black-height invariant, and a BLACK root. -/
def RBTree.isRBT (t : RBTree) : Prop := t.invc ∧ t.invh ∧ t.color = .black

theorem RBTree.insert_isRBT (t : RBTree) (k : Nat) (hc : t.invc) (hh : t.invh) :
    (t.insert k).isRBT :=
  ⟨invc_paint_black _ (invc_insRB t k hc).1,
   invh_paint _ _ (invh_bh_insRB t k hh).1,
   color_paint_black _⟩

@[simp] theorem RBTree.paint_nil (c : Col) : paint c .nil = .nil := rfl

@[simp] theorem RBTree.paint_node (c c0 : Col) (l : RBTree) (x : Nat) (r : RBTree) :
    paint c (.node c0 l x r) = .node c l x r := rfl

theorem RBTree.invc_of_invc2_not_red (l : RBTree) (h : l.invc2)
    (hn : ∀ t1 a t2, l = node .red t1 a t2 → False) : l.invc := by
  cases l with
  | nil => trivial
  | node c t1 u t2 =>
    cases c with
    | red => exact (hn t1 u t2 rfl).elim
    | black => exact ⟨h.1, h.2, fun hc => nomatch hc⟩

theorem RBTree.color_black_of_not_red (r : RBTree)
    (hn : ∀ t1 a t2, r = node .red t1 a t2 → False) : r.color = .black := by
  cases r with
  | nil => rfl
  | node c t1 u t2 =>
    cases c with
    | red => exact (hn t1 u t2 rfl).elim
    | black => rfl

theorem RBTree.invh_bh_baldL (l : RBTree) (a : Nat) (r : RBTree)
    (hl : l.invh) (hr : r.invh) (hbh : l.bh + 1 = r.bh) (hcr : r.invc) :
    ((baldL l a r).invh ∧ (baldL l a r).bh = r.bh) := by
  unfold baldL
  repeat' split
  · rename_i t1 u t2
    obtain ⟨p1, p2, p3⟩ := hl
    simp at hbh
    refine ⟨⟨⟨p1, p2, p3⟩, hr, ?_⟩, ?_⟩
    · simp; omega
    · simp; omega
  · rename_i t2 b t3 hnl
    obtain ⟨q1, q2, q3⟩ := hr
    simp at hbh
    obtain ⟨j1, j2⟩ := invh_bh_baliR l a (.node .red t2 b t3) hl ⟨q1, q2, q3⟩ (by simp; omega)
    refine ⟨j1, ?_⟩
    simp [j2]
    omega
  · rename_i t2 b t3 c t4 hnl
    obtain ⟨⟨q1, q2, q3⟩, q4, q5⟩ := hr
    obtain ⟨w1, w2, w3⟩ := hcr
    have hct4 : t4.color = .black := (w3 rfl).2
    simp at hbh q5
    cases t4 with
    | nil => exfalso; simp at q5
    | node c4 t4l y t4r =>
      cases c4 with
      | red => exact nomatch hct4
      | black =>
        obtain ⟨m1, m2, m3⟩ := q4
        simp at q5
        obtain ⟨j1, j2⟩ := invh_bh_baliR t3 c (.node .red t4l y t4r) q2 ⟨m1, m2, m3⟩
          (by simp; omega)
        refine ⟨⟨⟨hl, q1, ?_⟩, j1, ?_⟩, ?_⟩
        · omega
        · simp [j2]; omega
        · simp [j2]; omega
  · rename_i hnl hnr1 hnr2
    cases r with
    | nil => exfalso; simp only [bh_nil] at hbh; omega
    | node rc rl rx rr =>
      cases rc with
      | black => exact ((hnr1 rl rx rr) rfl).elim
      | red =>
        cases rl with
        | nil => exfalso; simp at hbh
        | node rlc a1 a2 a3 =>
          cases rlc with
          | black => exact ((hnr2 a1 a2 a3 rx rr) rfl).elim
          | red =>
            obtain ⟨-, -, w⟩ := hcr
            exact nomatch (w rfl).1

theorem RBTree.invc_baldL (l : RBTree) (a : Nat) (r : RBTree)
    (h1 : l.invc2) (h2 : r.invc) (h3 : r.color = .black) : (baldL l a r).invc := by
  unfold baldL
  repeat' split
  · rename_i t1 u t2
    exact ⟨⟨h1.1, h1.2, fun hc => nomatch hc⟩, h2, fun _ => ⟨rfl, h3⟩⟩
  · rename_i t2 b t3 hnl
    exact invc_baliR l a (.node .red t2 b t3) (invc_of_invc2_not_red l h1 hnl) ⟨h2.1, h2.2.1⟩
  · exact nomatch h3
  · rename_i hnl hnr1 hnr2
    exact ⟨invc_of_invc2_not_red l h1 hnl, h2, fun _ =>
      ⟨color_black_of_not_red l hnl, h3⟩⟩

theorem RBTree.invc2_baldL (l : RBTree) (a : Nat) (r : RBTree)
    (h1 : l.invc2) (h2 : r.invc) : (baldL l a r).invc2 := by
  unfold baldL
  repeat' split
  · rename_i t1 u t2
    exact ⟨⟨h1.1, h1.2, fun hc => nomatch hc⟩, h2⟩
  · rename_i t2 b t3 hnl
    exact invc2_of_invc _
      (invc_baliR l a (.node .red t2 b t3) (invc_of_invc2_not_red l h1 hnl) ⟨h2.1, h2.2.1⟩)
  · rename_i t2 b t3 c t4 hnl
    obtain ⟨w1, w2, w3⟩ := h2
    refine ⟨⟨invc_of_invc2_not_red l h1 hnl, w1.1, fun hc => nomatch hc⟩, ?_⟩
    exact invc_baliR t3 c (paint .red t4) w1.2.1 (invc2_paint .red t4 (invc2_of_invc t4 w2))
  · rename_i hnl hnr1 hnr2
    exact ⟨invc_of_invc2_not_red l h1 hnl, h2⟩

theorem RBTree.invh_bh_baldR (l : RBTree) (a : Nat) (r : RBTree)
    (hl : l.invh) (hr : r.invh) (hbh : l.bh = r.bh + 1) (hcl : l.invc) :
    ((baldR l a r).invh ∧ (baldR l a r).bh = l.bh) := by
  unfold baldR
  repeat' split
  · rename_i t2 b t3
    obtain ⟨q1, q2, q3⟩ := hr
    simp at hbh
    exact ⟨⟨hl, ⟨q1, q2, q3⟩, by simp; omega⟩, by simp⟩
  · rename_i t1 u t2 hnr
    obtain ⟨p1, p2, p3⟩ := hl
    simp at hbh
    obtain ⟨j1, j2⟩ := invh_bh_baliL (.node .red t1 u t2) a r ⟨p1, p2, p3⟩ hr (by simp; omega)
    exact ⟨j1, by rw [j2]; simp⟩
  · rename_i t1 u t2 b t3 hnr
    obtain ⟨p1, ⟨p2a, p2b, p2c⟩, p3⟩ := hl
    obtain ⟨w1, w2, w3⟩ := hcl
    have hct1 : t1.color = .black := (w3 rfl).1
    simp at hbh p3
    cases t1 with
    | nil => exfalso; simp only [bh_nil] at p3; omega
    | node c1 t1l y t1r =>
      cases c1 with
      | red => exact nomatch hct1
      | black =>
        obtain ⟨m1, m2, m3⟩ := p1
        simp at p3 hbh
        obtain ⟨j1, j2⟩ := invh_bh_baliL (.node .red t1l y t1r) u t2 ⟨m1, m2, m3⟩ p2a
          (by simp; omega)
        refine ⟨⟨j1, ⟨p2b, hr, ?_⟩, ?_⟩, ?_⟩
        · omega
        · simp [j2]; omega
        · simp [j2]
  · rename_i hnlb hnlr hnr
    cases l with
    | nil => exfalso; simp only [bh_nil] at hbh; omega
    | node lc ll lu lr =>
      cases lc with
      | black => exact ((hnlb ll lu lr) rfl).elim
      | red =>
        obtain ⟨-, -, w⟩ := hcl
        obtain ⟨-, -, p3⟩ := hl
        cases lr with
        | nil =>
          exfalso
          simp only [bh_nil] at p3
          simp at hbh
          omega
        | node lrc u1 u2 u3 =>
          cases lrc with
          | black => exact ((hnlr ll lu u1 u2 u3) rfl).elim
          | red => exact nomatch (w rfl).2

theorem RBTree.invc_baldR (l : RBTree) (a : Nat) (r : RBTree)
    (h1 : l.invc) (h2 : r.invc2) (h3 : l.color = .black) : (baldR l a r).invc := by
  unfold baldR
  repeat' split
  · rename_i t2 b t3
    exact ⟨h1, ⟨h2.1, h2.2, fun hc => nomatch hc⟩, fun _ => ⟨h3, rfl⟩⟩
  · rename_i t1 u t2 hnr
    exact invc_baliL (.node .red t1 u t2) a r ⟨h1.1, h1.2.1⟩ (invc_of_invc2_not_red r h2 hnr)
  · exact nomatch h3
  · rename_i hnlb hnlr hnr
    exact ⟨h1, invc_of_invc2_not_red r h2 hnr, fun _ =>
      ⟨h3, color_black_of_not_red r hnr⟩⟩

theorem RBTree.invc2_baldR (l : RBTree) (a : Nat) (r : RBTree)
    (h1 : l.invc) (h2 : r.invc2) : (baldR l a r).invc2 := by
  unfold baldR
  repeat' split
  · rename_i t2 b t3
    exact ⟨h1, ⟨h2.1, h2.2, fun hc => nomatch hc⟩⟩
  · rename_i t1 u t2 hnr
    exact invc2_of_invc _
      (invc_baliL (.node .red t1 u t2) a r ⟨h1.1, h1.2.1⟩ (invc_of_invc2_not_red r h2 hnr))
  · rename_i t1 u t2 b t3 hnr
    obtain ⟨w1, w2, w3⟩ := h1
    refine ⟨?_, w2.2.1, invc_of_invc2_not_red r h2 hnr, fun hc => nomatch hc⟩
    exact invc_baliL (paint .red t1) u t2 (invc2_paint .red t1 (invc2_of_invc t1 w1)) w2.1
  · rename_i hnlb hnlr hnr
    exact ⟨h1, invc_of_invc2_not_red r h2 hnr⟩

theorem RBTree.delMinRB_node_snd (lc : Col) (ll : RBTree) (lx : Nat) (lr : RBTree)
    (x : Nat) (r : RBTree) :
    (delMinRB (.node lc ll lx lr) x r).2 =
      (if lc = .black then baldL (delMinRB ll lx lr).2 x r
        else .node .red (delMinRB ll lx lr).2 x r) := rfl

theorem RBTree.color_of_isBN (l : RBTree) (h : l.isBN = true) : l.color = .black := by
  cases l with
  | nil => rfl
  | node c a y b =>
    cases c with
    | black => rfl
    | red => exact nomatch h

theorem RBTree.red_of_not_isBN (l : RBTree) (h : ¬ l.isBN = true) (hne : l ≠ .nil) :
    l.color = .red := by
  cases l with
  | nil => exact absurd rfl hne
  | node c a y b =>
    cases c with
    | red => rfl
    | black => exact absurd rfl h

theorem RBTree.delMinRB_inv :
    ∀ (l : RBTree) (x : Nat) (r : RBTree),
      l.invh → r.invh → l.bh = r.bh → l.invc → r.invc →
      ((delMinRB l x r).2.invh ∧ (delMinRB l x r).2.bh = l.bh ∧
        (delMinRB l x r).2.invc2 ∧
        (l.color = .black ∧ r.color = .black → (delMinRB l x r).2.invc))
  | .nil, x, r => by
    intro _ hhr hbh _ hcr
    exact ⟨hhr, hbh.symm, invc2_of_invc r hcr, fun _ => hcr⟩
  | .node lc ll lx lr, x, r => by
    intro hhl hhr hbh hcl hcr
    obtain ⟨u1, u2, u3⟩ := hhl
    obtain ⟨v1, v2, v3⟩ := hcl
    obtain ⟨d1, d2, d3, d4⟩ := delMinRB_inv ll lx lr u1 u2 u3 v1 v2
    rw [delMinRB_node_snd]
    by_cases hc : lc = .black
    · rw [if_pos hc]
      subst hc
      have hb : (delMinRB ll lx lr).2.bh + 1 = r.bh := by simp at hbh; omega
      obtain ⟨j1, j2⟩ := invh_bh_baldL (delMinRB ll lx lr).2 x r d1 hhr hb hcr
      refine ⟨j1, ?_, invc2_baldL _ x r d3 hcr, fun hc2 => invc_baldL _ x r d3 hcr hc2.2⟩
      rw [j2]
      simp at hbh ⊢
      omega
    · rw [if_neg hc]
      have hlred : lc = .red := by
        cases lc with
        | red => rfl
        | black => exact absurd rfl hc
      subst hlred
      have hcols := v3 rfl
      refine ⟨⟨d1, hhr, ?_⟩, ?_, ⟨d4 ⟨hcols.1, hcols.2⟩, hcr⟩, fun hc2 => nomatch hc2.1⟩
      · simp at hbh; omega
      · simp; omega

theorem RBTree.delRB_inv :
    ∀ (t : RBTree) (k : Nat) (t' : RBTree), t.invh → t.invc → t.delRB k = some t' →
      (t'.invh ∧ t'.bh + (if t.color = .black then 1 else 0) = t.bh ∧ t'.invc2 ∧
        (t.color = .red → t'.invc))
  | .nil, k, t' => by intro _ _ he; simp [RBTree.delRB] at he
  | .node c l x r, k, t' => by
    rintro ⟨hhl, hhr, hbh⟩ ⟨hcl, hcr, hcc⟩ he
    unfold delRB at he
    by_cases h : k < x
    · rw [if_pos h, Option.map_eq_some'] at he
      obtain ⟨l', hl', ht'⟩ := he
      subst ht'
      have hlne : l ≠ .nil := by
        intro hn; rw [hn] at hl'; simp [RBTree.delRB] at hl'
      obtain ⟨d1, d2, d3, d4⟩ := delRB_inv l k l' hhl hcl hl'
      by_cases hbn : l.isBN = true
      · rw [if_pos hbn]
        have hcb := color_of_isBN l hbn
        rw [hcb, if_pos rfl] at d2
        have hb : l'.bh + 1 = r.bh := by omega
        obtain ⟨j1, j2⟩ := invh_bh_baldL l' x r d1 hhr hb hcr
        refine ⟨j1, ?_, invc2_baldL l' x r d3 hcr,
          fun hc => invc_baldL l' x r d3 hcr (hcc hc).2⟩
        rw [j2]
        simp only [bh_node, color_node]
        rw [hbh]
      · rw [if_neg hbn]
        have hcrd := red_of_not_isBN l hbn hlne
        rw [hcrd, if_neg (fun hx => nomatch hx)] at d2
        refine ⟨⟨d1, hhr, by omega⟩, ?_, ⟨d4 hcrd, hcr⟩,
          fun hc => nomatch ((hcc hc).1.symm.trans hcrd)⟩
        have hb0 : l'.bh = l.bh := by omega
        simp [hb0]
    · rw [if_neg h] at he
      by_cases h' : x < k
      · rw [if_pos h', Option.map_eq_some'] at he
        obtain ⟨r', hr', ht'⟩ := he
        subst ht'
        have hrne : r ≠ .nil := by
          intro hn; rw [hn] at hr'; simp [RBTree.delRB] at hr'
        obtain ⟨d1, d2, d3, d4⟩ := delRB_inv r k r' hhr hcr hr'
        by_cases hbn : r.isBN = true
        · rw [if_pos hbn]
          have hcb := color_of_isBN r hbn
          rw [hcb, if_pos rfl] at d2
          have hb : l.bh = r'.bh + 1 := by omega
          obtain ⟨j1, j2⟩ := invh_bh_baldR l x r' hhl d1 hb hcl
          refine ⟨j1, ?_, invc2_baldR l x r' hcl d3,
            fun hc => invc_baldR l x r' hcl d3 (hcc hc).1⟩
          rw [j2]
          simp only [bh_node, color_node]
        · rw [if_neg hbn]
          have hcrd := red_of_not_isBN r hbn hrne
          rw [hcrd, if_neg (fun hx => nomatch hx)] at d2
          refine ⟨⟨hhl, d1, by omega⟩, ?_, ⟨hcl, d4 hcrd⟩,
            fun hc => nomatch ((hcc hc).2.symm.trans hcrd)⟩
          have hb0 : r'.bh = l.bh := by omega
          simp [hb0]
      · rw [if_neg h'] at he
        cases l with
        | nil =>
          cases r with
          | nil =>
            have ht' : RBTree.nil = t' := Option.some.inj he
            subst ht'
            exact ⟨trivial, by simp, trivial, fun _ => trivial⟩
          | node rc rl rx rr =>
            have ht' : RBTree.node rc rl rx rr = t' := Option.some.inj he
            subst ht'
            refine ⟨hhr, ?_, invc2_of_invc _ hcr, fun _ => hcr⟩
            rw [← hbh]
            simp
        | node c0 la lb lr0 =>
          cases r with
          | nil =>
            have ht' : RBTree.node c0 la lb lr0 = t' := Option.some.inj he
            subst ht'
            exact ⟨hhl, by simp, invc2_of_invc _ hcl, fun _ => hcl⟩
          | node rc rl rx rr =>
            have ht' : (if rc = .black
                then baldR (.node c0 la lb lr0) (delMinRB rl rx rr).1 (delMinRB rl rx rr).2
                else .node .red (.node c0 la lb lr0) (delMinRB rl rx rr).1
                  (delMinRB rl rx rr).2) = t' := Option.some.inj he
            subst ht'
            obtain ⟨w1, w2, w3⟩ := hhr
            obtain ⟨z1, z2, z3⟩ := hcr
            obtain ⟨d1, d2, d3, d4⟩ := delMinRB_inv rl rx rr w1 w2 w3 z1 z2
            cases rc with
            | black =>
              rw [if_pos rfl]
              have hb : (RBTree.node c0 la lb lr0).bh = (delMinRB rl rx rr).2.bh + 1 := by
                simp at hbh; simp; omega
              obtain ⟨j1, j2⟩ := invh_bh_baldR (.node c0 la lb lr0) (delMinRB rl rx rr).1
                (delMinRB rl rx rr).2 hhl d1 hb hcl
              refine ⟨j1, ?_, invc2_baldR _ _ _ hcl d3,
                fun hc => invc_baldR _ _ _ hcl d3 (hcc hc).1⟩
              rw [j2]
              simp only [bh_node, color_node]
            | red =>
              rw [if_neg (fun hx => nomatch hx)]
              have hcols := z3 rfl
              refine ⟨⟨hhl, d1, ?_⟩, ?_, ⟨hcl, d4 ⟨hcols.1, hcols.2⟩⟩,
                fun hc => nomatch (hcc hc).2⟩
              · simp at hbh ⊢; omega
              · simp

theorem RBTree.erase_isRBT (t : RBTree) (k : Nat) (t' : RBTree)
    (hc : t.invc) (hh : t.invh) (he : t.erase k = some t') : t'.isRBT := by
  unfold erase at he
  rw [Option.map_eq_some'] at he
  obtain ⟨u, hu, ht'⟩ := he
  subst ht'
  obtain ⟨d1, d2, d3, d4⟩ := delRB_inv t k u hh hc hu
  exact ⟨invc_paint_black u d3, invh_paint .black u d1, color_paint_black u⟩

/-- An interleaved operation sequence on a tree container (spec sections 3
and 8): each step is an insert of a key or an erase of a key. -/
inductive TreeOp
  | ins (k : Nat)
  | del (k : Nat)

/-- Modelled from the spec (sections 3, 4.6): one operation applied to a
Red-Black tree; a failed erase ("not found") leaves the tree unchanged. -/
def RBTree.applyOp (t : RBTree) : TreeOp → RBTree
  | .ins k => t.insert k
  | .del k => match t.erase k with
    | some t' => t'
    | none => t

/-- A whole operation sequence run against the empty Red-Black tree. -/
def RBTree.runOps (ops : List TreeOp) : RBTree := ops.foldl RBTree.applyOp .nil

theorem RBTree.applyOp_inv (t : RBTree) (op : TreeOp) (h : t.invc ∧ t.invh) :
    ((t.applyOp op).invc ∧ (t.applyOp op).invh) := by
  cases op with
  | ins k =>
    obtain ⟨a, b, -⟩ := insert_isRBT t k h.1 h.2
    exact ⟨a, b⟩
  | del k =>
    show (match t.erase k with | some u => u | none => t).invc ∧
      (match t.erase k with | some u => u | none => t).invh
    cases he : t.erase k with
    | none => exact h
    | some t' =>
      obtain ⟨a, b, -⟩ := erase_isRBT t k t' h.1 h.2 he
      exact ⟨a, b⟩

theorem RBTree.foldl_applyOp_inv :
    ∀ (ops : List TreeOp) (t : RBTree), t.invc ∧ t.invh →
      ((ops.foldl RBTree.applyOp t).invc ∧ (ops.foldl RBTree.applyOp t).invh)
  | [], t => fun h => h
  | op :: ops, t => fun h => foldl_applyOp_inv ops (t.applyOp op) (applyOp_inv t op h)

/-- C3: for the Red-Black variant, after every sequence of inserts and
erases starting from the empty tree, the Red-Black invariants hold: no RED
node has a RED child (`invc`), and all root-to-null paths carry the same
number of BLACK nodes (all entries of `pathBlacks` agree). -/
theorem claim_C3_rb_invariants (ops : List TreeOp) :
    ((RBTree.runOps ops).invc ∧
      (∀ m ∈ (RBTree.runOps ops).pathBlacks, ∀ n ∈ (RBTree.runOps ops).pathBlacks, m = n)) := by
  obtain ⟨hc, hh⟩ := RBTree.foldl_applyOp_inv ops .nil ⟨trivial, trivial⟩
  refine ⟨hc, fun m hm n hn => ?_⟩
  rw [RBTree.pathBlacks_eq_bh _ hh m hm, RBTree.pathBlacks_eq_bh _ hh n hn]

/-- Modelled from the spec (section 8): a sequence of inserts against a
plain binary search tree. -/
def bstInsertAll (t : BinTree) (ks : List Nat) : BinTree := ks.foldl BinTree.insert t

/-- Modelled from the spec (section 8): a sequence of inserts against an
AVL tree. -/
def avlInsertAll (t : BinTree) (ks : List Nat) : BinTree := ks.foldl BinTree.insertAVL t

/-- Modelled from the spec (section 8): a sequence of inserts against a
splay tree. -/
def splayInsertAll (t : BinTree) (ks : List Nat) : BinTree := ks.foldl BinTree.insertSplay t

/-- Modelled from the spec (section 8): a sequence of inserts against an
AA tree. -/
def aaInsertAll (t : AATree) (ks : List Nat) : AATree := ks.foldl AATree.insert t

/-- Modelled from the spec (section 8): a sequence of inserts against a
Red-Black tree. -/
def rbInsertAll (t : RBTree) (ks : List Nat) : RBTree := ks.foldl RBTree.insert t

theorem bstInsertAll_spec :
    ∀ (ks : List Nat) (t : BinTree), BinTree.Bounded none t none →
      (BinTree.Bounded none (bstInsertAll t ks) none ∧
        List.Perm (bstInsertAll t ks).inorder (ks ++ t.inorder))
  | [], t => fun hb => ⟨hb, by simp [bstInsertAll]⟩
  | k :: ks, t => fun hb => by
    obtain ⟨b1, b2⟩ := bstInsertAll_spec ks (t.insert k)
      (BinTree.bounded_insert t none none k hb trivial trivial)
    refine ⟨b1, ?_⟩
    refine b2.trans ?_
    refine (((BinTree.inorder_insert_perm t k).append_left ks).trans ?_)
    exact @List.perm_middle Nat k ks t.inorder

theorem avlInsertAll_spec :
    ∀ (ks : List Nat) (t : BinTree), BinTree.Bounded none t none →
      (BinTree.Bounded none (avlInsertAll t ks) none ∧
        List.Perm (avlInsertAll t ks).inorder (ks ++ t.inorder))
  | [], t => fun hb => ⟨hb, by simp [avlInsertAll]⟩
  | k :: ks, t => fun hb => by
    obtain ⟨b1, b2⟩ := avlInsertAll_spec ks (t.insertAVL k)
      (BinTree.bounded_insertAVL t none none k hb trivial trivial)
    refine ⟨b1, ?_⟩
    refine b2.trans ?_
    refine (((BinTree.inorder_insertAVL_perm t k).append_left ks).trans ?_)
    exact @List.perm_middle Nat k ks t.inorder

theorem splayInsertAll_spec :
    ∀ (ks : List Nat) (t : BinTree), BinTree.Bounded none t none →
      (BinTree.Bounded none (splayInsertAll t ks) none ∧
        List.Perm (splayInsertAll t ks).inorder (ks ++ t.inorder))
  | [], t => fun hb => ⟨hb, by simp [splayInsertAll]⟩
  | k :: ks, t => fun hb => by
    obtain ⟨b1, b2⟩ := splayInsertAll_spec ks (t.insertSplay k)
      (BinTree.bounded_insertSplay t none none k hb trivial trivial)
    refine ⟨b1, ?_⟩
    refine b2.trans ?_
    refine (((BinTree.inorder_insertSplay_perm t k).append_left ks).trans ?_)
    exact @List.perm_middle Nat k ks t.inorder

theorem aaInsertAll_spec :
    ∀ (ks : List Nat) (t : AATree), AATree.Bounded none t none →
      (AATree.Bounded none (aaInsertAll t ks) none ∧
        List.Perm (aaInsertAll t ks).inorder (ks ++ t.inorder))
  | [], t => fun hb => ⟨hb, by simp [aaInsertAll]⟩
  | k :: ks, t => fun hb => by
    obtain ⟨b1, b2⟩ := aaInsertAll_spec ks (t.insert k)
      (AATree.bounded_insert_aa t none none k hb trivial trivial)
    refine ⟨b1, ?_⟩
    refine b2.trans ?_
    refine (((AATree.inorder_insert_perm_aa t k).append_left ks).trans ?_)
    exact @List.perm_middle Nat k ks t.inorder

theorem rbInsertAll_spec :
    ∀ (ks : List Nat) (t : RBTree), RBTree.Bounded none t none →
      (RBTree.Bounded none (rbInsertAll t ks) none ∧
        List.Perm (rbInsertAll t ks).inorder (ks ++ t.inorder))
  | [], t => fun hb => ⟨hb, by simp [rbInsertAll]⟩
  | k :: ks, t => fun hb => by
    obtain ⟨b1, b2⟩ := rbInsertAll_spec ks (t.insert k)
      (RBTree.bounded_insert_rb t none none k hb trivial trivial)
    refine ⟨b1, ?_⟩
    refine b2.trans ?_
    refine (((RBTree.inorder_insert_perm_rb t k).append_left ks).trans ?_)
    exact @List.perm_middle Nat k ks t.inorder

/-- C1: for every tree variant (plain, AVL, splay, AA, Red-Black) and every
sequence of inserted keys, the in-order traversal after inserting them all
into the empty tree is sorted in non-decreasing order and is a permutation
of the inserted keys (the sorted multiset of the inserts). -/
theorem claim_C1_insert_sorted_perm (ks : List Nat) :
    (((bstInsertAll .nil ks).inorder.Sorted (· ≤ ·) ∧
        List.Perm (bstInsertAll .nil ks).inorder ks) ∧
      ((avlInsertAll .nil ks).inorder.Sorted (· ≤ ·) ∧
        List.Perm (avlInsertAll .nil ks).inorder ks) ∧
      ((splayInsertAll .nil ks).inorder.Sorted (· ≤ ·) ∧
        List.Perm (splayInsertAll .nil ks).inorder ks) ∧
      ((aaInsertAll .nil ks).inorder.Sorted (· ≤ ·) ∧
        List.Perm (aaInsertAll .nil ks).inorder ks) ∧
      ((rbInsertAll .nil ks).inorder.Sorted (· ≤ ·) ∧
        List.Perm (rbInsertAll .nil ks).inorder ks)) := by
  obtain ⟨a1, a2⟩ := bstInsertAll_spec ks .nil trivial
  obtain ⟨b1, b2⟩ := avlInsertAll_spec ks .nil trivial
  obtain ⟨c1, c2⟩ := splayInsertAll_spec ks .nil trivial
  obtain ⟨d1, d2⟩ := aaInsertAll_spec ks .nil trivial
  obtain ⟨e1, e2⟩ := rbInsertAll_spec ks .nil trivial
  simp only [BinTree.inorder_nil, AATree.inorder_nil_aa, RBTree.inorder_nil_rb,
    List.append_nil] at a2 b2 c2 d2 e2
  exact ⟨⟨BinTree.bounded_sorted _ none none a1, a2⟩,
    ⟨BinTree.bounded_sorted _ none none b1, b2⟩,
    ⟨BinTree.bounded_sorted _ none none c1, c2⟩,
    ⟨AATree.bounded_sorted_aa _ none none d1, d2⟩,
    ⟨RBTree.bounded_sorted_rb _ none none e1, e2⟩⟩

/-- The logical size of an AA tree (spec section 3). -/
def AATree.size (t : AATree) : Nat := t.inorder.length

/-- The number of insert operations in a sequence (spec section 8). -/
def insCount : List TreeOp → Nat
  | [] => 0
  | .ins _ :: ops => insCount ops + 1
  | .del _ :: ops => insCount ops

/-- Modelled from the spec (sections 3, 8): one operation against a plain
BST container carrying its successful-erase count; a failed erase leaves
both unchanged. -/
def bstStep : BinTree × Nat → TreeOp → BinTree × Nat
  | (t, c), .ins k => (t.insert k, c)
  | (t, c), .del k => match t.erase k with
    | some u => (u, c + 1)
    | none => (t, c)

/-- A whole operation sequence against the empty plain BST. -/
def bstRun (ops : List TreeOp) : BinTree × Nat := ops.foldl bstStep (.nil, 0)

theorem bstRun_size :
    ∀ (ops : List TreeOp) (t : BinTree) (c : Nat), BinTree.Bounded none t none →
      (BinTree.Bounded none (ops.foldl bstStep (t, c)).1 none ∧
        (ops.foldl bstStep (t, c)).1.size + (ops.foldl bstStep (t, c)).2 =
          t.size + c + insCount ops)
  | [], t, c => fun hb => ⟨hb, by simp [insCount]⟩
  | .ins k :: ops, t, c => fun hb => by
    rw [List.foldl_cons]
    have hstep : bstStep (t, c) (.ins k) = (t.insert k, c) := rfl
    rw [hstep]
    obtain ⟨b1, b2⟩ := bstRun_size ops (t.insert k) c
      (BinTree.bounded_insert t none none k hb trivial trivial)
    refine ⟨b1, ?_⟩
    have hs : (t.insert k).size = t.size + 1 := by
      show (t.insert k).inorder.length = t.inorder.length + 1
      rw [(BinTree.inorder_insert_perm t k).length_eq]
      rfl
    rw [b2, hs]
    simp only [insCount]
    omega
  | .del k :: ops, t, c => fun hb => by
    rw [List.foldl_cons]
    cases he : t.erase k with
    | none =>
      have hstep : bstStep (t, c) (.del k) = (t, c) := by simp [bstStep, he]
      rw [hstep]
      obtain ⟨b1, b2⟩ := bstRun_size ops t c hb
      refine ⟨b1, ?_⟩
      rw [b2]
      simp only [insCount]
    | some u =>
      have hstep : bstStep (t, c) (.del k) = (u, c + 1) := by simp [bstStep, he]
      rw [hstep]
      obtain ⟨-, hp, hb'⟩ := BinTree.erase_spec t none none k u hb he
      obtain ⟨b1, b2⟩ := bstRun_size ops u (c + 1) hb'
      refine ⟨b1, ?_⟩
      have hs : u.size + 1 = t.size := by
        show u.inorder.length + 1 = t.inorder.length
        have hl := hp.length_eq
        simpa using hl
      rw [b2]
      simp only [insCount]
      omega

/-- Modelled from the spec (sections 3, 4.5, 8): one operation against an
AVL container with its successful-erase count. -/
def avlStep : BinTree × Nat → TreeOp → BinTree × Nat
  | (t, c), .ins k => (t.insertAVL k, c)
  | (t, c), .del k => match t.eraseAVL k with
    | some u => (u, c + 1)
    | none => (t, c)

/-- A whole operation sequence against the empty AVL tree. -/
def avlRun (ops : List TreeOp) : BinTree × Nat := ops.foldl avlStep (.nil, 0)

theorem avlRun_size :
    ∀ (ops : List TreeOp) (t : BinTree) (c : Nat), BinTree.Bounded none t none →
      (BinTree.Bounded none (ops.foldl avlStep (t, c)).1 none ∧
        (ops.foldl avlStep (t, c)).1.size + (ops.foldl avlStep (t, c)).2 =
          t.size + c + insCount ops)
  | [], t, c => fun hb => ⟨hb, by simp [insCount]⟩
  | .ins k :: ops, t, c => fun hb => by
    rw [List.foldl_cons]
    have hstep : avlStep (t, c) (.ins k) = (t.insertAVL k, c) := rfl
    rw [hstep]
    obtain ⟨b1, b2⟩ := avlRun_size ops (t.insertAVL k) c
      (BinTree.bounded_insertAVL t none none k hb trivial trivial)
    refine ⟨b1, ?_⟩
    have hs : (t.insertAVL k).size = t.size + 1 := by
      show (t.insertAVL k).inorder.length = t.inorder.length + 1
      rw [(BinTree.inorder_insertAVL_perm t k).length_eq]
      rfl
    rw [b2, hs]
    simp only [insCount]
    omega
  | .del k :: ops, t, c => fun hb => by
    rw [List.foldl_cons]
    cases he : t.eraseAVL k with
    | none =>
      have hstep : avlStep (t, c) (.del k) = (t, c) := by simp [avlStep, he]
      rw [hstep]
      obtain ⟨b1, b2⟩ := avlRun_size ops t c hb
      refine ⟨b1, ?_⟩
      rw [b2]
      simp only [insCount]
    | some u =>
      have hstep : avlStep (t, c) (.del k) = (u, c + 1) := by simp [avlStep, he]
      rw [hstep]
      obtain ⟨-, hp, hb'⟩ := BinTree.eraseAVL_spec t none none k u hb he
      obtain ⟨b1, b2⟩ := avlRun_size ops u (c + 1) hb'
      refine ⟨b1, ?_⟩
      have hs : u.size + 1 = t.size := by
        show u.inorder.length + 1 = t.inorder.length
        have hl := hp.length_eq
        simpa using hl
      rw [b2]
      simp only [insCount]
      omega

/-- Modelled from the spec (sections 3, 4.4, 8): one operation against an
AA container with its successful-erase count. -/
def aaStep : AATree × Nat → TreeOp → AATree × Nat
  | (t, c), .ins k => (t.insert k, c)
  | (t, c), .del k => match t.erase k with
    | some u => (u, c + 1)
    | none => (t, c)

/-- A whole operation sequence against the empty AA tree. -/
def aaRun (ops : List TreeOp) : AATree × Nat := ops.foldl aaStep (.nil, 0)

theorem aaRun_size :
    ∀ (ops : List TreeOp) (t : AATree) (c : Nat), AATree.Bounded none t none →
      (AATree.Bounded none (ops.foldl aaStep (t, c)).1 none ∧
        (ops.foldl aaStep (t, c)).1.size + (ops.foldl aaStep (t, c)).2 =
          t.size + c + insCount ops)
  | [], t, c => fun hb => ⟨hb, by simp [insCount]⟩
  | .ins k :: ops, t, c => fun hb => by
    rw [List.foldl_cons]
    have hstep : aaStep (t, c) (.ins k) = (t.insert k, c) := rfl
    rw [hstep]
    obtain ⟨b1, b2⟩ := aaRun_size ops (t.insert k) c
      (AATree.bounded_insert_aa t none none k hb trivial trivial)
    refine ⟨b1, ?_⟩
    have hs : (t.insert k).size = t.size + 1 := by
      show (t.insert k).inorder.length = t.inorder.length + 1
      rw [(AATree.inorder_insert_perm_aa t k).length_eq]
      rfl
    rw [b2, hs]
    simp only [insCount]
    omega
  | .del k :: ops, t, c => fun hb => by
    rw [List.foldl_cons]
    cases he : t.erase k with
    | none =>
      have hstep : aaStep (t, c) (.del k) = (t, c) := by simp [aaStep, he]
      rw [hstep]
      obtain ⟨b1, b2⟩ := aaRun_size ops t c hb
      refine ⟨b1, ?_⟩
      rw [b2]
      simp only [insCount]
    | some u =>
      have hstep : aaStep (t, c) (.del k) = (u, c + 1) := by simp [aaStep, he]
      rw [hstep]
      obtain ⟨-, hp, hb'⟩ := AATree.erase_spec_aa t none none k u hb he
      obtain ⟨b1, b2⟩ := aaRun_size ops u (c + 1) hb'
      refine ⟨b1, ?_⟩
      have hs : u.size + 1 = t.size := by
        show u.inorder.length + 1 = t.inorder.length
        have hl := hp.length_eq
        simpa using hl
      rw [b2]
      simp only [insCount]
      omega

/-- Modelled from the spec (sections 3, 4.6, 8): one operation against a
Red-Black container with its successful-erase count. -/
def rbStep : RBTree × Nat → TreeOp → RBTree × Nat
  | (t, c), .ins k => (t.insert k, c)
  | (t, c), .del k => match t.erase k with
    | some u => (u, c + 1)
    | none => (t, c)

/-- A whole operation sequence against the empty Red-Black tree, with the
successful-erase count. -/
def rbRun (ops : List TreeOp) : RBTree × Nat := ops.foldl rbStep (.nil, 0)

theorem rbRun_size :
    ∀ (ops : List TreeOp) (t : RBTree) (c : Nat), RBTree.Bounded none t none →
      (RBTree.Bounded none (ops.foldl rbStep (t, c)).1 none ∧
        (ops.foldl rbStep (t, c)).1.size + (ops.foldl rbStep (t, c)).2 =
          t.size + c + insCount ops)
  | [], t, c => fun hb => ⟨hb, by simp [insCount]⟩
  | .ins k :: ops, t, c => fun hb => by
    rw [List.foldl_cons]
    have hstep : rbStep (t, c) (.ins k) = (t.insert k, c) := rfl
    rw [hstep]
    obtain ⟨b1, b2⟩ := rbRun_size ops (t.insert k) c
      (RBTree.bounded_insert_rb t none none k hb trivial trivial)
    refine ⟨b1, ?_⟩
    have hs : (t.insert k).size = t.size + 1 := by
      show (t.insert k).inorder.length = t.inorder.length + 1
      rw [(RBTree.inorder_insert_perm_rb t k).length_eq]
      rfl
    rw [b2, hs]
    simp only [insCount]
    omega
  | .del k :: ops, t, c => fun hb => by
    rw [List.foldl_cons]
    cases he : t.erase k with
    | none =>
      have hstep : rbStep (t, c) (.del k) = (t, c) := by simp [rbStep, he]
      rw [hstep]
      obtain ⟨b1, b2⟩ := rbRun_size ops t c hb
      refine ⟨b1, ?_⟩
      rw [b2]
      simp only [insCount]
    | some u =>
      have hstep : rbStep (t, c) (.del k) = (u, c + 1) := by simp [rbStep, he]
      rw [hstep]
      obtain ⟨-, hp, hb'⟩ := RBTree.erase_spec_rb t none none k u hb he
      obtain ⟨b1, b2⟩ := rbRun_size ops u (c + 1) hb'
      refine ⟨b1, ?_⟩
      have hs : u.size + 1 = t.size := by
        show u.inorder.length + 1 = t.inorder.length
        have hl := hp.length_eq
        simpa using hl
      rw [b2]
      simp only [insCount]
      omega

/-- Modelled from the spec (sections 3, 4.7, 8): one operation against a
splay container with its successful-erase count.  An erase first splays the
key; on a hit the two subtrees are joined, on a miss the splayed tree is
kept and the counter is unchanged. -/
def splayStep : BinTree × Nat → TreeOp → BinTree × Nat
  | (t, c), .ins k => (t.insertSplay k, c)
  | (t, c), .del k => match t.splay k with
    | .nil => (.nil, c)
    | .node l x r => if x = k then (l.joinSplay r, c + 1) else (.node l x r, c)

/-- A whole operation sequence against the empty splay tree. -/
def splayRun (ops : List TreeOp) : BinTree × Nat := ops.foldl splayStep (.nil, 0)

theorem splayRun_size :
    ∀ (ops : List TreeOp) (t : BinTree) (c : Nat), BinTree.Bounded none t none →
      (BinTree.Bounded none (ops.foldl splayStep (t, c)).1 none ∧
        (ops.foldl splayStep (t, c)).1.size + (ops.foldl splayStep (t, c)).2 =
          t.size + c + insCount ops)
  | [], t, c => fun hb => ⟨hb, by simp [insCount]⟩
  | .ins k :: ops, t, c => fun hb => by
    rw [List.foldl_cons]
    have hstep : splayStep (t, c) (.ins k) = (t.insertSplay k, c) := rfl
    rw [hstep]
    obtain ⟨b1, b2⟩ := splayRun_size ops (t.insertSplay k) c
      (BinTree.bounded_insertSplay t none none k hb trivial trivial)
    refine ⟨b1, ?_⟩
    have hs : (t.insertSplay k).size = t.size + 1 := by
      show (t.insertSplay k).inorder.length = t.inorder.length + 1
      rw [(BinTree.inorder_insertSplay_perm t k).length_eq]
      rfl
    rw [b2, hs]
    simp only [insCount]
    omega
  | .del k :: ops, t, c => fun hb => by
    rw [List.foldl_cons]
    cases hsp : t.splay k with
    | nil =>
      have hstep : splayStep (t, c) (.del k) = (.nil, c) := by simp [splayStep, hsp]
      rw [hstep]
      obtain ⟨b1, b2⟩ := splayRun_size ops .nil c trivial
      refine ⟨b1, ?_⟩
      rw [b2]
      have hsz : t.size = 0 := by
        show t.inorder.length = 0
        rw [← BinTree.inorder_splay t k, hsp]
        rfl
      have h0 : BinTree.nil.size = 0 := rfl
      simp only [insCount]
      omega
    | node l x r =>
      by_cases hx : x = k
      · have hstep : splayStep (t, c) (.del k) = (l.joinSplay r, c + 1) := by
          simp [splayStep, hsp, hx]
        have hbs : BinTree.Bounded none (t.splay k) none :=
          BinTree.bounded_splay t k none none hb
        rw [hsp] at hbs
        obtain ⟨q1, q2, q3, q4⟩ := hbs
        obtain ⟨ji, jb⟩ := BinTree.joinSplay_spec l r none none x q3 q4 q1 q2
        rw [hstep]
        obtain ⟨b1, b2⟩ := splayRun_size ops (l.joinSplay r) (c + 1) jb
        refine ⟨b1, ?_⟩
        have hsz : (l.joinSplay r).size + 1 = t.size := by
          show (l.joinSplay r).inorder.length + 1 = t.inorder.length
          rw [ji, ← BinTree.inorder_splay t k, hsp]
          simp only [BinTree.inorder_node, List.length_append, List.length_cons]
          omega
        rw [b2]
        simp only [insCount]
        omega
      · have hstep : splayStep (t, c) (.del k) = (.node l x r, c) := by
          simp [splayStep, hsp, hx]
        have hbs : BinTree.Bounded none (t.splay k) none :=
          BinTree.bounded_splay t k none none hb
        rw [hsp] at hbs
        rw [hstep]
        obtain ⟨b1, b2⟩ := splayRun_size ops (.node l x r) c hbs
        refine ⟨b1, ?_⟩
        rw [b2]
        have hsz : (BinTree.node l x r).size = t.size := by
          show (BinTree.node l x r).inorder.length = t.inorder.length
          rw [← BinTree.inorder_splay t k, hsp]
        simp only [insCount]
        omega

/-- C2: for every tree variant, after any interleaved sequence of inserts
and erases starting from the empty tree, the container size plus the number
of successful erases equals the number of inserts performed (size equals
inserts minus successful erases). -/
theorem claim_C2_size_bookkeeping (ops : List TreeOp) :
    ((bstRun ops).1.size + (bstRun ops).2 = insCount ops ∧
      (avlRun ops).1.size + (avlRun ops).2 = insCount ops ∧
      (splayRun ops).1.size + (splayRun ops).2 = insCount ops ∧
      (aaRun ops).1.size + (aaRun ops).2 = insCount ops ∧
      (rbRun ops).1.size + (rbRun ops).2 = insCount ops) := by
  have h1 := (bstRun_size ops .nil 0 trivial).2
  have h2 := (avlRun_size ops .nil 0 trivial).2
  have h3 := (splayRun_size ops .nil 0 trivial).2
  have h4 := (aaRun_size ops .nil 0 trivial).2
  have h5 := (rbRun_size ops .nil 0 trivial).2
  have e1 : BinTree.nil.size = 0 := rfl
  have e2 : AATree.nil.size = 0 := rfl
  have e3 : RBTree.nil.size = 0 := rfl
  simp only [bstRun, avlRun, splayRun, aaRun, rbRun]
  rw [h1, h2, h3, h4, h5, e1, e2, e3]
  omega

theorem BinTree.inorder_eq_nil : ∀ (t : BinTree), t.inorder = [] → t = .nil
  | .nil, _ => rfl
  | .node l x r, h => by simp at h

theorem AATree.inorder_eq_nil_aa : ∀ (t : AATree), t.inorder = [] → t = .nil
  | .nil, _ => rfl
  | .node lv l x r, h => by simp at h

theorem RBTree.inorder_eq_nil_rb : ∀ (t : RBTree), t.inorder = [] → t = .nil
  | .nil, _ => rfl
  | .node c l x r, h => by simp at h

/-- Modelled from the spec (section 8): erase a list of keys one after the
other from a plain BST, failing if any erase reports "not found". -/
def bstEraseAll : BinTree → List Nat → Option BinTree
  | t, [] => some t
  | t, k :: ks => match t.erase k with
    | some u => bstEraseAll u ks
    | none => none

/-- Modelled from the spec (section 8): erase a list of keys from an AVL
tree. -/
def avlEraseAll : BinTree → List Nat → Option BinTree
  | t, [] => some t
  | t, k :: ks => match t.eraseAVL k with
    | some u => avlEraseAll u ks
    | none => none

/-- Modelled from the spec (section 8): erase a list of keys from a splay
tree. -/
def splayEraseAll : BinTree → List Nat → Option BinTree
  | t, [] => some t
  | t, k :: ks => match t.eraseSplay k with
    | some u => splayEraseAll u ks
    | none => none

/-- Modelled from the spec (section 8): erase a list of keys from an AA
tree. -/
def aaEraseAll : AATree → List Nat → Option AATree
  | t, [] => some t
  | t, k :: ks => match t.erase k with
    | some u => aaEraseAll u ks
    | none => none

/-- Modelled from the spec (section 8): erase a list of keys from a
Red-Black tree. -/
def rbEraseAll : RBTree → List Nat → Option RBTree
  | t, [] => some t
  | t, k :: ks => match t.erase k with
    | some u => rbEraseAll u ks
    | none => none

theorem bstEraseAll_nil :
    ∀ (es : List Nat) (t : BinTree), BinTree.Bounded none t none →
      List.Perm t.inorder es → bstEraseAll t es = some .nil
  | [], t => fun _ hp => by
    rw [BinTree.inorder_eq_nil t (List.Perm.eq_nil hp)]
    rfl
  | k :: es, t => fun hb hp => by
    have hk : k ∈ t.inorder := hp.mem_iff.mpr (List.mem_cons_self k es)
    obtain ⟨u, hu⟩ := BinTree.erase_isSome t none none k hb hk
    obtain ⟨-, hperm, hbu⟩ := BinTree.erase_spec t none none k u hb hu
    have hstep : bstEraseAll t (k :: es) = bstEraseAll u es := by
      show (match t.erase k with | some u2 => bstEraseAll u2 es | none => none) = _
      rw [hu]
    rw [hstep]
    exact bstEraseAll_nil es u hbu (List.Perm.cons_inv (hperm.trans hp))

theorem avlEraseAll_nil :
    ∀ (es : List Nat) (t : BinTree), BinTree.Bounded none t none →
      List.Perm t.inorder es → avlEraseAll t es = some .nil
  | [], t => fun _ hp => by
    rw [BinTree.inorder_eq_nil t (List.Perm.eq_nil hp)]
    rfl
  | k :: es, t => fun hb hp => by
    have hk : k ∈ t.inorder := hp.mem_iff.mpr (List.mem_cons_self k es)
    obtain ⟨u, hu⟩ := BinTree.eraseAVL_isSome t none none k hb hk
    obtain ⟨-, hperm, hbu⟩ := BinTree.eraseAVL_spec t none none k u hb hu
    have hstep : avlEraseAll t (k :: es) = avlEraseAll u es := by
      show (match t.eraseAVL k with | some u2 => avlEraseAll u2 es | none => none) = _
      rw [hu]
    rw [hstep]
    exact avlEraseAll_nil es u hbu (List.Perm.cons_inv (hperm.trans hp))

theorem splayEraseAll_nil :
    ∀ (es : List Nat) (t : BinTree), BinTree.Bounded none t none →
      List.Perm t.inorder es → splayEraseAll t es = some .nil
  | [], t => fun _ hp => by
    rw [BinTree.inorder_eq_nil t (List.Perm.eq_nil hp)]
    rfl
  | k :: es, t => fun hb hp => by
    have hk : k ∈ t.inorder := hp.mem_iff.mpr (List.mem_cons_self k es)
    obtain ⟨u, hu⟩ := BinTree.eraseSplay_isSome t none none k hb hk
    obtain ⟨-, hperm, hbu⟩ := BinTree.eraseSplay_spec t none none k u hb hu
    have hstep : splayEraseAll t (k :: es) = splayEraseAll u es := by
      show (match t.eraseSplay k with | some u2 => splayEraseAll u2 es | none => none) = _
      rw [hu]
    rw [hstep]
    exact splayEraseAll_nil es u hbu (List.Perm.cons_inv (hperm.trans hp))

theorem aaEraseAll_nil :
    ∀ (es : List Nat) (t : AATree), AATree.Bounded none t none →
      List.Perm t.inorder es → aaEraseAll t es = some .nil
  | [], t => fun _ hp => by
    rw [AATree.inorder_eq_nil_aa t (List.Perm.eq_nil hp)]
    rfl
  | k :: es, t => fun hb hp => by
    have hk : k ∈ t.inorder := hp.mem_iff.mpr (List.mem_cons_self k es)
    obtain ⟨u, hu⟩ := AATree.erase_isSome_aa t none none k hb hk
    obtain ⟨-, hperm, hbu⟩ := AATree.erase_spec_aa t none none k u hb hu
    have hstep : aaEraseAll t (k :: es) = aaEraseAll u es := by
      show (match t.erase k with | some u2 => aaEraseAll u2 es | none => none) = _
      rw [hu]
    rw [hstep]
    exact aaEraseAll_nil es u hbu (List.Perm.cons_inv (hperm.trans hp))

theorem rbEraseAll_nil :
    ∀ (es : List Nat) (t : RBTree), RBTree.Bounded none t none →
      List.Perm t.inorder es → rbEraseAll t es = some .nil
  | [], t => fun _ hp => by
    rw [RBTree.inorder_eq_nil_rb t (List.Perm.eq_nil hp)]
    rfl
  | k :: es, t => fun hb hp => by
    have hk : k ∈ t.inorder := hp.mem_iff.mpr (List.mem_cons_self k es)
    obtain ⟨u, hu⟩ := RBTree.erase_isSome_rb t none none k hb hk
    obtain ⟨-, hperm, hbu⟩ := RBTree.erase_spec_rb t none none k u hb hu
    have hstep : rbEraseAll t (k :: es) = rbEraseAll u es := by
      show (match t.erase k with | some u2 => rbEraseAll u2 es | none => none) = _
      rw [hu]
    rw [hstep]
    exact rbEraseAll_nil es u hbu (List.Perm.cons_inv (hperm.trans hp))

/-- C5: for every tree variant, inserting a set of distinct keys into the
empty tree and then erasing the same keys — both in arbitrary orders —
returns the container to the empty state: every erase succeeds, the final
tree is the null root, and its size is 0. -/
theorem claim_C5_round_trip (ks es : List Nat) (hnd : ks.Nodup) (hp : List.Perm es ks) :
    (bstEraseAll (bstInsertAll .nil ks) es = some .nil ∧
      avlEraseAll (avlInsertAll .nil ks) es = some .nil ∧
      splayEraseAll (splayInsertAll .nil ks) es = some .nil ∧
      aaEraseAll (aaInsertAll .nil ks) es = some .nil ∧
      rbEraseAll (rbInsertAll .nil ks) es = some .nil ∧
      BinTree.nil.size = 0 ∧ AATree.nil.size = 0 ∧ RBTree.nil.size = 0) := by
  obtain ⟨a1, a2⟩ := bstInsertAll_spec ks .nil trivial
  obtain ⟨b1, b2⟩ := avlInsertAll_spec ks .nil trivial
  obtain ⟨c1, c2⟩ := splayInsertAll_spec ks .nil trivial
  obtain ⟨d1, d2⟩ := aaInsertAll_spec ks .nil trivial
  obtain ⟨e1, e2⟩ := rbInsertAll_spec ks .nil trivial
  simp only [BinTree.inorder_nil, AATree.inorder_nil_aa, RBTree.inorder_nil_rb,
    List.append_nil] at a2 b2 c2 d2 e2
  exact ⟨bstEraseAll_nil es _ a1 (a2.trans hp.symm),
    avlEraseAll_nil es _ b1 (b2.trans hp.symm),
    splayEraseAll_nil es _ c1 (c2.trans hp.symm),
    aaEraseAll_nil es _ d1 (d2.trans hp.symm),
    rbEraseAll_nil es _ e1 (e2.trans hp.symm),
    rfl, rfl, rfl⟩

/-- Witness for C5 at a concrete instance: three distinct keys inserted in
one order and erased in another. -/
theorem claim_C5_round_trip_witness :
    (([1, 2, 3] : List Nat).Nodup ∧ List.Perm [2, 3, 1] [1, 2, 3] ∧
      (bstEraseAll (bstInsertAll .nil [1, 2, 3]) [2, 3, 1] = some .nil ∧
        avlEraseAll (avlInsertAll .nil [1, 2, 3]) [2, 3, 1] = some .nil ∧
        splayEraseAll (splayInsertAll .nil [1, 2, 3]) [2, 3, 1] = some .nil ∧
        aaEraseAll (aaInsertAll .nil [1, 2, 3]) [2, 3, 1] = some .nil ∧
        rbEraseAll (rbInsertAll .nil [1, 2, 3]) [2, 3, 1] = some .nil ∧
        BinTree.nil.size = 0 ∧ AATree.nil.size = 0 ∧ RBTree.nil.size = 0)) :=
  ⟨by decide, by decide, claim_C5_round_trip [1, 2, 3] [2, 3, 1] (by decide) (by decide)⟩

theorem bool_eq_false (b : Bool) (h : ¬ b = true) : b = false := by
  cases b
  · rfl
  · exact absurd rfl h

/-- C4: for the splay variant, after `find(k)` on a tree that contains `k`,
the resulting tree's root is a node holding key `k` (and the find reports a
hit). -/
theorem claim_C4_splay_find_root (t : BinTree) (k : Nat)
    (hb : BinTree.Bounded none t none) (hm : k ∈ t.inorder) :
    ∃ l r, (t.findSplay k).1 = .node l k r ∧ (t.findSplay k).2 = true :=
  BinTree.findSplay_root t k hb hm

/-- Witness for C4 at a concrete instance: finding 1 in the two-node tree
with root 2 splays 1 to the root. -/
theorem claim_C4_splay_find_root_witness :
    (BinTree.Bounded none (.node (.node .nil 1 .nil) 2 .nil) none ∧
      1 ∈ (BinTree.node (.node .nil 1 .nil) 2 .nil).inorder ∧
      ∃ l r, ((BinTree.node (.node .nil 1 .nil) 2 .nil).findSplay 1).1 = .node l 1 r ∧
        ((BinTree.node (.node .nil 1 .nil) 2 .nil).findSplay 1).2 = true) :=
  ⟨by decide, by decide, claim_C4_splay_find_root _ 1 (by decide) (by decide)⟩

/-- C6: for every tree variant, `find` and `erase` on a key that is not in
the tree report "not found" (`false` / `none`) instead of aborting; and on
the empty tree `find` reports "not found" for every key — for the splay
variant, whose find returns the (possibly restructured) tree, the empty
tree is returned unchanged. -/
theorem claim_C6_not_found (k : Nat)
    (t1 : BinTree) (hb1 : BinTree.Bounded none t1 none) (hk1 : k ∉ t1.inorder)
    (t2 : BinTree) (hb2 : BinTree.Bounded none t2 none) (hk2 : k ∉ t2.inorder)
    (t3 : BinTree) (hb3 : BinTree.Bounded none t3 none) (hk3 : k ∉ t3.inorder)
    (t4 : AATree) (hb4 : AATree.Bounded none t4 none) (hk4 : k ∉ t4.inorder)
    (t5 : RBTree) (hb5 : RBTree.Bounded none t5 none) (hk5 : k ∉ t5.inorder) :
    ((t1.find k = false ∧ t1.erase k = none) ∧
      (t2.find k = false ∧ t2.eraseAVL k = none) ∧
      ((t3.findSplay k).2 = false ∧ t3.eraseSplay k = none) ∧
      (t4.find k = false ∧ t4.erase k = none) ∧
      (t5.find k = false ∧ t5.erase k = none) ∧
      (BinTree.nil.find k = false ∧ BinTree.nil.findSplay k = (.nil, false) ∧
        AATree.nil.find k = false ∧ RBTree.nil.find k = false)) := by
  refine ⟨⟨?_, (BinTree.erase_eq_none_iff t1 none none k hb1).mpr hk1⟩,
    ⟨?_, (BinTree.eraseAVL_eq_none_iff t2 none none k hb2).mpr hk2⟩,
    ⟨BinTree.findSplay_not_found t3 k none none hb3 hk3,
      (BinTree.eraseSplay_eq_none_iff t3 none none k hb3).mpr hk3⟩,
    ⟨?_, (AATree.erase_eq_none_iff_aa t4 none none k hb4).mpr hk4⟩,
    ⟨?_, (RBTree.erase_eq_none_iff_rb t5 none none k hb5).mpr hk5⟩,
    rfl, rfl, rfl, rfl⟩
  · exact bool_eq_false _ (fun ht => hk1 ((BinTree.find_iff_mem t1 none none k hb1).mp ht))
  · exact bool_eq_false _ (fun ht => hk2 ((BinTree.find_iff_mem t2 none none k hb2).mp ht))
  · exact bool_eq_false _ (fun ht => hk4 ((AATree.find_iff_mem_aa t4 none none k hb4).mp ht))
  · exact bool_eq_false _ (fun ht => hk5 ((RBTree.find_iff_mem_rb t5 none none k hb5).mp ht))

/-- Witness for C6 at a concrete instance: key 5 is absent from each
single-node tree. -/
theorem claim_C6_not_found_witness :
    (BinTree.Bounded none (.node .nil 1 .nil) none ∧
      5 ∉ (BinTree.node .nil 1 .nil).inorder ∧
      AATree.Bounded none (.node 1 .nil 2 .nil) none ∧
      5 ∉ (AATree.node 1 .nil 2 .nil).inorder ∧
      RBTree.Bounded none (.node .black .nil 3 .nil) none ∧
      5 ∉ (RBTree.node .black .nil 3 .nil).inorder ∧
      (((BinTree.node .nil 1 .nil).find 5 = false ∧
          (BinTree.node .nil 1 .nil).erase 5 = none) ∧
        ((BinTree.node .nil 1 .nil).find 5 = false ∧
          (BinTree.node .nil 1 .nil).eraseAVL 5 = none) ∧
        (((BinTree.node .nil 1 .nil).findSplay 5).2 = false ∧
          (BinTree.node .nil 1 .nil).eraseSplay 5 = none) ∧
        ((AATree.node 1 .nil 2 .nil).find 5 = false ∧
          (AATree.node 1 .nil 2 .nil).erase 5 = none) ∧
        ((RBTree.node .black .nil 3 .nil).find 5 = false ∧
          (RBTree.node .black .nil 3 .nil).erase 5 = none) ∧
        (BinTree.nil.find 5 = false ∧ BinTree.nil.findSplay 5 = (.nil, false) ∧
          AATree.nil.find 5 = false ∧ RBTree.nil.find 5 = false))) :=
  ⟨by decide, by decide, by decide, by decide, by decide, by decide,
    claim_C6_not_found 5 _ (by decide) (by decide) _ (by decide) (by decide)
      _ (by decide) (by decide) _ (by decide) (by decide) _ (by decide) (by decide)⟩

/-- Modelled from the spec (section 4.3): `rotate_left` — defined when the
node has a non-null right child `y`; `y` becomes the subtree root, the
rotated node becomes `y`'s left child, and `y`'s former left subtree becomes
the rotated node's new right subtree.  Returns `none` otherwise. -/
def BinTree.rotateLeft : BinTree → Option BinTree
  | .node A x (.node B y C) => some (.node (.node A x B) y C)
  | _ => none

/-- Modelled from the spec (section 4.3): `rotate_right`, the mirror image
of `rotate_left`. -/
def BinTree.rotateRight : BinTree → Option BinTree
  | .node (.node A y B) x C => some (.node A y (.node B x C))
  | _ => none

/-- The subtree of `t` reached by a root-to-node path (`false` = left child,
`true` = right child); models naming a node inside a larger tree (the spec
section 4.3 describes rotations at a node below a parent). -/
def BinTree.subtreeAt : BinTree → List Bool → Option BinTree
  | t, [] => some t
  | .nil, _ :: _ => none
  | .node l _ _, false :: p => l.subtreeAt p
  | .node _ _ r, true :: p => r.subtreeAt p

/-- Replace the subtree of `t` at a path, leaving the rest of the tree (in
particular the former parent of that position) unchanged. -/
def BinTree.replaceAt : BinTree → List Bool → BinTree → BinTree
  | _, [], s => s
  | .nil, _ :: _, _ => .nil
  | .node l k r, false :: p, s => .node (l.replaceAt p s) k r
  | .node l k r, true :: p, s => .node l k (r.replaceAt p s)

theorem BinTree.subtreeAt_nilpath (t : BinTree) : t.subtreeAt [] = some t := by
  cases t <;> rfl

theorem BinTree.replaceAt_nilpath (t s : BinTree) : t.replaceAt [] s = s := by
  cases t <;> rfl

theorem BinTree.inorder_replaceAt :
    ∀ (p : List Bool) (t u s : BinTree), t.subtreeAt p = some u → s.inorder = u.inorder →
      (t.replaceAt p s).inorder = t.inorder
  | [], t, u, s => fun h hs => by
    rw [subtreeAt_nilpath] at h
    rw [replaceAt_nilpath, hs, Option.some.inj h]
  | b :: p, .nil, u, s => fun h _ => by simp [BinTree.subtreeAt] at h
  | false :: p, .node l k r, u, s => fun h hs => by
    show (BinTree.node (l.replaceAt p s) k r).inorder = (BinTree.node l k r).inorder
    simp only [inorder_node]
    rw [inorder_replaceAt p l u s h hs]
  | true :: p, .node l k r, u, s => fun h hs => by
    show (BinTree.node l k (r.replaceAt p s)).inorder = (BinTree.node l k r).inorder
    simp only [inorder_node]
    rw [inorder_replaceAt p r u s h hs]

theorem BinTree.subtreeAt_replaceAt :
    ∀ (p : List Bool) (t u s : BinTree), t.subtreeAt p = some u →
      (t.replaceAt p s).subtreeAt p = some s
  | [], t, u, s => fun _ => by rw [replaceAt_nilpath, subtreeAt_nilpath]
  | b :: p, .nil, u, s => fun h => by simp [BinTree.subtreeAt] at h
  | false :: p, .node l k r, u, s => fun h => subtreeAt_replaceAt p l u s h
  | true :: p, .node l k r, u, s => fun h => subtreeAt_replaceAt p r u s h

/-- C7: `rotate_left` at a node with non-null right child `y` (reached by
any path inside any tree) produces, after splicing the rotated subtree back
at the same position relative to the former parent, a tree with the same
in-order sequence, in which `y` occupies the node's former position, the
node is `y`'s left child, and `y`'s former left subtree is the node's right
subtree; symmetrically for `rotate_right`. -/
theorem claim_C7_rotations (t1 t2 : BinTree) (p1 p2 : List Bool)
    (A B C D E F : BinTree) (x y u v : Nat)
    (h1 : t1.subtreeAt p1 = some (.node A x (.node B y C)))
    (h2 : t2.subtreeAt p2 = some (.node (.node D u E) v F)) :
    (((BinTree.node A x (.node B y C)).rotateLeft = some (.node (.node A x B) y C) ∧
        (t1.replaceAt p1 (.node (.node A x B) y C)).inorder = t1.inorder ∧
        (t1.replaceAt p1 (.node (.node A x B) y C)).subtreeAt p1 =
          some (.node (.node A x B) y C)) ∧
      ((BinTree.node (.node D u E) v F).rotateRight = some (.node D u (.node E v F)) ∧
        (t2.replaceAt p2 (.node D u (.node E v F))).inorder = t2.inorder ∧
        (t2.replaceAt p2 (.node D u (.node E v F))).subtreeAt p2 =
          some (.node D u (.node E v F)))) :=
  ⟨⟨rfl, BinTree.inorder_replaceAt p1 t1 _ _ h1 (by simp),
      BinTree.subtreeAt_replaceAt p1 t1 _ _ h1⟩,
    ⟨rfl, BinTree.inorder_replaceAt p2 t2 _ _ h2 (by simp),
      BinTree.subtreeAt_replaceAt p2 t2 _ _ h2⟩⟩

/-- Witness for C7 at concrete instances: a left rotation at the root of
the chain 1-2 and a right rotation at the root of the mirrored chain. -/
theorem claim_C7_rotations_witness :
    ((BinTree.node .nil 1 (.node .nil 2 .nil)).subtreeAt [] =
        some (.node .nil 1 (.node .nil 2 .nil)) ∧
      (BinTree.node (.node .nil 1 .nil) 2 .nil).subtreeAt [] =
        some (.node (.node .nil 1 .nil) 2 .nil) ∧
      (((BinTree.node .nil 1 (.node .nil 2 .nil)).rotateLeft =
          some (.node (.node .nil 1 .nil) 2 .nil) ∧
        ((BinTree.node .nil 1 (.node .nil 2 .nil)).replaceAt []
            (.node (.node .nil 1 .nil) 2 .nil)).inorder =
          (BinTree.node .nil 1 (.node .nil 2 .nil)).inorder ∧
        ((BinTree.node .nil 1 (.node .nil 2 .nil)).replaceAt []
            (.node (.node .nil 1 .nil) 2 .nil)).subtreeAt [] =
          some (.node (.node .nil 1 .nil) 2 .nil)) ∧
      ((BinTree.node (.node .nil 1 .nil) 2 .nil).rotateRight =
          some (.node .nil 1 (.node .nil 2 .nil)) ∧
        ((BinTree.node (.node .nil 1 .nil) 2 .nil).replaceAt []
            (.node .nil 1 (.node .nil 2 .nil))).inorder =
          (BinTree.node (.node .nil 1 .nil) 2 .nil).inorder ∧
        ((BinTree.node (.node .nil 1 .nil) 2 .nil).replaceAt []
            (.node .nil 1 (.node .nil 2 .nil))).subtreeAt [] =
          some (.node .nil 1 (.node .nil 2 .nil))))) :=
  ⟨by decide, by decide,
    claim_C7_rotations (.node .nil 1 (.node .nil 2 .nil)) (.node (.node .nil 1 .nil) 2 .nil)
      [] [] .nil .nil .nil .nil .nil .nil 1 2 1 2 (by decide) (by decide)⟩
